import Mathlib

/-!
Verification of the client-lib workflow kernel.

A shallow embedding, in Lean 4, of the core algorithms of the `client-lib`
repository: the Kahn-style leveled DAG builder (`src/dist/dag/traversal.js`),
the leveled DAG executor (`src/dist/dag/executor.js`), the git reference
parsing helpers (`src/src/git/ref-parser.ts`), the ecosystem scanner
(`src/src/procedures/lib/scan.ts`), the installer (`install.js`), the rename
engine (`rename.ts`), the refresh workflow (`refresh.ts`) and the pull
workflow (`pull.js`), together with theorems settling the specified
properties of each.

JavaScript `Map`s and plain objects are modelled as insertion-ordered
association lists; `Map.get`/`Map.set` and object indexing are modelled by
`alookup`/`aset` below, which mirror the JS semantics (set replaces in place
when the key exists, otherwise appends).  Worlds of external effects
(filesystem, git, pnpm) are modelled as explicit records of query functions,
and side effects as explicit call traces.
-/

namespace ClientLib

/-- `Map.get` / object indexing: first (= unique) binding of a key. -/
def alookup {β : Type} : List (String × β) → String → Option β
  | [], _ => none
  | (a, b) :: t, k => if a = k then some b else alookup t k

/-- `Map.set` / object index assignment: replace in place when the key is
present (JS preserves the key's original position), append otherwise. -/
def aset {β : Type} : List (String × β) → String → β → List (String × β)
  | [], k, v => [(k, v)]
  | (a, b) :: t, k, v => if a = k then (k, v) :: t else (a, b) :: aset t k v

/-- `delete obj[k]`: remove the (unique) binding of `k`. -/
def adelete {β : Type} : List (String × β) → String → List (String × β)
  | [], _ => []
  | (a, b) :: t, k => if a = k then t else (a, b) :: adelete t k

/-- Object spread `{...a, ...b}`: keys of `a` in order (values overridden by
`b` where present), then the keys of `b` not already in `a`, in order. -/
def amerge {β : Type} (a b : List (String × β)) : List (String × β) :=
  (a.map (fun p => (p.1, (alookup b p.1).getD p.2))) ++
    b.filter (fun p => (alookup a p.1).isNone)

namespace Dag

/-- The part of the `Map<string, DAGNode>` input that `buildLeveledDAG`
reads: each node's key and its `dependencies` array, in insertion order. -/
abbrev NodeMap := List (String × List String)

/-- `[...nodes.keys()]`. -/
def nkeys (nodes : NodeMap) : List String := nodes.map Prod.fst

/-- `nodes.get(n).dependencies` (empty when absent; `buildLeveledDAG` only
looks up names that are keys of the map). -/
def lookupDeps (nodes : NodeMap) (n : String) : List String :=
  ((alookup nodes n).getD [])

/-- `nodes.has(d)`. -/
def inGraph (nodes : NodeMap) (d : String) : Bool := (nkeys nodes).contains d

/-- `node.dependencies.filter((dep) => nodes.has(dep))`. -/
def depsInDag (nodes : NodeMap) (n : String) : List String :=
  (lookupDeps nodes n).filter (inGraph nodes)

/-- Initial in-degree: `inDegree.set(name, depsInDag.length)`. -/
def inDegree0 (nodes : NodeMap) (n : String) : Nat := (depsInDag nodes n).length

/-- The reverse-edge sets `dependents.get(d)`: the keys (in map order, each at
most once since the JS value is a `Set` and map keys are unique) of the nodes
whose `dependencies` array contains `d`. -/
def dependentsOf (nodes : NodeMap) (d : String) : List String :=
  nkeys (nodes.filter (fun p => p.2.contains d))

/-- The in-graph dependency edge relation: `edgeP nodes a b` holds when `b`
is listed in `a`'s dependencies and `b` is itself a key of the mapping. -/
def edgeP (nodes : NodeMap) (a b : String) : Prop := b ∈ depsInDag nodes a

instance (nodes : NodeMap) (a b : String) : Decidable (edgeP nodes a b) := by
  unfold edgeP
  infer_instance

/-- The in-graph dependency edges are acyclic: no node reaches itself through
a non-empty chain of dependency edges. -/
def Acyclic (nodes : NodeMap) : Prop :=
  ∀ n : String, ¬ Relation.TransGen (edgeP nodes) n n

/-- The body of the inner decrement loop: `const newDegree =
inDegree.get(dependent) - 1; inDegree.set(dependent, newDegree); if
(newDegree === 0) nextQueue.push(dependent)`.  The state carries the mutable
`inDegree` map (as a function into `Int`, matching the JS number semantics)
and the growing `nextQueue`. -/
def decrStep (st : (String → Int) × List String) (dep : String) :
    (String → Int) × List String :=
  let newDeg := st.1 dep - 1
  (fun x => if x = dep then newDeg else st.1 x,
   if newDeg = 0 then st.2 ++ [dep] else st.2)

/-- One iteration of the inner decrement loop, for one processed `name`:
`for (const dependent of dependents.get(name)) { ... }`. -/
def processOne (nodes : NodeMap) (st : (String → Int) × List String)
    (name : String) : (String → Int) × List String :=
  (dependentsOf nodes name).foldl decrStep st

/-- One iteration of the outer `while` loop body: process every name of the
current queue, producing the updated degree map and the next queue. -/
def kahnRound (nodes : NodeMap) (queue : List String) (deg : String → Int) :
    (String → Int) × List String :=
  queue.foldl (fun st name => processOne nodes st name) (deg, [])

/-- State of Kahn's algorithm between iterations of the `while` loop. -/
structure KahnState where
  queue : List String
  levels : List (List String)
  nodeLevel : List (String × Nat)
  deg : String → Int
  processed : Nat

/-- The `while (queue.length > 0)` loop, with fuel (the caller passes one
more than the node count, which the invariants show is never exhausted). -/
def kahnLoop (nodes : NodeMap) :
    Nat → List String → List (List String) → List (String × Nat) →
    (String → Int) → Nat → KahnState
  | fuel + 1, q@(_ :: _), levels, nodeLevel, deg, processed =>
      let res := kahnRound nodes q deg
      kahnLoop nodes fuel res.2 (levels ++ [q])
        (nodeLevel ++ q.map (fun n => (n, levels.length)))
        res.1 (processed + q.length)
  | _, q, levels, nodeLevel, deg, processed =>
      ⟨q, levels, nodeLevel, deg, processed⟩

/-- Run Kahn's algorithm: seed the queue with the zero-in-degree nodes (in
map iteration order) and loop. -/
def kahnRun (nodes : NodeMap) : KahnState :=
  kahnLoop nodes (nodes.length + 1)
    ((nkeys nodes).filter (fun n => inDegree0 nodes n == 0))
    [] [] (fun n => (inDegree0 nodes n : Int)) 0

/-- Specification helper: the number of decrements node `x` has received
after the nodes of `P` have been processed (each processed node decrements
each of its dependents exactly once). -/
def decCount (nodes : NodeMap) (x : String) (P : List String) : Nat :=
  (P.filter (fun p => (dependentsOf nodes p).contains x)).length

/-- Specification helper: the `nodeLevel` pairs generated by the levels list
starting at level index `i`. -/
def levelPairs (i : Nat) : List (List String) → List (String × Nat)
  | [] => []
  | lvl :: rest => lvl.map (fun n => (n, i)) ++ levelPairs (i + 1) rest

/-- The invariant of the `while` loop of `buildLeveledDAG`, relating the
queue, the emitted levels, the level map, the mutable degrees and the
processed count: processed names are distinct in-graph names, degrees record
the initial in-degree minus one decrement per processed dependency,
processed and queued nodes have degree zero and only they do, every emitted
node's in-graph dependencies lie in strictly earlier levels, and every
queued node's in-graph dependencies are already processed. -/
def LoopInv (nodes : NodeMap) (q : List String) (levels : List (List String))
    (nodeLevel : List (String × Nat)) (deg : String → Int) (processed : Nat) :
    Prop :=
  (levels.flatten ++ q).Nodup ∧
  (∀ x ∈ levels.flatten, x ∈ nkeys nodes) ∧
  (∀ x ∈ q, x ∈ nkeys nodes) ∧
  processed = levels.flatten.length ∧
  nodeLevel = levelPairs 0 levels ∧
  (∀ x ∈ nkeys nodes,
    deg x = (inDegree0 nodes x : Int) - decCount nodes x levels.flatten) ∧
  (∀ x, (x ∈ levels.flatten ∨ x ∈ q) → deg x = 0) ∧
  (∀ x ∈ nkeys nodes, x ∉ levels.flatten → x ∉ q → deg x ≠ 0) ∧
  (∀ i lvl, levels[i]? = some lvl →
    ∀ x ∈ lvl, depsInDag nodes x ⊆ (levels.take i).flatten) ∧
  (∀ x ∈ q, depsInDag nodes x ⊆ levels.flatten)

/-- The leveled plan returned by `buildLeveledDAG`: the levels (lists of node
names), the per-node level assignment, and the roots and leaves. -/
structure LeveledDAG where
  levels : List (List String)
  nodeLevel : List (String × Nat)
  roots : List String
  leaves : List String
deriving Repr, DecidableEq

/-- `buildLeveledDAG` (`src/dist/dag/traversal.js`): Kahn's algorithm with
level tracking; when fewer nodes were processed than the map holds, throw the
circular-dependency error carrying the names never assigned a level. -/
def buildLeveledDAG (nodes : NodeMap) : Except (List String) LeveledDAG :=
  let st := kahnRun nodes
  if st.processed ≠ nodes.length then
    .error ((nkeys nodes).filter (fun n => (alookup st.nodeLevel n).isNone))
  else
    .ok { levels := st.levels
          nodeLevel := st.nodeLevel
          roots := (nkeys nodes).filter (fun n => (dependentsOf nodes n).isEmpty)
          leaves := (nkeys nodes).filter (fun n => (depsInDag nodes n).isEmpty) }

end Dag

/-- External procedure calls made through `ctx.client.call` (or, for the
rename engine, through ts-morph's direct file access), as recorded in the
call traces of the workflow models. -/
inductive Call where
  | fsExists (path : String)
  | fsReadJson (path : String)
  | fsGlob (pattern : String)
  | fsWrite (path : String)
  | fsRm (path : String)
  | tsRead (path : String)
  | tsSave (path : String)
  | gitStatus (cwd : String)
  | gitRemote (cwd : String)
  | gitAdd (cwd : String)
  | gitCommit (cwd : String)
  | gitPush (cwd : String)
  | gitPull (cwd : String)
  | gitCheckout (cwd : String) (ref : String)
  | gitClone (url : String) (dest : String)
  | pnpmInstall (cwd : String)
  | pnpmRun (cwd : String) (script : String)
deriving Repr, DecidableEq

/-- The calls the dry-run purity property forbids: `fs.write`, `fs.rm`
(`fs.mkdir` is never emitted by the modelled workflows), mutating `git.*`
calls, and side-effecting shell / package-manager calls (ts-morph's
`saveSync` is a file write). -/
def mutatingCall : Call → Bool
  | .fsWrite _ => true
  | .fsRm _ => true
  | .tsSave _ => true
  | .gitAdd _ => true
  | .gitCommit _ => true
  | .gitPush _ => true
  | .gitPull _ => true
  | .gitCheckout _ _ => true
  | .gitClone _ _ => true
  | .pnpmInstall _ => true
  | .pnpmRun _ _ => true
  | _ => false

namespace Exec

/-- Observable scheduling events of the DAG executor: a node's processor
being started, and its settling with a success flag. -/
inductive ExecEvent where
  | start : String → ExecEvent
  | settle : String → Bool → ExecEvent
deriving Repr, DecidableEq

def isFailSettle : ExecEvent → Bool
  | .settle _ false => true
  | _ => false

def isStart : ExecEvent → Bool
  | .start _ => true
  | _ => false

/-- The node an event is about. -/
def eventName : ExecEvent → String
  | .start n => n
  | .settle n _ => n

/-- A per-node processor: from the node name and the current effect state,
the settled success flag, the external calls made, and the new state.  (In
the source a processor is an async function; `σ` models its side effects.) -/
abbrev Processor (σ : Type) := String → σ → Bool × List Call × σ

/-- `executeWithConcurrency` over one level at the deterministic schedule of
`executeDAGSequential` (`executeDAG` with `concurrency = 1`, executor.js
lines 78–80): each node is started and settles before the next one starts.
Returns the settled `(name, success)` pairs in settle order, the events, the
calls, and the final state.  Note that the synthetic-skip branch inside the
level (executor.js lines 41–50) is unreachable: `shouldStop` is only
updated after `executeWithConcurrency` has returned, so it is constant
during a level. -/
def execLevel {σ : Type} (proc : Processor σ) :
    List String → σ →
    List (String × Bool) × List ExecEvent × List Call × σ
  | [], s => ([], [], [], s)
  | n :: rest, s =>
      let r := proc n s
      let t := execLevel proc rest r.2.2
      ((n, r.1) :: t.1,
       (ExecEvent.start n :: ExecEvent.settle n r.1 :: t.2.1),
       r.2.1 ++ t.2.2.1,
       t.2.2.2)

/-- Intermediate output of the level loop of `executeDAG`: the settled
`(name, success)` pairs, the failed node names, events, calls, state. -/
structure ExecOut (σ : Type) where
  pairs : List (String × Bool)
  failed : List String
  events : List ExecEvent
  calls : List Call
  state : σ

/-- The `for (const level of dag.levels)` loop of `executeDAG`: in fail-fast
mode, a level containing a failure sets `shouldStop`, and the loop breaks
before the next level (so later levels produce no results, events or
calls). -/
def execGo {σ : Type} (proc : Processor σ) (failFast : Bool) :
    List (List String) → σ → ExecOut σ
  | [], s => ⟨[], [], [], [], s⟩
  | lvl :: rest, s =>
      let r := execLevel proc lvl s
      let newFailed := (r.1.filter (fun p => !p.2)).map Prod.fst
      if failFast && !newFailed.isEmpty then
        ⟨r.1, newFailed, r.2.1, r.2.2.1, r.2.2.2⟩
      else
        let t := execGo proc failFast rest r.2.2.2
        ⟨r.1 ++ t.pairs, newFailed ++ t.failed, r.2.1 ++ t.events,
         r.2.2.1 ++ t.calls, t.state⟩

/-- `results.set(result.node.name, result)` folded over the settled results
in settle order. -/
def asetAll (m : List (String × Bool)) (l : List (String × Bool)) :
    List (String × Bool) :=
  l.foldl (fun m p => aset m p.1 p.2) m

/-- Aggregate result of `executeDAG` (`pairs` is the raw settle-ordered
result list from which the `results` map is built). -/
structure DAGResult (σ : Type) where
  success : Bool
  results : List (String × Bool)
  pairs : List (String × Bool)
  failedNodes : List String
  events : List ExecEvent
  calls : List Call
  state : σ

/-- `executeDAG` (`src/dist/dag/executor.js`): process levels in order,
collect per-node results into the `results` map, record failures, and in
fail-fast mode stop before the level after the first failure; `success` is
`failedNodes.length === 0`. -/
def executeDAG {σ : Type} (levels : List (List String)) (proc : Processor σ)
    (failFast : Bool) (s : σ) : DAGResult σ :=
  let t := execGo proc failFast levels s
  ⟨t.failed.isEmpty, asetAll [] t.pairs, t.pairs, t.failed, t.events, t.calls, t.state⟩

/-- The claimed never-property: once some processor has settled with
failure, no processor is subsequently started. -/
def noStartAfterFailure (es : List ExecEvent) : Prop :=
  ∀ i j : Fin es.length, i < j →
    isFailSettle (es.get i) = true → isStart (es.get j) = false

instance (es : List ExecEvent) : Decidable (noStartAfterFailure es) := by
  unfold noStartAfterFailure
  infer_instance

end Exec

/-- JS `p.isPrefixOf`-style sublist test: `s.includes(pat)`. -/
def isSubList (pat : List Char) : List Char → Bool
  | [] => pat.isEmpty
  | c :: t => pat.isPrefixOf (c :: t) || isSubList pat t

/-- JS `String.prototype.includes`. -/
def strIncludes (s pat : String) : Bool := isSubList pat.data s.data

/-- JS `String.prototype.replace` with a string pattern: replace the first
occurrence only (the whole string is returned unchanged when the pattern
does not occur; an empty pattern matches at position 0). -/
def replaceOnce (pat rep : List Char) : List Char → List Char
  | [] => if pat.isEmpty then rep else []
  | c :: t =>
    if pat.isPrefixOf (c :: t) then rep ++ (c :: t).drop pat.length
    else c :: replaceOnce pat rep t

/-- `replaceOnce` on `String`s. -/
def strReplaceOnce (s pat rep : String) : String :=
  ⟨replaceOnce pat.data rep.data s.data⟩

/-- JS `String.prototype.startsWith`. -/
def strStarts (s p : String) : Bool := p.data.isPrefixOf s.data

namespace Git

/-- JS `\w` (without the `u` flag): ASCII letters, digits and underscore. -/
def wordChar (c : Char) : Bool := c.isAlpha || c.isDigit || c == '_'

/-- The JS line terminators, which `.` does not match. -/
def lineTerm (c : Char) : Bool :=
  c == '\n' || c == '\r' || c == Char.ofNat 0x2028 || c == Char.ofNat 0x2029

/-- Matcher for the anchored pattern `^(\w+):([^/]+)\/([^#]+)#(.+)$` shared
by `parseGitRef` and `isGitRef` (ref-parser.ts lines 23 and 44; the two
regex literals are identical up to capture groups).  Backtracking never
helps for this pattern, so the greedy match is deterministic: the host is
the maximal run of word characters (followed by `:`; shortening it cannot
expose a `:` since every dropped character is a word character), the owner
is the maximal run of non-`/` characters (followed by `/`), the repo the
maximal run of non-`#` characters (followed by `#`), and the ref is the
remainder, which must be non-empty and free of line terminators (JS `.`
matches none of them, and `$` without the `m` flag only matches at the very
end). -/
def gitRefMatch (s : List Char) :
    Option (List Char × List Char × List Char × List Char) :=
  let host := s.takeWhile wordChar
  match s.dropWhile wordChar with
  | [] => none
  | c1 :: r1 =>
    if c1 = ':' then
      let owner := r1.takeWhile (fun c => !(c == '/'))
      match r1.dropWhile (fun c => !(c == '/')) with
      | [] => none
      | c2 :: r2 =>
        if c2 = '/' then
          let repo := r2.takeWhile (fun c => !(c == '#'))
          match r2.dropWhile (fun c => !(c == '#')) with
          | [] => none
          | c3 :: ref =>
            if c3 = '#' then
              if host.isEmpty || owner.isEmpty || repo.isEmpty || ref.isEmpty
                  || ref.any lineTerm then none
              else some (host, owner, repo, ref)
            else none
        else none
    else none

/-- A parsed git reference (`GitRef` in src/types). -/
structure GitRef where
  raw : String
  host : String
  owner : String
  repo : String
  ref : String
deriving Repr, DecidableEq

/-- `parseGitRef` (`src/src/git/ref-parser.ts` lines 18–38). -/
def parseGitRef (s : String) : Option GitRef :=
  match gitRefMatch s.data with
  | some (h, o, r, f) => some ⟨s, ⟨h⟩, ⟨o⟩, ⟨r⟩, ⟨f⟩⟩
  | none => none

/-- `isGitRef` (`src/src/git/ref-parser.ts` lines 43–45): the test of the
same pattern. -/
def isGitRef (s : String) : Bool := (gitRefMatch s.data).isSome

/-- `isMark1Russell7Ref` (`src/src/git/ref-parser.ts` lines 50–52). -/
def isMark1Russell7Ref (dep : String) : Bool := strIncludes dep "mark1russell7/"

end Git

/-- Result of `git.status` as consumed by `getGitStatus`
(`src/dist/git/operations.js` lines 16–26). -/
structure GitStatusData where
  branch : String
  hasStaged : Bool
  hasUncommitted : Bool
  clean : Bool
deriving Repr, DecidableEq

/-- One `packages` entry of the ecosystem manifest. -/
structure ManifestEntry where
  repo : String
  path : String
deriving Repr, DecidableEq

/-- The ecosystem manifest (the fields the scanner and installer read). -/
structure Manifest where
  root : String
  packages : List (String × ManifestEntry)
deriving Repr, DecidableEq

/-- The fields of a `package.json` the scanner reads (an absent
`dependencies` / `devDependencies` object is modelled as empty, which is how
the JS spread `{...undefined}` treats it). -/
structure PkgJson where
  name : Option String
  dependencies : List (String × String)
  devDependencies : List (String × String)
deriving Repr, DecidableEq

/-- The external world the scan / install / refresh / pull workflows query.
Each field models one external procedure as a pure function of its input;
`none` (or `false` for the `…Ok` fields) models the call throwing.  Worlds
are updated explicitly where a modelled call has a modelled effect (cloning
creates the destination directory, `fs.rm` removes one, `git.checkout`
changes the current branch); `pnpm` calls and git commit/push are modelled
as not affecting any queried field, since no modelled workflow observes
their effects within a single run. -/
structure World where
  home : String
  cwd : String
  dirExists : String → Bool
  pkgJsonAt : String → Option PkgJson
  manifestAt : String → Option Manifest
  gitStatusOf : String → Option GitStatusData
  gitRemoteUrl : String → Option String
  cloneOk : String → Bool
  pnpmInstallOk : String → Bool
  pnpmBuildOk : String → Bool
  rmOk : String → Bool
  gitAddOk : String → Bool
  gitCommitOk : String → Bool
  gitPushOk : String → Bool
  gitPullOk : String → Bool
  gitCheckoutOk : String → Bool
  pullCommits : String → Nat

/-- `node:path.join` for the two-argument uses in the modelled code. -/
def pjoin (a b : String) : String := a ++ "/" ++ b

/-- `resolveRoot` (scan.ts lines 36–41, install.js lines 29–34). -/
def resolveRoot (w : World) (root : String) : String :=
  if strStarts root "~/" then pjoin w.home (root.drop 2) else root

/-- `DEFAULT_ROOT = join(homedir(), "git")`. -/
def defaultRoot (w : World) : String := pjoin w.home "git"

/-- Mark a directory as existing (the effect of a successful clone). -/
def World.addDir (w : World) (p : String) : World :=
  { w with dirExists := fun q => if q = p then true else w.dirExists q }

/-- Mark a path as removed (the effect of a successful `fs.rm`). -/
def World.rmDir (w : World) (p : String) : World :=
  { w with dirExists := fun q => if q = p then false else w.dirExists q }

/-- Change the current branch (the effect of a successful checkout). -/
def World.setBranch (w : World) (p : String) (b : String) : World :=
  { w with gitStatusOf := fun q =>
      if q = p then (w.gitStatusOf q).map (fun st => { st with branch := b })
      else w.gitStatusOf q }

namespace Scan

/-- A scanned package descriptor (`PackageInfo`). -/
structure PackageInfo where
  name : String
  repoPath : String
  currentBranch : Option String
  gitRemote : Option String
  mark1russell7Deps : List String
deriving Repr, DecidableEq

/-- `extractMark1Russell7Deps` (scan.ts lines 62–73): names of merged
`dependencies`/`devDependencies` entries whose version string contains the
owner substring. -/
def extractDeps (pkg : PkgJson) : List String :=
  ((amerge pkg.dependencies pkg.devDependencies).filter
      (fun p => Git.isMark1Russell7Ref p.2)).map Prod.fst

/-- Outcome of scanning one manifest entry. -/
structure ScanOne where
  info : Option PackageInfo
  warning : Option (String × String)
  calls : List Call

/-- `scanPackage` (scan.ts lines 94–174). -/
def scanPackage (packageName : String) (entry : ManifestEntry)
    (rootPath : String) (w : World) : ScanOne :=
  let pkgPath := pjoin rootPath entry.path
  if !w.dirExists pkgPath then
    ⟨none, some (pkgPath, "Package directory does not exist"),
     [.fsExists pkgPath]⟩
  else
    match w.pkgJsonAt (pjoin pkgPath "package.json") with
    | none =>
        ⟨none, some (pkgPath, "Failed to read package.json"),
         [.fsExists pkgPath, .fsReadJson (pjoin pkgPath "package.json")]⟩
    | some pkg =>
        let actualName := pkg.name.getD packageName
        let deps := extractDeps pkg
        match w.gitStatusOf pkgPath with
        | some st =>
            let remote := w.gitRemoteUrl pkgPath
            ⟨some ⟨actualName, pkgPath, some st.branch, remote, deps⟩, none,
             [.fsExists pkgPath, .fsReadJson (pjoin pkgPath "package.json"),
              .gitStatus pkgPath, .gitRemote pkgPath]⟩
        | none =>
            ⟨some ⟨actualName, pkgPath, none, none, deps⟩,
             some (pkgPath, "Git not initialized"),
             [.fsExists pkgPath, .fsReadJson (pjoin pkgPath "package.json"),
              .gitStatus pkgPath]⟩

/-- Output of `libScan`. -/
structure ScanOut where
  packages : List (String × PackageInfo)
  warnings : List (String × String)
  calls : List Call

/-- The per-entry accumulation step of `libScan`'s main loop:
`packages[result.info.name] = result.info` (JS object assignment). -/
def scanStep (rootPath : String) (w : World) (acc : ScanOut)
    (e : String × ManifestEntry) : ScanOut :=
  let r := scanPackage e.1 e.2 rootPath w
  { packages := match r.info with
      | some info => aset acc.packages info.name info
      | none => acc.packages
    warnings := match r.warning with
      | some wrn => acc.warnings ++ [wrn]
      | none => acc.warnings
    calls := acc.calls ++ r.calls }

/-- `libScan` (scan.ts lines 179–210). -/
def libScan (rootPathIn : Option String) (w : World) : ScanOut :=
  let rootPath := rootPathIn.getD (defaultRoot w)
  let manifestPath := pjoin (pjoin rootPath "ecosystem") "ecosystem.manifest.json"
  match w.manifestAt manifestPath with
  | none =>
      ⟨[], [(manifestPath, "Failed to load ecosystem manifest - no packages to scan")],
       [.fsReadJson manifestPath]⟩
  | some m =>
      let manifestRoot := resolveRoot w m.root
      m.packages.foldl (scanStep manifestRoot w)
        ⟨[], [], [.fsReadJson manifestPath]⟩

end Scan

/-- A DAG node as built by `buildDAGNodes` (`src/dist/dag/builder.js`). -/
structure DAGNode where
  name : String
  repoPath : String
  gitRef : String
  requiredBranch : String
  dependencies : List String
deriving Repr, DecidableEq

/-- `buildDAGNodes` (builder.js lines 12–31): one node per scanned package,
keeping only dependencies that are themselves scanned, with the required
branch taken from the scanned current branch (defaulting to `main`). -/
def buildDAGNodes (packages : List (String × Scan.PackageInfo)) :
    List (String × DAGNode) :=
  packages.map (fun p =>
    (p.1,
     { name := p.1
       repoPath := p.2.repoPath
       gitRef := p.2.gitRemote.getD
         ("github:mark1russell7/" ++ p.2.name ++ "#" ++ (p.2.currentBranch.getD "main"))
       requiredBranch := p.2.currentBranch.getD "main"
       dependencies := p.2.mark1russell7Deps.filter
         (fun d => (alookup packages d).isSome) }))

/-- Forget everything but the keys and dependency lists, which is all
`buildLeveledDAG` reads. -/
def toNodeMap (nodes : List (String × DAGNode)) : Dag.NodeMap :=
  nodes.map (fun p => (p.1, p.2.dependencies))

/-- `filterDAGFromRoot`'s recursive `visit` (builder.js lines 35–52), with
fuel bounding the recursion depth (`nodes.length + 2` always suffices: every
recursive descent first records an unvisited name). -/
def filterVisit (nodes : List (String × DAGNode)) :
    Nat → List String × List (String × DAGNode) → String →
    List String × List (String × DAGNode)
  | 0, st, _ => st
  | fuel + 1, st, name =>
    if st.1.contains name then st
    else
      let visited := st.1 ++ [name]
      match alookup nodes name with
      | none => (visited, st.2)
      | some node =>
          node.dependencies.foldl (fun st dep => filterVisit nodes fuel st dep)
            (visited, st.2 ++ [(name, node)])

/-- `filterDAGFromRoot` (builder.js lines 35–52). -/
def filterDAGFromRoot (nodes : List (String × DAGNode)) (rootName : String) :
    List (String × DAGNode) :=
  (filterVisit nodes (nodes.length + 2) ([], []) rootName).2

namespace Install

/-- `repoToGitUrl` (install.js lines 39–48): match
`^github:([^#]+)#(.+)$` and build the clone URL and branch; `none` models
the thrown invalid-format error. -/
def repoToGitUrl (repo : String) : Option (String × String) :=
  let d := repo.data
  if ("github:".data).isPrefixOf d then
    let rest := d.drop 7
    let m1 := rest.takeWhile (fun c => !(c == '#'))
    match rest.dropWhile (fun c => !(c == '#')) with
    | '#' :: m2 =>
        if m1.isEmpty || m2.isEmpty || m2.any Git.lineTerm then none
        else some (⟨"git@github.com:".data ++ m1 ++ ".git".data⟩, ⟨m2⟩)
    | _ => none
  else none

/-- Input of `lib.install` (the fields the model reads). -/
structure InstallInput where
  rootPath : Option String
  dryRun : Bool
  continueOnError : Bool
deriving Repr, DecidableEq

/-- One entry of `results[]`. -/
structure InstallResult where
  name : String
  path : String
  success : Bool
deriving Repr, DecidableEq

/-- Output of `lib.install` (durations omitted). -/
structure InstallOut where
  success : Bool
  cloned : List String
  skipped : List String
  results : List InstallResult
  errors : List String
deriving Repr, DecidableEq

/-- State of the phase-1 clone loop. -/
structure Phase1St where
  world : World
  cloned : List String
  skipped : List String
  errors : List String
  calls : List Call

/-- One iteration of the phase-1 loop of `libInstall` (install.js lines
103–121): skip existing directories, record planned clones under `dryRun`,
otherwise clone (recording a failure message when the repo string is
invalid or the clone fails). -/
def phase1Step (resolvedRoot : String) (dryRun : Bool) (st : Phase1St)
    (e : String × ManifestEntry) : Phase1St :=
  let pkgPath := pjoin resolvedRoot e.2.path
  let st := { st with calls := st.calls ++ [Call.fsExists pkgPath] }
  if st.world.dirExists pkgPath then
    { st with skipped := st.skipped ++ [e.1] }
  else if dryRun then
    { st with cloned := st.cloned ++ [e.1] }
  else
    match repoToGitUrl e.2.repo with
    | none =>
        { st with errors := st.errors ++ ["Failed to clone " ++ e.1 ++ ": Invalid repo format: " ++ e.2.repo] }
    | some (url, _branch) =>
        let st := { st with calls := st.calls ++ [Call.gitClone url pkgPath] }
        if st.world.cloneOk pkgPath then
          { st with world := st.world.addDir pkgPath, cloned := st.cloned ++ [e.1] }
        else
          { st with errors := st.errors ++ ["Failed to clone " ++ e.1] }

/-- The per-node processor of phase 3 (install.js lines 137–156): pnpm
install, then pnpm run build; a failure of either makes the node fail. -/
def installProcessor (allNodes : List (String × DAGNode)) :
    Exec.Processor World := fun name w =>
  match alookup allNodes name with
  | none => (false, [], w)
  | some node =>
      if w.pnpmInstallOk node.repoPath then
        if w.pnpmBuildOk node.repoPath then
          (true, [.pnpmInstall node.repoPath, .pnpmRun node.repoPath "build"], w)
        else
          (false, [.pnpmInstall node.repoPath, .pnpmRun node.repoPath "build"], w)
      else
        (false, [.pnpmInstall node.repoPath], w)

/-- Build the `results[]` list: entries pushed by successful processors (in
settle order), followed by the failed entries appended from
`dagResult.results` (install.js lines 149–176). -/
def mkResults (allNodes : List (String × DAGNode))
    (pairs : List (String × Bool)) : List InstallResult :=
  ((pairs.filter (fun p => p.2)).map (fun p =>
      ⟨p.1, (alookup allNodes p.1).map DAGNode.repoPath |>.getD "unknown", true⟩)) ++
  ((pairs.filter (fun p => !p.2)).map (fun p =>
      ⟨p.1, (alookup allNodes p.1).map DAGNode.repoPath |>.getD "unknown", false⟩))

/-- `libInstall` (install.js lines 78–185).  The `Except` error carries the
cycle payload of an uncaught `buildLeveledDAG` throw. -/
def libInstall (input : InstallInput) (w : World) :
    Except (List String) (InstallOut × World × List Call) :=
  let rootPath := input.rootPath.getD (pjoin w.home "git")
  let manifestPath := pjoin (pjoin rootPath "ecosystem") "ecosystem.manifest.json"
  match w.manifestAt manifestPath with
  | none =>
      .ok (⟨false, [], [], [],
            ["Could not load ecosystem manifest from " ++ manifestPath ++
             ". Make sure the ecosystem package is cloned to " ++ rootPath ++ "/ecosystem"]⟩,
           w, [.fsReadJson manifestPath])
  | some m =>
      let resolvedRoot := resolveRoot w m.root
      let p1 := m.packages.foldl (phase1Step resolvedRoot input.dryRun)
        ⟨w, [], [], [], [.fsReadJson manifestPath]⟩
      if input.dryRun then
        .ok (⟨true, p1.cloned, p1.skipped, [], p1.errors⟩, p1.world, p1.calls)
      else
        let scanRes := Scan.libScan (some resolvedRoot) p1.world
        let allNodes := buildDAGNodes scanRes.packages
        match Dag.buildLeveledDAG (toNodeMap allNodes) with
        | .error cyc => .error cyc
        | .ok dag =>
            let dagRes := Exec.executeDAG dag.levels (installProcessor allNodes)
              (!input.continueOnError) p1.world
            .ok (⟨dagRes.success && p1.errors.isEmpty,
                  p1.cloned, p1.skipped,
                  mkResults allNodes dagRes.pairs,
                  p1.errors⟩,
                 dagRes.state,
                 p1.calls ++ scanRes.calls ++ dagRes.calls)

end Install

/-- Errors a workflow can raise (propagate uncaught): a cycle thrown by
`buildLeveledDAG`, or an uncaught read failure. -/
inductive WorkflowErr where
  | cycle (nodes : List String)
  | readFail (path : String)
deriving Repr, DecidableEq

/-- `ensureBranch` (`src/dist/git/operations.js` lines 99–121): read the
status; when already on the required branch do nothing; otherwise commit any
staged changes, re-read the status, stage-and-commit any remaining changes,
and check out the required branch.  `none` models a thrown git error; the
returned `Bool` is the `switched` flag.  The re-read of the status returns
the same data, since the modelled world does not track post-commit status
changes (no modelled workflow observes them). -/
def ensureBranch (repoPath requiredBranch : String) (w : World) :
    Option Bool × World × List Call :=
  match w.gitStatusOf repoPath with
  | none => (none, w, [Call.gitStatus repoPath])
  | some st =>
    if st.branch = requiredBranch then (some false, w, [Call.gitStatus repoPath])
    else
      let c1 : List Call := [Call.gitStatus repoPath]
      if st.hasStaged && !w.gitCommitOk repoPath then
        (none, w, c1 ++ [Call.gitCommit repoPath])
      else
        let c2 := c1 ++ (if st.hasStaged then [Call.gitCommit repoPath] else [])
          ++ [Call.gitStatus repoPath]
        if st.hasUncommitted && !w.gitAddOk repoPath then
          (none, w, c2 ++ [Call.gitAdd repoPath])
        else if st.hasUncommitted && !w.gitCommitOk repoPath then
          (none, w, c2 ++ [Call.gitAdd repoPath, Call.gitCommit repoPath])
        else
          let c3 := c2 ++ (if st.hasUncommitted then
            [Call.gitAdd repoPath, Call.gitCommit repoPath] else [])
          if w.gitCheckoutOk repoPath then
            (some true, w.setBranch repoPath requiredBranch,
             c3 ++ [Call.gitCheckout repoPath requiredBranch])
          else
            (none, w, c3 ++ [Call.gitCheckout repoPath requiredBranch])

namespace Refresh

/-- Options threaded from `LibRefreshInput` into `refreshSinglePackage`. -/
structure RefreshOptions where
  force : Bool
  skipGit : Bool
  dryRun : Bool
deriving Repr, DecidableEq

/-- A per-package refresh result (durations omitted; `plannedOperations` is
present exactly on the dry-run path). -/
structure RefreshResult where
  name : String
  path : String
  success : Bool
  plannedOperations : Option (List String)
deriving Repr, DecidableEq

/-- The dry-run branch of `refreshSinglePackage` (refresh.ts lines
105–153): probe what cleanup would delete, plan the pnpm phases, and probe
git status for the planned git operations; nothing is executed. -/
def refreshSingleDry (pkgPath packageName : String) (opts : RefreshOptions)
    (w : World) : RefreshResult × List Call :=
  let nm := pjoin pkgPath "node_modules"
  let ds := pjoin pkgPath "dist"
  let lk := pjoin pkgPath "pnpm-lock.yaml"
  let tb := pjoin pkgPath "tsconfig.tsbuildinfo"
  let forceCalls := if opts.force then
      [Call.fsExists nm, Call.fsExists ds, Call.fsExists lk, Call.fsExists tb]
    else []
  let forcePlanned := (if opts.force then
      (if w.dirExists nm then ["DELETE node_modules/"] else []) ++
      (if w.dirExists ds then ["DELETE dist/"] else []) ++
      (if w.dirExists lk then ["DELETE pnpm-lock.yaml"] else []) ++
      (if w.dirExists tb then ["DELETE tsconfig.tsbuildinfo"] else [])
    else [])
  let gitCalls := if !opts.skipGit then [Call.gitStatus pkgPath] else []
  let gitPlanned := if opts.skipGit then ["GIT (skipped)"]
    else match w.gitStatusOf pkgPath with
      | some st =>
          if !st.clean then ["GIT add -A", "GIT commit", "GIT push"]
          else ["GIT (no changes to commit)"]
      | none => ["GIT commit and push (if changes)"]
  (⟨packageName, pkgPath, true,
    some (forcePlanned ++ ["RUN pnpm install", "RUN pnpm run build"] ++ gitPlanned)⟩,
   forceCalls ++ gitCalls)

/-- One forced-cleanup step (refresh.ts lines 164–234): probe the path and
remove it when present; the Bool is false when the removal failed. -/
def rmStep (p : String) (w : World) : Bool × World × List Call :=
  if w.dirExists p then
    if w.rmOk p then (true, w.rmDir p, [Call.fsExists p, Call.fsRm p])
    else (false, w, [Call.fsExists p, Call.fsRm p])
  else (true, w, [Call.fsExists p])

/-- Phases 2–4 of the execution branch of `refreshSinglePackage`
(refresh.ts lines 237–297): pnpm install, pnpm run build, then (unless
`skipGit`) stage-commit-push; the first failing phase aborts with a failure
result. -/
def refreshAfterCleanup (pkgPath packageName : String) (opts : RefreshOptions)
    (w : World) (cs : List Call) : RefreshResult × World × List Call :=
  let fail : List Call → RefreshResult × World × List Call :=
    fun cs => (⟨packageName, pkgPath, false, none⟩, w, cs)
  let cs := cs ++ [Call.pnpmInstall pkgPath]
  if !w.pnpmInstallOk pkgPath then fail cs else
  let cs := cs ++ [Call.pnpmRun pkgPath "build"]
  if !w.pnpmBuildOk pkgPath then fail cs else
  if opts.skipGit then (⟨packageName, pkgPath, true, none⟩, w, cs) else
  let cs := cs ++ [Call.gitAdd pkgPath]
  if !w.gitAddOk pkgPath then fail cs else
  let cs := cs ++ [Call.gitCommit pkgPath]
  if !w.gitCommitOk pkgPath then fail cs else
  let cs := cs ++ [Call.gitPush pkgPath]
  if !w.gitPushOk pkgPath then fail cs
  else (⟨packageName, pkgPath, true, none⟩, w, cs)

/-- The execution branch of `refreshSinglePackage` (refresh.ts lines
156–307): forced cleanup of the four paths, then the remaining phases. -/
def refreshSingleRun (pkgPath packageName : String) (opts : RefreshOptions)
    (w : World) : RefreshResult × World × List Call :=
  let fail : World → List Call → RefreshResult × World × List Call :=
    fun w cs => (⟨packageName, pkgPath, false, none⟩, w, cs)
  if opts.force then
    let a := rmStep (pjoin pkgPath "node_modules") w
    if !a.1 then fail a.2.1 a.2.2 else
    let b := rmStep (pjoin pkgPath "dist") a.2.1
    if !b.1 then fail b.2.1 (a.2.2 ++ b.2.2) else
    let c := rmStep (pjoin pkgPath "pnpm-lock.yaml") b.2.1
    if !c.1 then fail c.2.1 (a.2.2 ++ b.2.2 ++ c.2.2) else
    let d := rmStep (pjoin pkgPath "tsconfig.tsbuildinfo") c.2.1
    if !d.1 then fail d.2.1 (a.2.2 ++ b.2.2 ++ c.2.2 ++ d.2.2) else
    refreshAfterCleanup pkgPath packageName opts d.2.1
      (a.2.2 ++ b.2.2 ++ c.2.2 ++ d.2.2)
  else
    refreshAfterCleanup pkgPath packageName opts w []

/-- `refreshSinglePackage` (refresh.ts lines 94–307). -/
def refreshSinglePackage (pkgPath packageName : String)
    (opts : RefreshOptions) (w : World) : RefreshResult × World × List Call :=
  if opts.dryRun then
    let r := refreshSingleDry pkgPath packageName opts w
    (r.1, w, r.2)
  else refreshSingleRun pkgPath packageName opts w

/-- The per-node processor of `libRefresh` in `--all` / recursive mode
(refresh.ts lines 332–338 and 405–415): `ensureBranch` (even under
`dryRun`), then `refreshSinglePackage`; a thrown branch error or an
unsuccessful refresh makes the node fail. -/
def refreshProcessor (nodes : List (String × DAGNode))
    (opts : RefreshOptions) : Exec.Processor World := fun name w =>
  match alookup nodes name with
  | none => (false, [], w)
  | some node =>
      match ensureBranch node.repoPath node.requiredBranch w with
      | (none, w', cs) => (false, cs, w')
      | (some _, w', cs) =>
          let r := refreshSinglePackage node.repoPath node.name opts w'
          (r.1.success, cs ++ r.2.2, r.2.1)

/-- Input of `lib.refresh` (the fields the model reads). -/
structure RefreshInput where
  all : Bool
  recursive : Bool
  path : String
  force : Bool
  skipGit : Bool
  dryRun : Bool
  autoConfirm : Bool
deriving Repr, DecidableEq

/-- Output of `lib.refresh`. -/
structure RefreshOut where
  success : Bool
  results : List RefreshResult
deriving Repr, DecidableEq

/-- Conversion of executor results to refresh results (refresh.ts lines
345–357 and 423–435); `plannedOperations` is not carried over. -/
def dagToResults (nodes : List (String × DAGNode))
    (pairs : List (String × Bool)) : List RefreshResult :=
  pairs.map (fun p =>
    ⟨p.1, (alookup nodes p.1).map DAGNode.repoPath |>.getD "unknown", p.2, none⟩)

/-- `libRefresh` (refresh.ts lines 315–442): scan, then dispatch on
`--all` / single / recursive mode. -/
def libRefresh (input : RefreshInput) (w : World) :
    Except WorkflowErr RefreshOut × World × List Call :=
  let scanRes := Scan.libScan none w
  let allNodes := buildDAGNodes scanRes.packages
  let opts : RefreshOptions := ⟨input.force, input.skipGit, input.dryRun⟩
  if input.all then
    match Dag.buildLeveledDAG (toNodeMap allNodes) with
    | .error c => (.error (.cycle c), w, scanRes.calls)
    | .ok dag =>
        let dagRes := Exec.executeDAG dag.levels (refreshProcessor allNodes opts)
          (!input.autoConfirm) w
        (.ok ⟨dagRes.success, dagToResults allNodes dagRes.results⟩,
         dagRes.state, scanRes.calls ++ dagRes.calls)
  else
    let pkgPath := if strStarts input.path "/" || strIncludes input.path ":"
      then input.path else pjoin w.cwd input.path
    let nameCall := Call.fsReadJson (pjoin pkgPath "package.json")
    match w.pkgJsonAt (pjoin pkgPath "package.json") with
    | none => (.error (.readFail (pjoin pkgPath "package.json")), w,
               scanRes.calls ++ [nameCall])
    | some pkg =>
        let packageName := pkg.name.getD "unknown"
        if !input.recursive then
          let r := refreshSinglePackage pkgPath packageName opts w
          (.ok ⟨r.1.success, [r.1]⟩, r.2.1, scanRes.calls ++ [nameCall] ++ r.2.2)
        else
          let filtered := filterDAGFromRoot allNodes packageName
          if filtered.isEmpty then
            let r := refreshSinglePackage pkgPath packageName opts w
            (.ok ⟨r.1.success, [r.1]⟩, r.2.1, scanRes.calls ++ [nameCall] ++ r.2.2)
          else
            match Dag.buildLeveledDAG (toNodeMap filtered) with
            | .error c => (.error (.cycle c), w, scanRes.calls ++ [nameCall])
            | .ok dag =>
                let dagRes := Exec.executeDAG dag.levels
                  (refreshProcessor filtered opts) (!input.autoConfirm) w
                (.ok ⟨dagRes.success, dagToResults filtered dagRes.results⟩,
                 dagRes.state, scanRes.calls ++ [nameCall] ++ dagRes.calls)

end Refresh

namespace Pull

/-- Options threaded from `LibPullInput` into `pullSinglePackage`. -/
structure PullOptions where
  remote : Option String
  rebase : Bool
  dryRun : Bool
deriving Repr, DecidableEq

/-- A per-package pull result (`plannedOperations` is present exactly on
the dry-run path of `pullSinglePackage`). -/
structure PullResult where
  name : String
  path : String
  success : Bool
  commits : Nat
  plannedOperations : Option (List String)
deriving Repr, DecidableEq

/-- `pullSinglePackage` (pull.js lines 25–59): under `dryRun`, return the
planned operation without any call; otherwise `git.pull`. -/
def pullSinglePackage (pkgPath packageName : String) (opts : PullOptions)
    (w : World) : PullResult × List Call :=
  let remote := opts.remote.getD "origin"
  if opts.dryRun then
    (⟨packageName, pkgPath, true, 0, some ["git pull " ++ remote]⟩, [])
  else if w.gitPullOk pkgPath then
    (⟨packageName, pkgPath, true, w.pullCommits pkgPath, none⟩, [Call.gitPull pkgPath])
  else
    (⟨packageName, pkgPath, false, 0, none⟩, [Call.gitPull pkgPath])

/-- The per-node processor of `libPull` (pull.js lines 79–84). -/
def pullProcessor (nodes : List (String × DAGNode)) (opts : PullOptions) :
    Exec.Processor World := fun name w =>
  match alookup nodes name with
  | none => (false, [], w)
  | some node =>
      let r := pullSinglePackage node.repoPath node.name opts w
      (r.1.success, r.2, w)

/-- Input of `lib.pull` (the fields the model reads). -/
structure PullInput where
  remote : Option String
  rebase : Bool
  dryRun : Bool
  continueOnError : Bool
deriving Repr, DecidableEq

/-- Output of `lib.pull`. -/
structure PullOut where
  success : Bool
  results : List PullResult
deriving Repr, DecidableEq

/-- `libPull` (pull.js lines 66–109): scan, build the DAG, execute, then
convert the executor results; the conversion sets `commits: 0` and does not
carry `plannedOperations` over. -/
def libPull (input : PullInput) (w : World) :
    Except WorkflowErr PullOut × World × List Call :=
  let scanRes := Scan.libScan none w
  let allNodes := buildDAGNodes scanRes.packages
  match Dag.buildLeveledDAG (toNodeMap allNodes) with
  | .error c => (.error (.cycle c), w, scanRes.calls)
  | .ok dag =>
      let dagRes := Exec.executeDAG dag.levels
        (pullProcessor allNodes ⟨input.remote, input.rebase, input.dryRun⟩)
        (!input.continueOnError) w
      (.ok ⟨dagRes.success,
            dagRes.results.map (fun p =>
              ⟨p.1, (alookup allNodes p.1).map DAGNode.repoPath |>.getD "unknown",
               p.2, 0, none⟩)⟩,
       dagRes.state, scanRes.calls ++ dagRes.calls)

end Pull

namespace Rename

/-- A `package.json` as the rename engine reads it: the `name` field and the
four dependency sections (absent sections are `none`; present sections are
insertion-ordered key/value objects). -/
structure RPkg where
  name : Option String
  dependencies : Option (List (String × String))
  devDependencies : Option (List (String × String))
  peerDependencies : Option (List (String × String))
  optionalDependencies : Option (List (String × String))
deriving Repr, DecidableEq

/-- One import site of a TypeScript source file: a static import declaration
or a dynamic `import()` with a string-literal argument.  A file is modelled
by its list of import sites, in source order; the AST edits of the rename
engine touch nothing else of the file, so two modelled files are equal
exactly when the real files are byte-equal. -/
structure TsImport where
  dynamic : Bool
  spec : String
deriving Repr, DecidableEq

/-- The file tree the rename engine works on.  `pkgFiles` / `tsFiles` are
the files the two globs return, keyed by path; a `package.json` is modelled
by its parsed form, i.e. equality of models is byte equality modulo JSON
pretty-printing (the engine rewrites files with `JSON.stringify(…, null,
2)`). -/
structure RenameWorld where
  home : String
  dirExists : String → Bool
  pkgFiles : List (String × RPkg)
  tsFiles : List (String × List TsImport)

/-- A planned/performed change record (the fields the claims observe). -/
structure Change where
  ctype : String
  file : String
deriving Repr, DecidableEq

/-- `updatePackageJsonName` (rename.ts lines 56–91). -/
def updatePackageJsonName (pkgPath oldName newName : String) (dryRun : Bool)
    (w : RenameWorld) : Option Change × RenameWorld × List Call :=
  match alookup w.pkgFiles pkgPath with
  | none => (none, w, [Call.fsReadJson pkgPath])
  | some pkg =>
      if pkg.name = some oldName then
        if dryRun then
          (some ⟨"package-name", pkgPath⟩, w, [Call.fsReadJson pkgPath])
        else
          (some ⟨"package-name", pkgPath⟩,
           { w with pkgFiles := aset w.pkgFiles pkgPath { pkg with name := some newName } },
           [Call.fsReadJson pkgPath, Call.fsWrite pkgPath])
      else (none, w, [Call.fsReadJson pkgPath])

/-- The owner/repo fragment `github:mark1russell7/${name.replace("@mark1russell7/", "")}`. -/
def repoFragment (name : String) : String :=
  "github:mark1russell7/" ++ strReplaceOnce name "@mark1russell7/" ""

/-- The rewritten version specifier (rename.ts lines 118–125): when the old
value contains the old owner/repo fragment, replace its first occurrence
with the new fragment. -/
def depNewValue (oldName newName oldValue : String) : String :=
  if strIncludes oldValue (repoFragment oldName) then
    strReplaceOnce oldValue (repoFragment oldName) (repoFragment newName)
  else oldValue

/-- The in-place mutation of one dependency section (rename.ts lines
127–130): `delete deps[oldName]; deps[newName] = newValue` — no-op when
`oldName` is not a key. -/
def renameDepSection (oldName newName : String) (deps : List (String × String)) :
    List (String × String) :=
  match alookup deps oldName with
  | none => deps
  | some oldValue =>
      aset (adelete deps oldName) newName (depNewValue oldName newName oldValue)

/-- Whether a section triggers a change record (`deps && oldName in deps`). -/
def sectionHit (oldName : String) (deps : Option (List (String × String))) : Bool :=
  match deps with
  | some d => (alookup d oldName).isSome
  | none => false

/-- `updatePackageJsonDependencies` (rename.ts lines 96–154): one change
record per section containing `oldName` as a key, and (unless `dryRun`) a
single rewrite of the file with every such section mutated. -/
def updatePackageJsonDependencies (pkgPath oldName newName : String)
    (dryRun : Bool) (w : RenameWorld) : List Change × RenameWorld × List Call :=
  match alookup w.pkgFiles pkgPath with
  | none => ([], w, [Call.fsReadJson pkgPath])
  | some pkg =>
      let changes :=
        (if sectionHit oldName pkg.dependencies then [Change.mk "dependency" pkgPath] else []) ++
        (if sectionHit oldName pkg.devDependencies then [Change.mk "dependency" pkgPath] else []) ++
        (if sectionHit oldName pkg.peerDependencies then [Change.mk "dependency" pkgPath] else []) ++
        (if sectionHit oldName pkg.optionalDependencies then [Change.mk "dependency" pkgPath] else [])
      if dryRun || changes.isEmpty then (changes, w, [Call.fsReadJson pkgPath])
      else
        let pkg' : RPkg :=
          { pkg with
            dependencies := pkg.dependencies.map (renameDepSection oldName newName)
            devDependencies := pkg.devDependencies.map (renameDepSection oldName newName)
            peerDependencies := pkg.peerDependencies.map (renameDepSection oldName newName)
            optionalDependencies := pkg.optionalDependencies.map (renameDepSection oldName newName) }
        (changes, { w with pkgFiles := aset w.pkgFiles pkgPath pkg' },
         [Call.fsReadJson pkgPath, Call.fsWrite pkgPath])

/-- Whether an import specifier matches (`=== oldName` or starts with
`oldName + "/"`, rename.ts lines 194 and 223). -/
def specMatches (oldName spec : String) : Bool :=
  spec == oldName || strStarts spec (oldName ++ "/")

/-- The rewritten specifier `moduleSpecifier.replace(oldName, newName)`. -/
def renameSpec (oldName newName spec : String) : String :=
  if specMatches oldName spec then strReplaceOnce spec oldName newName else spec

/-- One file of `updateTypeScriptImports` (rename.ts lines 183–248): change
records for the matching static imports (in order), then for the matching
dynamic imports, and (unless `dryRun`) a save of the edited file. -/
def updateTsFile (oldName newName : String) (dryRun : Bool)
    (w : RenameWorld) (path : String) : List Change × RenameWorld × List Call :=
  match alookup w.tsFiles path with
  | none => ([], w, [Call.tsRead path])
  | some imps =>
      let changes :=
        ((imps.filter (fun i => !i.dynamic && specMatches oldName i.spec)).map
          (fun _ => Change.mk "import" path)) ++
        ((imps.filter (fun i => i.dynamic && specMatches oldName i.spec)).map
          (fun _ => Change.mk "dynamic-import" path))
      if dryRun || changes.isEmpty then (changes, w, [Call.tsRead path])
      else
        let imps' := imps.map (fun i => { i with spec := renameSpec oldName newName i.spec })
        (changes, { w with tsFiles := aset w.tsFiles path imps' },
         [Call.tsRead path, Call.tsSave path])

/-- Accumulating state of the three passes of `libRename`. -/
structure PassSt where
  world : RenameWorld
  changes : List Change
  calls : List Call

/-- Input of `lib.rename` (the fields the model reads). -/
structure RenameInput where
  oldName : String
  newName : String
  rootPath : Option String
  dryRun : Bool
deriving Repr, DecidableEq

/-- Output of `lib.rename` (summary counts omitted: they are derived from
`changes`). -/
structure RenameOut where
  success : Bool
  changes : List Change
  errors : List String
deriving Repr, DecidableEq

/-- `libRename` (rename.ts lines 256–339): check the root, glob the two
file sets, then run the three passes (package names, dependency sections,
TypeScript imports) over the globbed paths in order, threading the tree. -/
def libRename (input : RenameInput) (w : RenameWorld) :
    RenameOut × RenameWorld × List Call :=
  let rootPath := input.rootPath.getD (w.home ++ "/git")
  let resolvedRoot := if strStarts rootPath "~" then w.home ++ rootPath.drop 1 else rootPath
  if !w.dirExists resolvedRoot then
    (⟨false, [], ["Root path does not exist: " ++ resolvedRoot]⟩, w,
     [Call.fsExists resolvedRoot])
  else
    let pkgPaths := w.pkgFiles.map Prod.fst
    let tsPaths := w.tsFiles.map Prod.fst
    let st0 : PassSt := ⟨w, [],
      [Call.fsExists resolvedRoot, Call.fsGlob "**/package.json", Call.fsGlob "**/*.\x7bts,tsx\x7d"]⟩
    let st1 := pkgPaths.foldl (fun (st : PassSt) p =>
      let r := updatePackageJsonName p input.oldName input.newName input.dryRun st.world
      ⟨r.2.1, st.changes ++ (match r.1 with | some c => [c] | none => []),
       st.calls ++ r.2.2⟩) st0
    let st2 := pkgPaths.foldl (fun (st : PassSt) p =>
      let r := updatePackageJsonDependencies p input.oldName input.newName input.dryRun st.world
      ⟨r.2.1, st.changes ++ r.1, st.calls ++ r.2.2⟩) st1
    let st3 := tsPaths.foldl (fun (st : PassSt) p =>
      let r := updateTsFile input.oldName input.newName input.dryRun st.world p
      ⟨r.2.1, st.changes ++ r.1, st.calls ++ r.2.2⟩) st2
    (⟨true, st3.changes, []⟩, st3.world, st3.calls)

end Rename

/-! ## Theorems -/

namespace Git

theorem gitRefMatch_reconstruct (d : List Char)
    (h o r f : List Char) (hm : gitRefMatch d = some (h, o, r, f)) :
    h ++ ':' :: (o ++ '/' :: (r ++ '#' :: f)) = d := by
  rcases hdw : d.dropWhile wordChar with _ | ⟨c1, r1⟩
  · simp [gitRefMatch, hdw] at hm
  simp only [gitRefMatch, hdw] at hm
  split at hm
  case isFalse => exact absurd hm (by simp)
  rename_i hc1
  rcases hdw2 : r1.dropWhile (fun c => !(c == '/')) with _ | ⟨c2, r2⟩
  · simp [hdw2] at hm
  simp only [hdw2] at hm
  split at hm
  case isFalse => exact absurd hm (by simp)
  rename_i hc2
  rcases hdw3 : r2.dropWhile (fun c => !(c == '#')) with _ | ⟨c3, r3⟩
  · simp [hdw3] at hm
  simp only [hdw3] at hm
  split at hm
  case isFalse => exact absurd hm (by simp)
  rename_i hc3
  split at hm
  · exact absurd hm (by simp)
  simp only [Option.some.injEq, Prod.mk.injEq] at hm
  obtain ⟨h1, h2, h3, h4⟩ := hm
  subst h1 h2 h3 h4
  subst hc1 hc2 hc3
  have e3 : (r2.takeWhile fun c => !(c == '#')) ++ '#' :: r3 = r2 := by
    rw [← hdw3]; exact List.takeWhile_append_dropWhile _ _
  have e2 : (r1.takeWhile fun c => !(c == '/')) ++ '/' :: r2 = r1 := by
    rw [← hdw2]; exact List.takeWhile_append_dropWhile _ _
  have e1 : d.takeWhile wordChar ++ ':' :: r1 = d := by
    rw [← hdw]; exact List.takeWhile_append_dropWhile _ _
  rw [e3, e2, e1]

/-- C8: for every string `s`, `isGitRef s` is true exactly when
`parseGitRef s` returns a record (both decide the same `host:owner/repo#ref`
grammar), and whenever `parseGitRef s = some g`, `g.raw = s` and
`g.host ++ ":" ++ g.owner ++ "/" ++ g.repo ++ "#" ++ g.ref = s`. -/
theorem parseGitRef_isGitRef_agree (s : String) :
    (isGitRef s = true ↔ (parseGitRef s).isSome = true) ∧
    ∀ g : GitRef, parseGitRef s = some g →
      g.raw = s ∧ g.host ++ ":" ++ g.owner ++ "/" ++ g.repo ++ "#" ++ g.ref = s := by
  constructor
  · unfold isGitRef parseGitRef
    rcases gitRefMatch s.data with _ | ⟨h, o, r, f⟩ <;> simp
  · intro g hg
    unfold parseGitRef at hg
    rcases hmm : gitRefMatch s.data with _ | ⟨h, o, r, f⟩ <;>
      simp only [hmm] at hg
    · exact absurd hg (by simp)
    injection hg with hg'
    subst hg'
    refine ⟨rfl, ?_⟩
    have hrec := gitRefMatch_reconstruct s.data h o r f hmm
    apply String.ext
    simp only [String.data_append]
    rw [← hrec]
    simp

/-- Witness for `parseGitRef_isGitRef_agree` at the documented example
input. -/
theorem parseGitRef_isGitRef_agree_witness :
    let s := "github:mark1russell7/logger#main"
    (isGitRef s = true ↔ (parseGitRef s).isSome = true) ∧
    (⟨s, "github", "mark1russell7", "logger", "main"⟩ : GitRef).raw = s ∧
    "github" ++ ":" ++ "mark1russell7" ++ "/" ++ "logger" ++ "#" ++ "main" = s := by
  refine ⟨(parseGitRef_isGitRef_agree _).1, ?_⟩
  exact (parseGitRef_isGitRef_agree "github:mark1russell7/logger#main").2
    ⟨_, "github", "mark1russell7", "logger", "main"⟩ (by decide)

end Git

namespace Exec

theorem execLevel_eventName_mem {σ : Type} (proc : Processor σ) :
    ∀ (lvl : List String) (s : σ) (e : ExecEvent),
      e ∈ (execLevel proc lvl s).2.1 → eventName e ∈ lvl := by
  intro lvl
  induction lvl with
  | nil => intro s e he; simp [execLevel] at he
  | cons n rest ih =>
      intro s e he
      simp only [execLevel, List.mem_cons] at he
      rcases he with rfl | rfl | he
      · simp [eventName]
      · simp [eventName]
      · exact List.mem_cons_of_mem _ (ih _ e he)

theorem execLevel_failSettle_mem_pairs {σ : Type} (proc : Processor σ) :
    ∀ (lvl : List String) (s : σ) (e : ExecEvent),
      e ∈ (execLevel proc lvl s).2.1 → isFailSettle e = true →
      ∃ n, (n, false) ∈ (execLevel proc lvl s).1 := by
  intro lvl
  induction lvl with
  | nil => intro s e he; simp [execLevel] at he
  | cons n rest ih =>
      intro s e he hf
      simp only [execLevel, List.mem_cons] at he ⊢
      rcases he with rfl | rfl | he
      · simp [isFailSettle] at hf
      · rcases hb : (proc n s).1 with _ | _
        · exact ⟨n, by simp [hb]⟩
        · rw [hb] at hf; simp [isFailSettle] at hf
      · obtain ⟨m, hm⟩ := ih (proc n s).2.2 e he hf
        exact ⟨m, Or.inr hm⟩

theorem execLevel_no_failSettle {σ : Type} (proc : Processor σ)
    (lvl : List String) (s : σ)
    (hempty : ((((execLevel proc lvl s).1.filter (fun p => !p.2)).map Prod.fst)).isEmpty = true)
    (e : ExecEvent) (he : e ∈ (execLevel proc lvl s).2.1) :
    isFailSettle e = false := by
  by_contra hf
  rw [Bool.not_eq_false] at hf
  obtain ⟨n, hn⟩ := execLevel_failSettle_mem_pairs proc lvl s e he hf
  have : (n, false) ∈ (execLevel proc lvl s).1.filter (fun p => !p.2) :=
    List.mem_filter.mpr ⟨hn, by simp⟩
  have hmem : n ∈ ((execLevel proc lvl s).1.filter (fun p => !p.2)).map Prod.fst :=
    List.mem_map.mpr ⟨(n, false), this, rfl⟩
  rw [List.isEmpty_iff] at hempty
  rw [hempty] at hmem
  exact absurd hmem (List.not_mem_nil n)

theorem execGo_cons_stop {σ : Type} (proc : Processor σ) (lvl : List String)
    (rest : List (List String)) (s : σ)
    (h : ((((execLevel proc lvl s).1.filter (fun p => !p.2)).map Prod.fst)).isEmpty = false) :
    execGo proc true (lvl :: rest) s =
      ⟨(execLevel proc lvl s).1,
       ((execLevel proc lvl s).1.filter (fun p => !p.2)).map Prod.fst,
       (execLevel proc lvl s).2.1, (execLevel proc lvl s).2.2.1,
       (execLevel proc lvl s).2.2.2⟩ := by
  simp [execGo, h]

theorem execGo_cons_go {σ : Type} (proc : Processor σ) (lvl : List String)
    (rest : List (List String)) (s : σ)
    (h : ((((execLevel proc lvl s).1.filter (fun p => !p.2)).map Prod.fst)).isEmpty = true) :
    execGo proc true (lvl :: rest) s =
      ⟨(execLevel proc lvl s).1 ++ (execGo proc true rest (execLevel proc lvl s).2.2.2).pairs,
       (((execLevel proc lvl s).1.filter (fun p => !p.2)).map Prod.fst)
         ++ (execGo proc true rest (execLevel proc lvl s).2.2.2).failed,
       (execLevel proc lvl s).2.1 ++ (execGo proc true rest (execLevel proc lvl s).2.2.2).events,
       (execLevel proc lvl s).2.2.1 ++ (execGo proc true rest (execLevel proc lvl s).2.2.2).calls,
       (execGo proc true rest (execLevel proc lvl s).2.2.2).state⟩ := by
  simp [execGo, h]

theorem execGo_failure_start_same_level {σ : Type} (proc : Processor σ) :
    ∀ (levels : List (List String)) (s : σ) (i j : Nat) (n m : String),
      i < j →
      (execGo proc true levels s).events[i]? = some (ExecEvent.settle n false) →
      (execGo proc true levels s).events[j]? = some (ExecEvent.start m) →
      ∃ L, L ∈ levels ∧ n ∈ L ∧ m ∈ L := by
  intro levels
  induction levels with
  | nil => intro s i j n m _ hf; simp [execGo] at hf
  | cons lvl rest ih =>
      intro s i j n m hij hf hs
      rcases hemp : ((((execLevel proc lvl s).1.filter (fun p => !p.2)).map Prod.fst)).isEmpty
      case false =>
        rw [execGo_cons_stop proc lvl rest s hemp] at hf hs
        refine ⟨lvl, List.mem_cons_self _ _, ?_, ?_⟩
        · have := execLevel_eventName_mem proc lvl s _ (List.getElem?_mem hf)
          simpa [eventName] using this
        · have := execLevel_eventName_mem proc lvl s _ (List.getElem?_mem hs)
          simpa [eventName] using this
      case true =>
        rw [execGo_cons_go proc lvl rest s hemp] at hf hs
        by_cases hilt : i < (execLevel proc lvl s).2.1.length
        · exfalso
          rw [List.getElem?_append, if_pos hilt] at hf
          have hmem := List.getElem?_mem hf
          have := execLevel_no_failSettle proc lvl s hemp _ hmem
          simp [isFailSettle] at this
        · push_neg at hilt
          have hjge : (execLevel proc lvl s).2.1.length ≤ j :=
            le_trans hilt (le_of_lt hij)
          rw [List.getElem?_append, if_neg (Nat.not_lt.mpr hilt)] at hf
          rw [List.getElem?_append, if_neg (Nat.not_lt.mpr hjge)] at hs
          obtain ⟨L, hL, h1, h2⟩ := ih (execLevel proc lvl s).2.2.2
            (i - (execLevel proc lvl s).2.1.length)
            (j - (execLevel proc lvl s).2.1.length) n m (by omega) hf hs
          exact ⟨L, List.mem_cons_of_mem _ hL, h1, h2⟩

/-- C3 (amended): in fail-fast sequential execution, whenever some
processor's settling with failure precedes a processor start in the event
sequence, the two nodes belong to one common level of the plan: a failure
still lets the remaining nodes of its own level be started, but no node of
any later level is started after a failure has settled. -/
theorem failFast_start_after_failure_same_level {σ : Type}
    (levels : List (List String)) (proc : Processor σ) (s : σ)
    (i j : Nat) (n m : String) (hij : i < j)
    (hf : (executeDAG levels proc true s).events[i]? = some (ExecEvent.settle n false))
    (hs : (executeDAG levels proc true s).events[j]? = some (ExecEvent.start m)) :
    ∃ L, L ∈ levels ∧ n ∈ L ∧ m ∈ L :=
  execGo_failure_start_same_level proc levels s i j n m hij hf hs

/-- Witness for `failFast_start_after_failure_same_level`: in the one-level
plan `[[A, B]]` with `A` failing, `A` settles with failure at event index 1
and `B` is started at event index 2, and both nodes lie in the common level
`[A, B]`. -/
theorem failFast_start_after_failure_same_level_witness :
    ∃ L, L ∈ [["A", "B"]] ∧ "A" ∈ L ∧ "B" ∈ L :=
  failFast_start_after_failure_same_level [["A", "B"]]
    (fun n (s : Unit) => (n == "B", [], s)) () 1 2 "A" "B"
    (by decide) (by decide) (by decide)

/-- C3 (counterexample): in the one-level plan `[[A, B]]` with processor `A`
failing and fail-fast on, `B` is still started after `A` has settled with
failure — the claimed never-property over the executor's step sequence is
false as stated (it fails for nodes later in the same level). -/
theorem noStartAfterFailure_counterexample :
    ¬ noStartAfterFailure
      (executeDAG [["A", "B"]] (fun n (s : Unit) => (n == "B", [], s)) true ()).events := by
  decide

/-- C2 (code evaluated at the failing input): on the two-level plan
`[[A], [B]]` with an always-failing processor and `failFast = true`, the
returned results map has an entry for `A` only: node `B`, whose processor
was never started, receives no synthetic `Skipped` entry at all (the
executor breaks out of the level loop, and its in-level skip branch is
unreachable), so the map does not contain one entry per node. -/
theorem executeDAG_failFast_missing_skipped_entry :
    (executeDAG [["A"], ["B"]] (fun _ (s : Unit) => (false, [], s)) true ()).results
        = [("A", false)] ∧
    (executeDAG [["A"], ["B"]] (fun _ (s : Unit) => (false, [], s)) true ()).events
        = [ExecEvent.start "A", ExecEvent.settle "A" false] := by
  constructor <;> rfl

end Exec

theorem alookup_eq_none {β : Type} (l : List (String × β)) (k : String) :
    alookup l k = none ↔ k ∉ l.map Prod.fst := by
  induction l with
  | nil => simp [alookup]
  | cons p t ih =>
      obtain ⟨a, b⟩ := p
      by_cases h : a = k
      · subst h; simp [alookup]
      · simp only [alookup, if_neg h, List.map_cons, List.mem_cons, ih]
        constructor
        · intro hk hor
          rcases hor with rfl | hm
          · exact h rfl
          · exact hk hm
        · intro hk hm
          exact hk (Or.inr hm)

theorem alookup_mem {β : Type} {l : List (String × β)} {k : String} {v : β}
    (h : alookup l k = some v) : (k, v) ∈ l := by
  induction l with
  | nil => simp [alookup] at h
  | cons p t ih =>
      obtain ⟨a, b⟩ := p
      by_cases hak : a = k
      · subst hak
        simp [alookup] at h
        simp [h]
      · simp [alookup, hak] at h
        exact List.mem_cons_of_mem _ (ih h)

theorem mem_alookup {β : Type} {l : List (String × β)}
    (hnd : (l.map Prod.fst).Nodup) {k : String} {v : β} (h : (k, v) ∈ l) :
    alookup l k = some v := by
  induction l with
  | nil => simp at h
  | cons p t ih =>
      obtain ⟨a, b⟩ := p
      simp only [List.map_cons, List.nodup_cons] at hnd
      rcases List.mem_cons.mp h with heq | hmem
      · obtain ⟨rfl, rfl⟩ := Prod.mk.injEq .. ▸ heq
        simp [alookup]
      · have hk : k ∈ t.map Prod.fst := List.mem_map.mpr ⟨(k, v), hmem, rfl⟩
        have hak : a ≠ k := fun he => hnd.1 (he ▸ hk)
        simp [alookup, hak, ih hnd.2 hmem]

namespace Dag

theorem mem_dependentsOf {nodes : NodeMap} {p x : String} :
    x ∈ dependentsOf nodes p ↔ ∃ ds, (x, ds) ∈ nodes ∧ p ∈ ds := by
  simp only [dependentsOf, nkeys, List.mem_map, List.mem_filter]
  constructor
  · rintro ⟨⟨a, ds⟩, ⟨hmem, hcont⟩, rfl⟩
    exact ⟨ds, hmem, by simpa using hcont⟩
  · rintro ⟨ds, hmem, hp⟩
    exact ⟨(x, ds), ⟨hmem, by simpa using hp⟩, rfl⟩

theorem dependentsOf_subset_keys {nodes : NodeMap} {p : String} :
    dependentsOf nodes p ⊆ nkeys nodes := by
  intro x hx
  obtain ⟨ds, hmem, _⟩ := mem_dependentsOf.mp hx
  exact List.mem_map.mpr ⟨(x, ds), hmem, rfl⟩

theorem nodup_dependentsOf {nodes : NodeMap} (hK : (nkeys nodes).Nodup)
    (p : String) : (dependentsOf nodes p).Nodup := by
  have hsub : List.Sublist ((nodes.filter (fun q => q.2.contains p)).map Prod.fst)
      (nodes.map Prod.fst) := (List.filter_sublist nodes).map Prod.fst
  exact hK.sublist hsub

theorem depsInDag_subset_keys {nodes : NodeMap} {x : String} :
    depsInDag nodes x ⊆ nkeys nodes := by
  intro d hd
  have := (List.mem_filter.mp hd).2
  simpa [inGraph] using this

theorem mem_keys_of_depsInDag {nodes : NodeMap} {a b : String}
    (h : b ∈ depsInDag nodes a) : a ∈ nkeys nodes := by
  by_contra ha
  have : alookup nodes a = none := (alookup_eq_none nodes a).mpr ha
  simp [depsInDag, lookupDeps, this] at h

theorem lookupDeps_eq {nodes : NodeMap} (hK : (nkeys nodes).Nodup)
    {a : String} {ds : List String} (h : (a, ds) ∈ nodes) :
    lookupDeps nodes a = ds := by
  simp [lookupDeps, mem_alookup hK h]

theorem mem_dependentsOf_iff_depsInDag {nodes : NodeMap}
    (hK : (nkeys nodes).Nodup) {p x : String} (hp : p ∈ nkeys nodes) :
    x ∈ dependentsOf nodes p ↔ p ∈ depsInDag nodes x := by
  constructor
  · intro hx
    obtain ⟨ds, hmem, hpds⟩ := mem_dependentsOf.mp hx
    rw [depsInDag, lookupDeps_eq hK hmem]
    exact List.mem_filter.mpr ⟨hpds, by simpa [inGraph] using hp⟩
  · intro hpd
    have hx : x ∈ nkeys nodes := mem_keys_of_depsInDag hpd
    obtain ⟨⟨x', ds⟩, hmem, rfl⟩ := List.mem_map.mp hx
    apply mem_dependentsOf.mpr
    refine ⟨ds, hmem, ?_⟩
    rw [depsInDag, lookupDeps_eq hK hmem] at hpd
    exact (List.mem_filter.mp hpd).1

theorem decCount_append (nodes : NodeMap) (x : String) (P Q : List String) :
    decCount nodes x (P ++ Q) = decCount nodes x P + decCount nodes x Q := by
  simp [decCount, List.filter_append]

theorem decCount_cons (nodes : NodeMap) (x p : String) (P : List String) :
    decCount nodes x (p :: P) =
      (if x ∈ dependentsOf nodes p then 1 else 0) + decCount nodes x P := by
  by_cases h : x ∈ dependentsOf nodes p
  · simp [decCount, List.filter_cons, h, Nat.add_comm]
  · simp [decCount, List.filter_cons, h]

theorem decCount_eq_filter_deps {nodes : NodeMap} (hK : (nkeys nodes).Nodup)
    {P : List String} (hP : ∀ p ∈ P, p ∈ nkeys nodes) (x : String) :
    decCount nodes x P =
      (P.filter (fun p => (depsInDag nodes x).contains p)).length := by
  unfold decCount
  congr 1
  apply List.filter_congr
  intro p hp
  have hiff := mem_dependentsOf_iff_depsInDag hK (hP p hp) (x := x)
  by_cases h1 : x ∈ dependentsOf nodes p
  · have e1 : (dependentsOf nodes p).contains x = true := by simpa using h1
    have e2 : (depsInDag nodes x).contains p = true := by simpa using hiff.mp h1
    rw [e1, e2]
  · have h2 : p ∉ depsInDag nodes x := fun hc => h1 (hiff.mpr hc)
    have e1 : (dependentsOf nodes p).contains x = false := by
      simpa using h1
    have e2 : (depsInDag nodes x).contains p = false := by
      simpa using h2
    rw [e1, e2]

theorem nodup_length_le_of_subset {l₁ l₂ : List String}
    (hnd : l₁.Nodup) (hsub : l₁ ⊆ l₂) : l₁.length ≤ l₂.length := by
  calc l₁.length = l₁.toFinset.card := (List.toFinset_card_of_nodup hnd).symm
    _ ≤ l₂.toFinset.card := Finset.card_le_card (by
        intro a ha
        rw [List.mem_toFinset] at ha ⊢
        exact hsub ha)
    _ ≤ l₂.length := List.toFinset_card_le _

theorem decCount_le {nodes : NodeMap} (hK : (nkeys nodes).Nodup)
    {P : List String} (hPnd : P.Nodup) (hP : ∀ p ∈ P, p ∈ nkeys nodes)
    (x : String) : decCount nodes x P ≤ inDegree0 nodes x := by
  rw [decCount_eq_filter_deps hK hP]
  apply nodup_length_le_of_subset (hPnd.filter _)
  intro p hp
  have := (List.mem_filter.mp hp).2
  simpa using this

theorem deps_subset_of_decCount {nodes : NodeMap} (hK : (nkeys nodes).Nodup)
    {P : List String} {x : String} (hPnd : P.Nodup)
    (hP : ∀ p ∈ P, p ∈ nkeys nodes)
    (heq : decCount nodes x P = inDegree0 nodes x) :
    depsInDag nodes x ⊆ P := by
  rw [decCount_eq_filter_deps hK hP] at heq
  have hndA : (P.filter (fun p => (depsInDag nodes x).contains p)).Nodup :=
    hPnd.filter _
  have hsubA : (P.filter (fun p => (depsInDag nodes x).contains p)).toFinset ⊆
      (depsInDag nodes x).toFinset := by
    intro a ha
    rw [List.mem_toFinset] at ha ⊢
    have := (List.mem_filter.mp ha).2
    simpa using this
  have hcard : (depsInDag nodes x).toFinset.card ≤
      (P.filter (fun p => (depsInDag nodes x).contains p)).toFinset.card := by
    rw [List.toFinset_card_of_nodup hndA, heq]
    exact List.toFinset_card_le _
  have hfe := Finset.eq_of_subset_of_card_le hsubA hcard
  intro d hd
  have : d ∈ (P.filter (fun p => (depsInDag nodes x).contains p)).toFinset := by
    rw [hfe]
    exact List.mem_toFinset.mpr hd
  exact (List.mem_filter.mp (List.mem_toFinset.mp this)).1

theorem foldl_decrStep_fst :
    ∀ (ds : List String), ds.Nodup → ∀ (deg : String → Int) (nq : List String)
      (x : String),
      (ds.foldl decrStep (deg, nq)).1 x = if x ∈ ds then deg x - 1 else deg x := by
  intro ds
  induction ds with
  | nil => intro _ deg nq x; simp
  | cons d t ih =>
      intro hnd deg nq x
      rw [List.foldl_cons]
      have hstep : decrStep (deg, nq) d =
          ((fun y => if y = d then deg d - 1 else deg y),
           if deg d - 1 = 0 then nq ++ [d] else nq) := rfl
      rw [hstep, ih (List.nodup_cons.mp hnd).2]
      by_cases hx : x ∈ t
      · have hxd : x ≠ d := fun he => (List.nodup_cons.mp hnd).1 (he ▸ hx)
        simp [hx, hxd, List.mem_cons]
      · by_cases hxd : x = d
        · subst hxd; simp [hx]
        · simp [hx, hxd, List.mem_cons]

theorem foldl_decrStep_snd :
    ∀ (ds : List String), ds.Nodup → ∀ (deg : String → Int) (nq : List String),
      (ds.foldl decrStep (deg, nq)).2 =
        nq ++ ds.filter (fun x => deg x == 1) := by
  intro ds
  induction ds with
  | nil => intro _ deg nq; simp
  | cons d t ih =>
      intro hnd deg nq
      rw [List.foldl_cons]
      have hstep : decrStep (deg, nq) d =
          ((fun y => if y = d then deg d - 1 else deg y),
           if deg d - 1 = 0 then nq ++ [d] else nq) := rfl
      rw [hstep, ih (List.nodup_cons.mp hnd).2]
      have hfc : t.filter (fun x =>
          (if x = d then deg d - 1 else deg x) == 1) =
          t.filter (fun x => deg x == 1) := by
        apply List.filter_congr
        intro x hx
        have hxd : x ≠ d := fun he => (List.nodup_cons.mp hnd).1 (he ▸ hx)
        simp [hxd]
      rw [hfc]
      by_cases hd1 : deg d = 1
      · have : deg d - 1 = 0 := by omega
        simp [this, hd1, List.filter_cons, List.append_assoc]
      · have : ¬ (deg d - 1 = 0) := by omega
        simp [this, hd1, List.filter_cons]

theorem kahnRound_spec {nodes : NodeMap} (hK : (nkeys nodes).Nodup) :
    ∀ (q : List String), q.Nodup → (∀ p ∈ q, p ∈ nkeys nodes) →
    ∀ (deg : String → Int) (nq0 : List String),
      (∀ x ∈ nkeys nodes, (decCount nodes x q : Int) ≤ deg x) →
      (∀ x, (q.foldl (processOne nodes) (deg, nq0)).1 x
          = deg x - decCount nodes x q) ∧
      ∃ t, (q.foldl (processOne nodes) (deg, nq0)).2 = nq0 ++ t ∧ t.Nodup ∧
        (∀ x ∈ t, x ∈ nkeys nodes) ∧
        (∀ x, x ∈ t ↔ deg x ≠ 0 ∧ deg x = (decCount nodes x q : Int)) := by
  intro q
  induction q with
  | nil =>
      intro _ _ deg nq0 _
      refine ⟨fun x => by simp [decCount], [], by simp, List.nodup_nil, by simp, ?_⟩
      intro x
      simp only [List.not_mem_nil, false_iff, decCount, List.filter_nil,
        List.length_nil, Nat.cast_zero]
      rintro ⟨h1, h2⟩
      exact h1 h2
  | cons p q' ih =>
      intro hnd hqK deg nq0 H
      have hpk : p ∈ nkeys nodes := hqK p (List.mem_cons_self _ _)
      have hdnd := nodup_dependentsOf hK p
      have hfst : ∀ x, (processOne nodes (deg, nq0) p).1 x =
          if x ∈ dependentsOf nodes p then deg x - 1 else deg x :=
        fun x => foldl_decrStep_fst _ hdnd deg nq0 x
      have hsnd : (processOne nodes (deg, nq0) p).2 =
          nq0 ++ (dependentsOf nodes p).filter (fun x => deg x == 1) :=
        foldl_decrStep_snd _ hdnd deg nq0
      have hH' : ∀ x ∈ nkeys nodes,
          (decCount nodes x q' : Int) ≤ (processOne nodes (deg, nq0) p).1 x := by
        intro x hx
        have hHx := H x hx
        rw [decCount_cons] at hHx
        rw [hfst]
        by_cases hxd : x ∈ dependentsOf nodes p
        · rw [if_pos hxd] at hHx ⊢
          push_cast at hHx ⊢
          omega
        · rw [if_neg hxd] at hHx ⊢
          push_cast at hHx ⊢
          omega
      obtain ⟨hdeg', t', ht'eq, ht'nd, ht'K, ht'mem⟩ :=
        ih (List.nodup_cons.mp hnd).2
          (fun x hx => hqK x (List.mem_cons_of_mem _ hx))
          (processOne nodes (deg, nq0) p).1 (processOne nodes (deg, nq0) p).2 hH'
      rw [List.foldl_cons]
      constructor
      · intro x
        rw [hdeg' x, hfst x, decCount_cons]
        by_cases hxd : x ∈ dependentsOf nodes p
        · rw [if_pos hxd, if_pos hxd]
          push_cast
          ring
        · rw [if_neg hxd, if_neg hxd]
          push_cast
          ring
      · refine ⟨(dependentsOf nodes p).filter (fun x => deg x == 1) ++ t',
          ?_, ?_, ?_, ?_⟩
        · rw [ht'eq, hsnd, List.append_assoc]
        · apply List.Nodup.append (hdnd.filter _) ht'nd
          intro x hxF hxt
          have hdx : deg x = 1 := by
            have := (List.mem_filter.mp hxF).2
            simpa using this
          have hne := (ht'mem x).mp hxt
          rw [hfst x, if_pos (List.mem_filter.mp hxF).1] at hne
          omega
        · intro x hx
          rcases List.mem_append.mp hx with hxF | hxt
          · exact dependentsOf_subset_keys (List.mem_filter.mp hxF).1
          · exact ht'K x hxt
        · intro x
          rw [List.mem_append, decCount_cons]
          by_cases hxd : x ∈ dependentsOf nodes p
          · have hxk : x ∈ nkeys nodes := dependentsOf_subset_keys hxd
            have hHx := H x hxk
            rw [decCount_cons, if_pos hxd] at hHx
            rw [if_pos hxd]
            have hmemF : x ∈ (dependentsOf nodes p).filter (fun x => deg x == 1)
                ↔ deg x = 1 := by
              rw [List.mem_filter]
              simp [hxd]
            have hmemT := ht'mem x
            rw [hfst x, if_pos hxd] at hmemT
            rw [hmemF, hmemT]
            push_cast at hHx ⊢
            constructor
            · rintro (h1 | ⟨h1, h2⟩) <;> omega
            · rintro ⟨h1, h2⟩
              by_cases hdx : deg x = 1
              · exact Or.inl hdx
              · exact Or.inr ⟨by omega, by omega⟩
          · rw [if_neg hxd]
            have hmemF : x ∉ (dependentsOf nodes p).filter (fun x => deg x == 1) :=
              fun hc => hxd (List.mem_filter.mp hc).1
            have hmemT := ht'mem x
            rw [hfst x, if_neg hxd] at hmemT
            rw [hmemT]
            push_cast
            constructor
            · rintro (h1 | h2)
              · exact absurd h1 hmemF
              · exact ⟨h2.1, by omega⟩
            · rintro ⟨h1, h2⟩
              exact Or.inr ⟨h1, by omega⟩

theorem levelPairs_append (q : List String) :
    ∀ (levels : List (List String)) (i : Nat),
      levelPairs i (levels ++ [q]) =
        levelPairs i levels ++ q.map (fun n => (n, i + levels.length)) := by
  intro levels
  induction levels with
  | nil => intro i; simp [levelPairs]
  | cons lvl rest ih =>
      intro i
      show lvl.map (fun n => (n, i)) ++ levelPairs (i + 1) (rest ++ [q])
          = (lvl.map (fun n => (n, i)) ++ levelPairs (i + 1) rest)
            ++ q.map (fun n => (n, i + (lvl :: rest).length))
      rw [ih (i + 1), List.append_assoc]
      have harith : i + 1 + rest.length = i + (lvl :: rest).length := by
        simp only [List.length_cons]
        omega
      rw [harith]

theorem loopInv_step {nodes : NodeMap} (hK : (nkeys nodes).Nodup)
    {q : List String} {levels : List (List String)}
    {nodeLevel : List (String × Nat)} {deg : String → Int} {processed : Nat}
    (hinv : LoopInv nodes q levels nodeLevel deg processed) :
    LoopInv nodes (kahnRound nodes q deg).2 (levels ++ [q])
      (nodeLevel ++ q.map (fun m => (m, levels.length)))
      (kahnRound nodes q deg).1 (processed + q.length) := by
  obtain ⟨hnd, hPK, hqK, hproc, hnl, hdeg, hzero, hnonzero, hlvl, hready⟩ := hinv
  have hPnd : levels.flatten.Nodup := hnd.of_append_left
  have hqnd : q.Nodup := hnd.of_append_right
  have hdisj : levels.flatten.Disjoint q := List.disjoint_of_nodup_append hnd
  have hPqK : ∀ p ∈ levels.flatten ++ q, p ∈ nkeys nodes := by
    intro p hp
    rcases List.mem_append.mp hp with h | h
    · exact hPK p h
    · exact hqK p h
  have hH : ∀ x ∈ nkeys nodes, (decCount nodes x q : Int) ≤ deg x := by
    intro x hx
    have h1 := decCount_le hK hnd hPqK x
    rw [decCount_append] at h1
    rw [hdeg x hx]
    omega
  obtain ⟨hdeg', t, hteq, htnd, htK, htmem⟩ :=
    kahnRound_spec hK q hqnd hqK deg [] hH
  have hteq' : (kahnRound nodes q deg).2 = t := by
    rw [show (kahnRound nodes q deg).2
        = (q.foldl (processOne nodes) (deg, [])).2 from rfl, hteq]
    simp
  have hdeg'' : ∀ x, (kahnRound nodes q deg).1 x
      = deg x - decCount nodes x q := hdeg'
  have hPP : (levels ++ [q]).flatten = levels.flatten ++ q := by simp
  have htnotPq : ∀ x ∈ t, x ∉ levels.flatten ++ q := by
    intro x hxt hxPq
    have h0 : deg x = 0 := hzero x (List.mem_append.mp hxPq)
    exact ((htmem x).mp hxt).1 h0
  refine ⟨?_, ?_, ?_, ?_, ?_, ?_, ?_, ?_, ?_, ?_⟩
  · rw [hPP, hteq']
    exact List.Nodup.append hnd htnd (fun a ha hat => htnotPq a hat ha)
  · rw [hPP]
    exact hPqK
  · rw [hteq']
    exact htK
  · rw [hPP, List.length_append, hproc]
  · rw [hnl, levelPairs_append]
    simp
  · intro x hx
    rw [hdeg'' x, hdeg x hx, hPP, decCount_append]
    push_cast
    ring
  · intro x hx
    rw [hPP, hteq'] at hx
    rw [hdeg'' x]
    rcases hx with hx | hxt
    · have h0 : deg x = 0 := hzero x (List.mem_append.mp hx)
      have hxk : x ∈ nkeys nodes := hPqK x hx
      have := hH x hxk
      have hge : (0 : Int) ≤ (decCount nodes x q : Int) := by positivity
      omega
    · have := (htmem x).mp hxt
      omega
  · intro x hx hxP' hxt
    rw [hPP] at hxP'
    rw [hteq'] at hxt
    rw [hdeg'' x]
    intro hc
    have hdx : deg x = (decCount nodes x q : Int) := by omega
    by_cases h0 : deg x = 0
    · have : x ∈ levels.flatten ∨ x ∈ q := by
        by_contra hcon
        push_neg at hcon
        exact hnonzero x hx hcon.1 hcon.2 h0
      exact hxP' (List.mem_append.mpr this)
    · exact hxt ((htmem x).mpr ⟨h0, hdx⟩)
  · intro i lvl hi x hx
    by_cases hlt : i < levels.length
    · rw [List.getElem?_append, if_pos hlt] at hi
      have htake : (levels ++ [q]).take i = levels.take i :=
        List.take_append_of_le_length (Nat.le_of_lt hlt)
      rw [htake]
      exact hlvl i lvl hi x hx
    · push_neg at hlt
      rw [List.getElem?_append, if_neg (Nat.not_lt.mpr hlt)] at hi
      rcases Nat.lt_or_ge (i - levels.length) 1 with hsm | hbig
      · have hieq : i = levels.length := by omega
        have hlq : lvl = q := by
          rw [hieq] at hi
          simp at hi
          exact hi.symm
        rw [hlq] at hx
        have htake : (levels ++ [q]).take i = levels := by
          rw [hieq]
          exact List.take_left levels [q]
        rw [htake]
        exact hready x hx
      · exfalso
        rw [List.getElem?_eq_none (by simp; omega)] at hi
        exact absurd hi (by simp)
  · intro x hx
    rw [hteq'] at hx
    rw [hPP]
    have hxk := htK x hx
    obtain ⟨hne, hdx⟩ := (htmem x).mp hx
    have hPq : decCount nodes x (levels.flatten ++ q) = inDegree0 nodes x := by
      have h1 := hdeg x hxk
      rw [decCount_append]
      have : (decCount nodes x levels.flatten + decCount nodes x q : Int)
          = (inDegree0 nodes x : Int) := by
        omega
      exact_mod_cast this
    exact deps_subset_of_decCount hK hnd hPqK hPq

theorem kahnLoop_inv {nodes : NodeMap} (hK : (nkeys nodes).Nodup) :
    ∀ (fuel : Nat) (q : List String) (levels : List (List String))
      (nodeLevel : List (String × Nat)) (deg : String → Int) (processed : Nat),
      LoopInv nodes q levels nodeLevel deg processed →
      (nkeys nodes).length + 1 ≤ fuel + levels.flatten.length →
      (kahnLoop nodes fuel q levels nodeLevel deg processed).queue = [] ∧
      LoopInv nodes []
        (kahnLoop nodes fuel q levels nodeLevel deg processed).levels
        (kahnLoop nodes fuel q levels nodeLevel deg processed).nodeLevel
        (kahnLoop nodes fuel q levels nodeLevel deg processed).deg
        (kahnLoop nodes fuel q levels nodeLevel deg processed).processed := by
  intro fuel
  induction fuel with
  | zero =>
      intro q levels nodeLevel deg processed hinv hfuel
      cases q with
      | nil => exact ⟨rfl, hinv⟩
      | cons n q' =>
          exfalso
          have hsub : ∀ p ∈ levels.flatten ++ (n :: q'), p ∈ nkeys nodes := by
            intro p hp
            rcases List.mem_append.mp hp with h | h
            · exact hinv.2.1 p h
            · exact hinv.2.2.1 p h
          have hle := nodup_length_le_of_subset hinv.1 hsub
          rw [List.length_append, List.length_cons] at hle
          omega
  | succ f ihf =>
      intro q levels nodeLevel deg processed hinv hfuel
      cases q with
      | nil => exact ⟨rfl, hinv⟩
      | cons n q' =>
          have hstep := loopInv_step hK (q := n :: q') hinv
          have hred : kahnLoop nodes (f + 1) (n :: q') levels nodeLevel deg processed
              = kahnLoop nodes f (kahnRound nodes (n :: q') deg).2 (levels ++ [n :: q'])
                  (nodeLevel ++ (n :: q').map (fun m => (m, levels.length)))
                  (kahnRound nodes (n :: q') deg).1
                  (processed + (n :: q').length) := rfl
          rw [hred]
          apply ihf _ _ _ _ _ hstep
          have hfl : (levels ++ [n :: q']).flatten.length
              = levels.flatten.length + (n :: q').length := by simp
          rw [hfl, List.length_cons]
          omega

theorem kahnRun_spec {nodes : NodeMap} (hK : (nkeys nodes).Nodup) :
    (kahnRun nodes).queue = [] ∧
    LoopInv nodes [] (kahnRun nodes).levels (kahnRun nodes).nodeLevel
      (kahnRun nodes).deg (kahnRun nodes).processed := by
  apply kahnLoop_inv hK
  · refine ⟨?_, ?_, ?_, rfl, rfl, ?_, ?_, ?_, ?_, ?_⟩
    · simpa using hK.filter _
    · intro x hx; simp at hx
    · intro x hx
      exact (List.mem_filter.mp hx).1
    · intro x _
      simp [decCount]
    · intro x hx
      rcases hx with hx | hx
      · simp at hx
      · have := (List.mem_filter.mp hx).2
        have h0 : inDegree0 nodes x = 0 := by simpa using this
        simp [h0]
    · intro x hx hx2 hx3
      have hne : inDegree0 nodes x ≠ 0 := by
        intro h0
        exact hx3 (List.mem_filter.mpr ⟨hx, by simpa using h0⟩)
      simpa using hne
    · intro i lvl hi
      simp at hi
    · intro x hx
      have := (List.mem_filter.mp hx).2
      have h0 : inDegree0 nodes x = 0 := by simpa using this
      have hdeps : depsInDag nodes x = [] :=
        List.length_eq_zero.mp h0
      rw [hdeps]
      exact List.nil_subset _
  · have : (nkeys nodes).length = nodes.length := by simp [nkeys]
    simp [this]

theorem getElem?_lt_len {α : Type} {l : List α} {i : Nat} {a : α}
    (h : l[i]? = some a) : i < l.length := by
  by_contra hc
  push_neg at hc
  rw [List.getElem?_eq_none hc] at h
  exact absurd h (by simp)

theorem mem_flatten_idx {ls : List (List String)} {x : String}
    (h : x ∈ ls.flatten) :
    ∃ (i : Nat) (lvl : List String), ls[i]? = some lvl ∧ x ∈ lvl := by
  obtain ⟨l, hl, hx⟩ := List.mem_flatten.mp h
  obtain ⟨i, hi⟩ := List.getElem?_of_mem hl
  exact ⟨i, l, hi, hx⟩

theorem take_flatten_idx {ls : List (List String)} {i : Nat} {x : String}
    (h : x ∈ (ls.take i).flatten) :
    ∃ (j : Nat) (lvl : List String), j < i ∧ ls[j]? = some lvl ∧ x ∈ lvl := by
  obtain ⟨j, lvl, hj, hx⟩ := mem_flatten_idx h
  have hlt : j < i := by
    have := getElem?_lt_len hj
    have hle := List.length_take_le i ls
    omega
  rw [List.getElem?_take, if_pos hlt] at hj
  exact ⟨j, lvl, hlt, hj, hx⟩

theorem alookup_append_some {β : Type} {l₁ : List (String × β)} {k : String}
    {v : β} (h : alookup l₁ k = some v) (l₂ : List (String × β)) :
    alookup (l₁ ++ l₂) k = some v := by
  induction l₁ with
  | nil => simp [alookup] at h
  | cons p t ih =>
      obtain ⟨a, b⟩ := p
      by_cases hak : a = k
      · simp [alookup, hak] at h ⊢
        exact h
      · simp [alookup, hak] at h ⊢
        exact ih h

theorem alookup_append_none {β : Type} {l₁ : List (String × β)} {k : String}
    (h : alookup l₁ k = none) (l₂ : List (String × β)) :
    alookup (l₁ ++ l₂) k = alookup l₂ k := by
  induction l₁ with
  | nil => simp [alookup]
  | cons p t ih =>
      obtain ⟨a, b⟩ := p
      by_cases hak : a = k
      · simp [alookup, hak] at h
      · simp [alookup, hak] at h ⊢
        exact ih h

theorem alookup_map_self_some {l : List String} {x : String} (h : x ∈ l)
    (c : Nat) : alookup (l.map (fun n => (n, c))) x = some c := by
  induction l with
  | nil => simp at h
  | cons a t ih =>
      rcases List.mem_cons.mp h with rfl | hm
      · simp [alookup]
      · by_cases ha : a = x
        · simp [alookup, ha]
        · simp [alookup, ha, ih hm]

theorem alookup_map_self_none {l : List String} {x : String} (h : x ∉ l)
    (c : Nat) : alookup (l.map (fun n => (n, c))) x = none := by
  induction l with
  | nil => simp [alookup]
  | cons a t ih =>
      have hax : a ≠ x := fun he => h (he ▸ List.mem_cons_self a t)
      simp only [List.map_cons, alookup, if_neg hax]
      exact ih (fun hm => h (List.mem_cons_of_mem _ hm))

theorem alookup_levelPairs_some :
    ∀ (levels : List (List String)) (i0 : Nat) (x : String) (j : Nat)
      (lvl : List String), levels.flatten.Nodup →
      levels[j]? = some lvl → x ∈ lvl →
      alookup (levelPairs i0 levels) x = some (i0 + j) := by
  intro levels
  induction levels with
  | nil => intro i0 x j lvl _ hj; simp at hj
  | cons lvl0 rest ih =>
      intro i0 x j lvl hnd hj hx
      have hnd0 : lvl0.Nodup := (by simpa using hnd : (lvl0 ++ rest.flatten).Nodup).of_append_left
      have hdisj : lvl0.Disjoint rest.flatten :=
        List.disjoint_of_nodup_append (by simpa using hnd)
      cases j with
      | zero =>
          simp only [List.getElem?_cons_zero, Option.some.injEq] at hj
          subst hj
          show alookup (lvl0.map (fun n => (n, i0)) ++ levelPairs (i0 + 1) rest) x
              = some (i0 + 0)
          rw [alookup_append_some (alookup_map_self_some hx i0)]
          norm_num
      | succ j' =>
          have hj' : rest[j']? = some lvl := by simpa using hj
          have hxrest : x ∈ rest.flatten :=
            List.mem_flatten.mpr ⟨lvl, List.getElem?_mem hj', hx⟩
          have hx0 : x ∉ lvl0 := fun hc => hdisj hc hxrest
          show alookup (lvl0.map (fun n => (n, i0)) ++ levelPairs (i0 + 1) rest) x
              = some (i0 + (j' + 1))
          rw [alookup_append_none (alookup_map_self_none hx0 i0)]
          have := ih (i0 + 1) x j' lvl
            ((by simpa using hnd : (lvl0 ++ rest.flatten).Nodup).of_append_right)
            hj' hx
          rw [show i0 + (j' + 1) = i0 + 1 + j' from by omega]
          exact this

theorem alookup_levelPairs_none :
    ∀ (levels : List (List String)) (i0 : Nat) (x : String),
      x ∉ levels.flatten → alookup (levelPairs i0 levels) x = none := by
  intro levels
  induction levels with
  | nil => intro i0 x _; simp [levelPairs, alookup]
  | cons lvl0 rest ih =>
      intro i0 x hx
      have hx0 : x ∉ lvl0 := fun hc => hx (by simp [hc])
      have hxr : x ∉ rest.flatten := fun hc => hx (by simp [hc])
      show alookup (lvl0.map (fun n => (n, i0)) ++ levelPairs (i0 + 1) rest) x = none
      rw [alookup_append_none (alookup_map_self_none hx0 i0), ih (i0 + 1) x hxr]

theorem alookup_levelPairs_inv :
    ∀ (levels : List (List String)) (i0 : Nat) (x : String) (v : Nat),
      alookup (levelPairs i0 levels) x = some v →
      ∃ j lvl, v = i0 + j ∧ levels[j]? = some lvl ∧ x ∈ lvl := by
  intro levels
  induction levels with
  | nil => intro i0 x v h; simp [levelPairs, alookup] at h
  | cons lvl0 rest ih =>
      intro i0 x v h
      rw [show levelPairs i0 (lvl0 :: rest)
          = lvl0.map (fun n => (n, i0)) ++ levelPairs (i0 + 1) rest from rfl] at h
      by_cases hx0 : x ∈ lvl0
      · rw [alookup_append_some (alookup_map_self_some hx0 i0)] at h
        injection h with h
        exact ⟨0, lvl0, by omega, by simp, hx0⟩
      · rw [alookup_append_none (alookup_map_self_none hx0 i0)] at h
        obtain ⟨j, lvl, hv, hj, hx⟩ := ih (i0 + 1) x v h
        exact ⟨j + 1, lvl, by omega, by simpa using hj, hx⟩

theorem decCount_ge_of_subset {nodes : NodeMap} (hK : (nkeys nodes).Nodup)
    {P : List String} {x : String}
    (hP : ∀ p ∈ P, p ∈ nkeys nodes)
    (hdnd : (depsInDag nodes x).Nodup)
    (hsub : depsInDag nodes x ⊆ P) :
    inDegree0 nodes x ≤ decCount nodes x P := by
  rw [decCount_eq_filter_deps hK hP]
  apply nodup_length_le_of_subset hdnd
  intro d hd
  exact List.mem_filter.mpr ⟨hsub hd, by simpa using hd⟩

theorem processed_edge_lt {nodes : NodeMap} (hK : (nkeys nodes).Nodup)
    {a b : String} (ha : a ∈ (kahnRun nodes).levels.flatten)
    (hab : edgeP nodes a b) :
    ∃ la lb, alookup (kahnRun nodes).nodeLevel a = some la ∧
      alookup (kahnRun nodes).nodeLevel b = some lb ∧ lb < la := by
  obtain ⟨_, hinv⟩ := kahnRun_spec hK
  obtain ⟨hnd, _, _, _, hnl, _, _, _, hlvl, _⟩ := hinv
  have hPnd : (kahnRun nodes).levels.flatten.Nodup := by simpa using hnd
  obtain ⟨i, lvl, hi, hxa⟩ := mem_flatten_idx ha
  have hdeps := hlvl i lvl hi a hxa
  have hbtake : b ∈ ((kahnRun nodes).levels.take i).flatten := hdeps hab
  obtain ⟨j, lvlb, hji, hj, hxb⟩ := take_flatten_idx hbtake
  refine ⟨0 + i, 0 + j, ?_, ?_, by omega⟩
  · rw [hnl]
    exact alookup_levelPairs_some _ 0 a i lvl hPnd hi hxa
  · rw [hnl]
    exact alookup_levelPairs_some _ 0 b j lvlb hPnd hj hxb

/-- C4: for every finite node mapping containing a dependency cycle among
its in-graph edges, `buildLeveledDAG` throws the cycle-detection error (it
does not return a plan), and the node names carried by the error form a
non-empty set equal to the set of nodes never assigned a level — exactly
the nodes with a positive residual in-degree when the Kahn frontier
empties. -/
theorem buildLeveledDAG_cycle_detected (nodes : NodeMap)
    (hK : (nkeys nodes).Nodup)
    (hcyc : ∃ n, Relation.TransGen (edgeP nodes) n n) :
    ∃ cs, buildLeveledDAG nodes = .error cs ∧ cs ≠ [] ∧
      (∀ n, n ∈ cs ↔ n ∈ nkeys nodes ∧ 0 < (kahnRun nodes).deg n) := by
  obtain ⟨hq, hinv⟩ := kahnRun_spec hK
  obtain ⟨hnd, hPK, _, hproc, hnl, hdeg, hzero, hnonzero, hlvl, _⟩ := hinv
  have hPnd : (kahnRun nodes).levels.flatten.Nodup := by simpa using hnd
  -- some in-graph node is never processed
  have hstuck : ∃ x ∈ nkeys nodes, x ∉ (kahnRun nodes).levels.flatten := by
    by_contra hall
    push_neg at hall
    have htg : ∀ a b, Relation.TransGen (edgeP nodes) a b →
        ∃ la lb, alookup (kahnRun nodes).nodeLevel a = some la ∧
          alookup (kahnRun nodes).nodeLevel b = some lb ∧ lb < la := by
      intro a b h
      induction h with
      | single h' =>
          exact processed_edge_lt hK
            (hall _ (mem_keys_of_depsInDag h')) h'
      | tail hab hbc ih =>
          obtain ⟨la, lb, h1, h2, h3⟩ := ih
          obtain ⟨lb', lc, h4, h5, h6⟩ := processed_edge_lt hK
            (hall _ (mem_keys_of_depsInDag hbc)) hbc
          rw [h2] at h4
          injection h4 with h4
          exact ⟨la, lc, h1, h5, by omega⟩
    obtain ⟨n, hn⟩ := hcyc
    obtain ⟨la, lb, h1, h2, h3⟩ := htg n n hn
    rw [h1] at h2
    injection h2 with h2
    omega
  obtain ⟨x, hxK, hxP⟩ := hstuck
  -- fewer processed nodes than the map has
  have hlt : (kahnRun nodes).levels.flatten.length < (nkeys nodes).length := by
    have hnd' : ((kahnRun nodes).levels.flatten ++ [x]).Nodup := by
      apply List.Nodup.append hPnd (List.nodup_singleton x)
      intro a ha hax
      rw [List.mem_singleton] at hax
      subst hax
      exact hxP ha
    have hsub : ∀ p ∈ (kahnRun nodes).levels.flatten ++ [x], p ∈ nkeys nodes := by
      intro p hp
      rcases List.mem_append.mp hp with h | h
      · exact hPK p h
      · rw [List.mem_singleton] at h
        subst h
        exact hxK
    have := nodup_length_le_of_subset hnd' hsub
    rw [List.length_append, List.length_singleton] at this
    omega
  have hne : (kahnRun nodes).processed ≠ nodes.length := by
    rw [hproc]
    have : (nkeys nodes).length = nodes.length := by simp [nkeys]
    omega
  refine ⟨(nkeys nodes).filter (fun n => (alookup (kahnRun nodes).nodeLevel n).isNone),
    ?_, ?_, ?_⟩
  · simp only [buildLeveledDAG, if_pos hne]
  · have hxc : x ∈ (nkeys nodes).filter
        (fun n => (alookup (kahnRun nodes).nodeLevel n).isNone) := by
      apply List.mem_filter.mpr
      refine ⟨hxK, ?_⟩
      rw [hnl, alookup_levelPairs_none _ 0 x hxP]
      rfl
    exact List.ne_nil_of_mem hxc
  · intro n
    rw [List.mem_filter]
    constructor
    · rintro ⟨hnK, hnone⟩
      have hnP : n ∉ (kahnRun nodes).levels.flatten := by
        intro hc
        obtain ⟨i, lvl, hi, hx⟩ := mem_flatten_idx hc
        rw [hnl, alookup_levelPairs_some _ 0 n i lvl hPnd hi hx] at hnone
        simp at hnone
      refine ⟨hnK, ?_⟩
      have h1 := hdeg n hnK
      have h2 := hnonzero n hnK hnP (List.not_mem_nil n)
      have h3 := decCount_le hK hPnd hPK n
      omega
    · rintro ⟨hnK, hpos⟩
      refine ⟨hnK, ?_⟩
      have hnP : n ∉ (kahnRun nodes).levels.flatten := by
        intro hc
        have := hzero n (Or.inl hc)
        omega
      rw [hnl, alookup_levelPairs_none _ 0 n hnP]
      rfl

/-- Witness for `buildLeveledDAG_cycle_detected` at the two-cycle
`A → B → A`. -/
theorem buildLeveledDAG_cycle_detected_witness :
    ∃ cs, buildLeveledDAG [("A", ["B"]), ("B", ["A"])] = .error cs ∧ cs ≠ [] ∧
      (∀ n, n ∈ cs ↔ n ∈ nkeys [("A", ["B"]), ("B", ["A"])] ∧
        0 < (kahnRun [("A", ["B"]), ("B", ["A"])]).deg n) :=
  buildLeveledDAG_cycle_detected [("A", ["B"]), ("B", ["A"])] (by decide)
    ⟨"A", Relation.TransGen.head (b := "B") (by decide)
      (Relation.TransGen.single (by decide))⟩

theorem acyclic_of_rank (nodes : NodeMap) (rank : String → Nat)
    (h : ∀ a ∈ nkeys nodes, ∀ b ∈ nkeys nodes,
      b ∈ depsInDag nodes a → rank b < rank a) :
    Acyclic nodes := by
  have hdec : ∀ a b, Relation.TransGen (edgeP nodes) a b → rank b < rank a := by
    intro a b htg
    induction htg with
    | single h' =>
        exact h _ (mem_keys_of_depsInDag h') _ (depsInDag_subset_keys h') h'
    | tail hbc hcd ih =>
        exact lt_trans
          (h _ (mem_keys_of_depsInDag hcd) _ (depsInDag_subset_keys hcd) hcd) ih
  intro n hn
  exact lt_irrefl _ (hdec n n hn)

/-- C1 (amended): for every finite node mapping with distinct keys whose
in-graph dependency lists are duplicate-free and whose in-graph edges are
acyclic, `buildLeveledDAG` returns a plan in which every input node appears
in exactly one level exactly once and every name in the levels is an input
node, every in-graph dependency is assigned a strictly smaller level than
its dependent, and the level assignment is consistent with the levels
list. -/
theorem buildLeveledDAG_acyclic_correct (nodes : NodeMap)
    (hK : (nkeys nodes).Nodup)
    (hdeps : ∀ x ∈ nkeys nodes, (depsInDag nodes x).Nodup)
    (hacyc : Acyclic nodes) :
    ∃ dag, buildLeveledDAG nodes = .ok dag ∧
      (∀ n, n ∈ nkeys nodes → dag.levels.flatten.count n = 1) ∧
      (∀ n, n ∈ dag.levels.flatten → n ∈ nkeys nodes) ∧
      (∀ a ds b, (a, ds) ∈ nodes → b ∈ ds → b ∈ nkeys nodes →
        ∃ la lb, alookup dag.nodeLevel a = some la ∧
          alookup dag.nodeLevel b = some lb ∧ lb < la) ∧
      (∀ n i, alookup dag.nodeLevel n = some i →
        ∃ lvl, dag.levels[i]? = some lvl ∧ n ∈ lvl) := by
  obtain ⟨hq, hinv⟩ := kahnRun_spec hK
  obtain ⟨hnd, hPK, _, hproc, hnl, hdeg, hzero, hnonzero, hlvl, _⟩ := hinv
  have hPnd : (kahnRun nodes).levels.flatten.Nodup := by simpa using hnd
  have hKP : ∀ x ∈ nkeys nodes, x ∈ (kahnRun nodes).levels.flatten := by
    by_contra hcon
    push_neg at hcon
    obtain ⟨x, hxK, hxP⟩ := hcon
    let r : {y : String // y ∈ (nkeys nodes).toFinset} →
        {y : String // y ∈ (nkeys nodes).toFinset} → Prop :=
      fun u v => Relation.TransGen (edgeP nodes) v.val u.val
    haveI : IsTrans _ r := ⟨fun _ _ _ hab hbc => Relation.TransGen.trans hbc hab⟩
    haveI : IsIrrefl _ r := ⟨fun a ha => hacyc a.val ha⟩
    have hwf : WellFounded r := Finite.wellFounded_of_trans_of_irrefl r
    obtain ⟨m, hmU, hmin⟩ := hwf.has_min
      {y | y.val ∉ (kahnRun nodes).levels.flatten}
      ⟨⟨x, List.mem_toFinset.mpr hxK⟩, hxP⟩
    have hmK : m.val ∈ nkeys nodes := List.mem_toFinset.mp m.property
    have hdepsP : depsInDag nodes m.val ⊆ (kahnRun nodes).levels.flatten := by
      intro d hd
      by_contra hdP
      have hdK := depsInDag_subset_keys hd
      exact hmin ⟨d, List.mem_toFinset.mpr hdK⟩ hdP (Relation.TransGen.single hd)
    have hdc : decCount nodes m.val (kahnRun nodes).levels.flatten
        = inDegree0 nodes m.val :=
      le_antisymm (decCount_le hK hPnd hPK _)
        (decCount_ge_of_subset hK hPK (hdeps _ hmK) hdepsP)
    have h0 : (kahnRun nodes).deg m.val = 0 := by
      rw [hdeg _ hmK, hdc]
      ring
    exact hnonzero m.val hmK hmU (List.not_mem_nil _) h0
  have hlen : (kahnRun nodes).levels.flatten.length = (nkeys nodes).length :=
    le_antisymm (nodup_length_le_of_subset hPnd hPK)
      (nodup_length_le_of_subset hK hKP)
  have hpeq : (kahnRun nodes).processed = nodes.length := by
    rw [hproc, hlen]
    simp [nkeys]
  refine ⟨⟨(kahnRun nodes).levels, (kahnRun nodes).nodeLevel,
    (nkeys nodes).filter (fun n => (dependentsOf nodes n).isEmpty),
    (nkeys nodes).filter (fun n => (depsInDag nodes n).isEmpty)⟩,
    ?_, ?_, ?_, ?_, ?_⟩
  · simp [buildLeveledDAG, hpeq]
  · intro n hn
    show (kahnRun nodes).levels.flatten.count n = 1
    have h1 := List.nodup_iff_count_le_one.mp hPnd n
    have h2 := List.count_pos_iff.mpr (hKP n hn)
    omega
  · exact hPK
  · intro a ds b hads hbds hbK
    have haK : a ∈ nkeys nodes := List.mem_map.mpr ⟨(a, ds), hads, rfl⟩
    have hedge : b ∈ depsInDag nodes a := by
      rw [depsInDag, lookupDeps_eq hK hads]
      exact List.mem_filter.mpr ⟨hbds, by simpa [inGraph] using hbK⟩
    exact processed_edge_lt hK (hKP a haK) hedge
  · intro n i hni
    rw [show ((⟨(kahnRun nodes).levels, (kahnRun nodes).nodeLevel, _, _⟩ :
        LeveledDAG).nodeLevel) = (kahnRun nodes).nodeLevel from rfl, hnl] at hni
    obtain ⟨j, lvl, hv, hj, hx⟩ := alookup_levelPairs_inv _ 0 n i hni
    refine ⟨lvl, ?_, hx⟩
    rw [hv]
    simpa using hj

/-- Witness for `buildLeveledDAG_acyclic_correct` at the three-node chain
`A ← B ← C`. -/
theorem buildLeveledDAG_acyclic_correct_witness :
    ∃ dag, buildLeveledDAG [("A", []), ("B", ["A"]), ("C", ["A", "B"])] = .ok dag ∧
      (∀ n, n ∈ nkeys [("A", []), ("B", ["A"]), ("C", ["A", "B"])] →
        dag.levels.flatten.count n = 1) ∧
      (∀ n, n ∈ dag.levels.flatten →
        n ∈ nkeys [("A", []), ("B", ["A"]), ("C", ["A", "B"])]) ∧
      (∀ a ds b, (a, ds) ∈ [("A", []), ("B", ["A"]), ("C", ["A", "B"])] →
        b ∈ ds → b ∈ nkeys [("A", []), ("B", ["A"]), ("C", ["A", "B"])] →
        ∃ la lb, alookup dag.nodeLevel a = some la ∧
          alookup dag.nodeLevel b = some lb ∧ lb < la) ∧
      (∀ n i, alookup dag.nodeLevel n = some i →
        ∃ lvl, dag.levels[i]? = some lvl ∧ n ∈ lvl) :=
  buildLeveledDAG_acyclic_correct [("A", []), ("B", ["A"]), ("C", ["A", "B"])]
    (by decide) (by decide)
    (acyclic_of_rank _
      (fun s => if s = "C" then 2 else if s = "B" then 1 else 0) (by decide))

/-- C1 (counterexample): the mapping `A ↦ [B, B]`, `B ↦ []` has acyclic
in-graph edges (its only edge is `A → B`), yet `buildLeveledDAG` throws the
cycle error naming `A`: the in-degree of `A` counts the duplicated
dependency twice, while processing `B` decrements it only once (the
reverse-edge sets deduplicate), so `A` is never emitted. -/
theorem buildLeveledDAG_duplicate_dep_counterexample :
    (nkeys [("A", ["B", "B"]), ("B", [])]).Nodup ∧
    Acyclic [("A", ["B", "B"]), ("B", [])] ∧
    buildLeveledDAG [("A", ["B", "B"]), ("B", [])] = .error ["A"] := by
  refine ⟨by decide, ?_, by rfl⟩
  exact acyclic_of_rank _ (fun s => if s = "A" then 1 else 0) (by decide)

end Dag

theorem alookup_aset {β : Type} (l : List (String × β)) (k n : String) (v : β) :
    alookup (aset l k v) n = if k = n then some v else alookup l n := by
  induction l with
  | nil => simp [aset, alookup]
  | cons p t ih =>
      obtain ⟨a, b⟩ := p
      by_cases hak : a = k
      · subst hak
        by_cases han : a = n <;> simp [aset, alookup, han]
      · by_cases han : a = n
        · subst han
          have hkn : ¬ (k = a) := fun h => hak h.symm
          simp [aset, hak, alookup, hkn]
        · simp [aset, hak, alookup, han, ih]

theorem mem_aset {β : Type} {l : List (String × β)} {k : String} {v : β}
    {p : String × β} : p ∈ aset l k v → p = (k, v) ∨ p ∈ l := by
  induction l with
  | nil =>
      intro h
      simpa [aset] using h
  | cons q t ih =>
      obtain ⟨a, b⟩ := q
      intro h
      by_cases hak : a = k
      · simp only [aset, if_pos hak, List.mem_cons] at h
        rcases h with h1 | h1
        · exact Or.inl h1
        · exact Or.inr (List.mem_cons_of_mem _ h1)
      · simp only [aset, if_neg hak, List.mem_cons] at h
        rcases h with h1 | h1
        · exact Or.inr (by simp [h1])
        · rcases ih h1 with h2 | h2
          · exact Or.inl h2
          · exact Or.inr (List.mem_cons_of_mem _ h2)

theorem aset_keys_of_mem {β : Type} (l : List (String × β)) (k : String) (v : β)
    (h : k ∈ l.map Prod.fst) :
    (aset l k v).map Prod.fst = l.map Prod.fst := by
  induction l with
  | nil => simp at h
  | cons q t ih =>
      obtain ⟨a, b⟩ := q
      by_cases hak : a = k
      · subst hak
        simp [aset]
      · simp only [List.map_cons, List.mem_cons] at h
        rcases h with h | h
        · exact absurd h.symm hak
        · simp [aset, hak, ih h]

theorem aset_keys_of_not_mem {β : Type} (l : List (String × β)) (k : String)
    (v : β) (h : k ∉ l.map Prod.fst) :
    (aset l k v).map Prod.fst = l.map Prod.fst ++ [k] := by
  induction l with
  | nil => simp [aset]
  | cons q t ih =>
      obtain ⟨a, b⟩ := q
      simp only [List.map_cons, List.mem_cons, not_or] at h
      have hak : ¬ (a = k) := fun hh => h.1 hh.symm
      simp [aset, hak, ih h.2]

theorem aset_keys_nodup {β : Type} (l : List (String × β)) (k : String) (v : β)
    (h : (l.map Prod.fst).Nodup) : ((aset l k v).map Prod.fst).Nodup := by
  by_cases hm : k ∈ l.map Prod.fst
  · rw [aset_keys_of_mem _ _ _ hm]
    exact h
  · rw [aset_keys_of_not_mem _ _ _ hm]
    rw [List.nodup_append]
    refine ⟨h, List.nodup_singleton _, ?_⟩
    intro a ha hk
    rw [List.mem_singleton] at hk
    subst hk
    exact hm ha

theorem alookup_foldl_aset {β : Type} (f : β → String) (xs : List β) :
    ∀ (ps : List (String × β)) (n : String),
    alookup (xs.foldl (fun ps i => aset ps (f i) i) ps) n
      = xs.foldl (fun acc i => if f i = n then some i else acc) (alookup ps n) := by
  induction xs with
  | nil => intro ps n; rfl
  | cons i rest ih =>
      intro ps n
      rw [List.foldl_cons, ih, alookup_aset, List.foldl_cons]

theorem foldl_aset_key_eq {β : Type} (f : β → String) (xs : List β) :
    ∀ (ps : List (String × β)), (∀ kv ∈ ps, kv.1 = f kv.2) →
    ∀ kv ∈ xs.foldl (fun ps i => aset ps (f i) i) ps, kv.1 = f kv.2 := by
  induction xs with
  | nil => intro ps h kv hm; exact h kv hm
  | cons i rest ih =>
      intro ps h kv hm
      refine ih _ ?_ kv hm
      intro kv2 hm2
      rcases mem_aset hm2 with h1 | h1
      · rw [h1]
      · exact h kv2 h1

theorem foldl_aset_keys_nodup {β : Type} (f : β → String) (xs : List β) :
    ∀ (ps : List (String × β)), (ps.map Prod.fst).Nodup →
    ((xs.foldl (fun ps i => aset ps (f i) i) ps).map Prod.fst).Nodup := by
  induction xs with
  | nil => intro ps h; exact h
  | cons i rest ih =>
      intro ps h
      exact ih _ (aset_keys_nodup _ _ _ h)

namespace Scan

theorem scanPackage_name (e : String × ManifestEntry) (r : String) (w : World)
    (pkg : PkgJson)
    (hpkg : w.pkgJsonAt (pjoin (pjoin r e.2.path) "package.json") = some pkg)
    (info : PackageInfo) (hinfo : (scanPackage e.1 e.2 r w).info = some info) :
    info.name = pkg.name.getD e.1 := by
  simp only [scanPackage] at hinfo
  split at hinfo
  · simp at hinfo
  · simp only [hpkg] at hinfo
    cases hg : w.gitStatusOf (pjoin r e.2.path) <;>
      simp only [hg] at hinfo <;>
      · cases hinfo
        rfl

theorem scan_foldl_packages (r : String) (w : World)
    (entries : List (String × ManifestEntry)) :
    ∀ (acc : ScanOut),
    (entries.foldl (scanStep r w) acc).packages
      = (entries.filterMap (fun e => (scanPackage e.1 e.2 r w).info)).foldl
          (fun ps i => aset ps i.name i) acc.packages := by
  induction entries with
  | nil => intro acc; rfl
  | cons e rest ih =>
      intro acc
      rw [List.foldl_cons, ih, List.filterMap_cons]
      cases h : (scanPackage e.1 e.2 r w).info with
      | none => simp [scanStep, h]
      | some i => simp [scanStep, h]

/-- C9: the scanner keys its output by the declared `package.json` name
(falling back to the manifest key only when the `name` field is absent):
whenever a manifest entry's `package.json` is readable, the descriptor it
contributes is named `pkg.name ?? manifestKey`; the output mapping looks up
each name to the LAST contributed descriptor of that name (so a later
manifest entry declaring an already-seen name silently overwrites the
earlier descriptor), every output key equals its descriptor's name field,
and the output keys are duplicate-free (one descriptor per name). -/
theorem libScan_keyed_by_declared_name
    (rootPathIn : Option String) (w : World) (m : Manifest)
    (hm : w.manifestAt
      (pjoin (pjoin (rootPathIn.getD (defaultRoot w)) "ecosystem")
        "ecosystem.manifest.json") = some m) :
    (∀ e ∈ m.packages, ∀ pkg,
        w.pkgJsonAt (pjoin (pjoin (resolveRoot w m.root) e.2.path)
          "package.json") = some pkg →
        ∀ info, (scanPackage e.1 e.2 (resolveRoot w m.root) w).info = some info →
        info.name = pkg.name.getD e.1) ∧
    (∀ n, alookup (libScan rootPathIn w).packages n
      = (m.packages.filterMap
          (fun e => (scanPackage e.1 e.2 (resolveRoot w m.root) w).info)).foldl
          (fun acc i => if i.name = n then some i else acc) none) ∧
    (∀ kv ∈ (libScan rootPathIn w).packages, kv.1 = kv.2.name) ∧
    ((libScan rootPathIn w).packages.map Prod.fst).Nodup := by
  have hout : (libScan rootPathIn w).packages
      = (m.packages.filterMap
          (fun e => (scanPackage e.1 e.2 (resolveRoot w m.root) w).info)).foldl
          (fun ps i => aset ps i.name i) [] := by
    simp only [libScan, hm]
    rw [scan_foldl_packages]
  refine ⟨?_, ?_, ?_, ?_⟩
  · intro e _ pkg hpkg info hinfo
    exact scanPackage_name e (resolveRoot w m.root) w pkg hpkg info hinfo
  · intro n
    rw [hout, alookup_foldl_aset]
    rfl
  · intro kv hkv
    rw [hout] at hkv
    exact foldl_aset_key_eq PackageInfo.name _ [] (by simp) kv hkv
  · rw [hout]
    exact foldl_aset_keys_nodup PackageInfo.name _ [] (by simp)

/-- Witness for `libScan_keyed_by_declared_name`: a world whose manifest
declares two entries whose `package.json` files both declare the name
`"shared"`; the scan output has a single `"shared"` entry holding the
second (later) descriptor. -/
theorem libScan_keyed_by_declared_name_witness :
    (let w : World :=
      { home := "/h", cwd := "/h"
        dirExists := fun _ => true
        pkgJsonAt := fun p =>
          if p = "/r/p1/package.json" then some ⟨some "shared", [], []⟩
          else if p = "/r/p2/package.json" then some ⟨some "shared", [], []⟩
          else none
        manifestAt := fun _ =>
          some ⟨"/r", [("k1", ⟨"repo1", "p1"⟩), ("k2", ⟨"repo2", "p2"⟩)]⟩
        gitStatusOf := fun _ => none
        gitRemoteUrl := fun _ => none
        cloneOk := fun _ => false
        pnpmInstallOk := fun _ => false
        pnpmBuildOk := fun _ => false
        rmOk := fun _ => false
        gitAddOk := fun _ => false
        gitCommitOk := fun _ => false
        gitPushOk := fun _ => false
        gitPullOk := fun _ => false
        gitCheckoutOk := fun _ => false
        pullCommits := fun _ => 0 }
    let m : Manifest := ⟨"/r", [("k1", ⟨"repo1", "p1"⟩), ("k2", ⟨"repo2", "p2"⟩)]⟩
    (∀ e ∈ m.packages, ∀ pkg,
        w.pkgJsonAt (pjoin (pjoin (resolveRoot w m.root) e.2.path)
          "package.json") = some pkg →
        ∀ info, (scanPackage e.1 e.2 (resolveRoot w m.root) w).info = some info →
        info.name = pkg.name.getD e.1) ∧
    (∀ n, alookup (libScan none w).packages n
      = (m.packages.filterMap
          (fun e => (scanPackage e.1 e.2 (resolveRoot w m.root) w).info)).foldl
          (fun acc i => if i.name = n then some i else acc) none) ∧
    (∀ kv ∈ (libScan none w).packages, kv.1 = kv.2.name) ∧
    ((libScan none w).packages.map Prod.fst).Nodup) :=
  libScan_keyed_by_declared_name none _ _ rfl

end Scan

namespace Exec

theorem execLevel_state_const {σ : Type} (proc : Processor σ)
    (hp : ∀ n s, (proc n s).2.2 = s) :
    ∀ (lvl : List String) (s : σ), (execLevel proc lvl s).2.2.2 = s := by
  intro lvl
  induction lvl with
  | nil => intro s; rfl
  | cons n rest ih =>
      intro s
      show (execLevel proc rest (proc n s).2.2).2.2.2 = s
      rw [ih, hp]

theorem execGo_state_const {σ : Type} (proc : Processor σ) (failFast : Bool)
    (hp : ∀ n s, (proc n s).2.2 = s) :
    ∀ (levels : List (List String)) (s : σ),
    (execGo proc failFast levels s).state = s := by
  intro levels
  induction levels with
  | nil => intro s; rfl
  | cons lvl rest ih =>
      intro s
      simp only [execGo]
      split
      · exact execLevel_state_const proc hp lvl s
      · show (execGo proc failFast rest (execLevel proc lvl s).2.2.2).state = s
        rw [ih, execLevel_state_const proc hp]

theorem execLevel_calls_pred {σ : Type} (proc : Processor σ) (P : Call → Prop)
    (hp : ∀ n s, ∀ c ∈ (proc n s).2.1, P c) :
    ∀ (lvl : List String) (s : σ), ∀ c ∈ (execLevel proc lvl s).2.2.1, P c := by
  intro lvl
  induction lvl with
  | nil =>
      intro s c hc
      simp [execLevel] at hc
  | cons n rest ih =>
      intro s c hc
      replace hc : c ∈ (proc n s).2.1 ++
          (execLevel proc rest (proc n s).2.2).2.2.1 := hc
      rcases List.mem_append.mp hc with h | h
      · exact hp n s c h
      · exact ih _ c h

theorem execGo_calls_pred {σ : Type} (proc : Processor σ) (failFast : Bool)
    (P : Call → Prop) (hp : ∀ n s, ∀ c ∈ (proc n s).2.1, P c) :
    ∀ (levels : List (List String)) (s : σ),
    ∀ c ∈ (execGo proc failFast levels s).calls, P c := by
  intro levels
  induction levels with
  | nil =>
      intro s c hc
      simp [execGo] at hc
  | cons lvl rest ih =>
      intro s c hc
      simp only [execGo] at hc
      split at hc
      · exact execLevel_calls_pred proc P hp lvl s c hc
      · replace hc : c ∈ (execLevel proc lvl s).2.2.1 ++
            (execGo proc failFast rest (execLevel proc lvl s).2.2.2).calls := hc
        rcases List.mem_append.mp hc with h | h
        · exact execLevel_calls_pred proc P hp lvl s c h
        · exact ih _ c h

theorem execLevel_const {σ : Type} (proc : Processor σ) (s0 : σ)
    (P : Call → Prop)
    (hstate : ∀ n, (proc n s0).2.2 = s0)
    (hcalls : ∀ n, ∀ c ∈ (proc n s0).2.1, P c) :
    ∀ lvl : List String, (execLevel proc lvl s0).2.2.2 = s0 ∧
      ∀ c ∈ (execLevel proc lvl s0).2.2.1, P c := by
  intro lvl
  induction lvl with
  | nil =>
      refine ⟨rfl, ?_⟩
      intro c hc
      simp [execLevel] at hc
  | cons n rest ih =>
      constructor
      · show (execLevel proc rest (proc n s0).2.2).2.2.2 = s0
        rw [hstate]
        exact ih.1
      · intro c hc
        replace hc : c ∈ (proc n s0).2.1 ++
            (execLevel proc rest (proc n s0).2.2).2.2.1 := hc
        rw [hstate] at hc
        rcases List.mem_append.mp hc with h | h
        · exact hcalls n c h
        · exact ih.2 c h

theorem execGo_const {σ : Type} (proc : Processor σ) (failFast : Bool)
    (s0 : σ) (P : Call → Prop)
    (hstate : ∀ n, (proc n s0).2.2 = s0)
    (hcalls : ∀ n, ∀ c ∈ (proc n s0).2.1, P c) :
    ∀ levels : List (List String),
      (execGo proc failFast levels s0).state = s0 ∧
      ∀ c ∈ (execGo proc failFast levels s0).calls, P c := by
  intro levels
  induction levels with
  | nil =>
      refine ⟨rfl, ?_⟩
      intro c hc
      simp [execGo] at hc
  | cons lvl rest ih =>
      have hL := execLevel_const proc s0 P hstate hcalls lvl
      constructor
      · simp only [execGo]
        split
        · exact hL.1
        · show (execGo proc failFast rest (execLevel proc lvl s0).2.2.2).state = s0
          rw [hL.1]
          exact ih.1
      · intro c hc
        simp only [execGo] at hc
        split at hc
        · exact hL.2 c hc
        · replace hc : c ∈ (execLevel proc lvl s0).2.2.1 ++
              (execGo proc failFast rest (execLevel proc lvl s0).2.2.2).calls := hc
          rw [hL.1] at hc
          rcases List.mem_append.mp hc with h | h
          · exact hL.2 c h
          · exact ih.2 c h

end Exec

theorem foldl_aset_mem {β : Type} (f : β → String) (xs : List β) :
    ∀ (ps : List (String × β)) (kv : String × β),
    kv ∈ xs.foldl (fun ps i => aset ps (f i) i) ps →
    kv ∈ ps ∨ ∃ i ∈ xs, kv = (f i, i) := by
  induction xs with
  | nil => intro ps kv h; exact Or.inl h
  | cons i rest ih =>
      intro ps kv h
      rw [List.foldl_cons] at h
      rcases ih _ kv h with h1 | h1
      · rcases mem_aset h1 with h2 | h2
        · exact Or.inr ⟨i, List.mem_cons_self _ _, h2⟩
        · exact Or.inl h2
      · obtain ⟨j, hj, he⟩ := h1
        exact Or.inr ⟨j, List.mem_cons_of_mem _ hj, he⟩

namespace Scan

theorem scanPackage_info_fields (pn : String) (ent : ManifestEntry)
    (r : String) (w : World) (info : PackageInfo)
    (hinfo : (scanPackage pn ent r w).info = some info) :
    info.repoPath = pjoin r ent.path ∧
    info.currentBranch
      = (w.gitStatusOf (pjoin r ent.path)).map GitStatusData.branch := by
  simp only [scanPackage] at hinfo
  split at hinfo
  · simp at hinfo
  · cases hp : w.pkgJsonAt (pjoin (pjoin r ent.path) "package.json") with
    | none =>
        simp only [hp] at hinfo
        simp at hinfo
    | some pkg =>
        cases hg : w.gitStatusOf (pjoin r ent.path) <;>
          simp only [hp, hg] at hinfo <;>
          cases hinfo <;>
          exact ⟨rfl, rfl⟩

theorem libScan_packages_branch (r : Option String) (w : World) :
    ∀ kv ∈ (libScan r w).packages,
    kv.2.currentBranch = (w.gitStatusOf kv.2.repoPath).map GitStatusData.branch := by
  intro kv hkv
  simp only [libScan] at hkv
  cases hm : w.manifestAt
      (pjoin (pjoin (r.getD (defaultRoot w)) "ecosystem")
        "ecosystem.manifest.json") with
  | none =>
      rw [hm] at hkv
      simp at hkv
  | some m =>
      rw [hm] at hkv
      rw [scan_foldl_packages] at hkv
      rcases foldl_aset_mem PackageInfo.name _ _ kv hkv with h | h
      · simp at h
      · obtain ⟨info, hmem, he⟩ := h
        obtain ⟨e, hemem, hinfo⟩ := List.mem_filterMap.mp hmem
        obtain ⟨hrp, hcb⟩ := scanPackage_info_fields e.1 e.2
          (resolveRoot w m.root) w info hinfo
        rw [he]
        show info.currentBranch = _
        rw [hcb, hrp]

theorem scanPackage_calls_ro (pn : String) (ent : ManifestEntry) (r : String)
    (w : World) : ∀ c ∈ (scanPackage pn ent r w).calls, mutatingCall c = false := by
  intro c hc
  cases hd : w.dirExists (pjoin r ent.path)
  · simp [scanPackage, hd] at hc
    subst hc
    rfl
  · cases hp : w.pkgJsonAt (pjoin (pjoin r ent.path) "package.json")
    · simp [scanPackage, hd, hp] at hc
      rcases hc with rfl | rfl <;> rfl
    · cases hg : w.gitStatusOf (pjoin r ent.path)
      · simp [scanPackage, hd, hp, hg] at hc
        rcases hc with rfl | rfl | rfl <;> rfl
      · simp [scanPackage, hd, hp, hg] at hc
        rcases hc with rfl | rfl | rfl | rfl <;> rfl

theorem scan_foldl_calls (root : String) (w : World)
    (entries : List (String × ManifestEntry)) :
    ∀ (acc : ScanOut) (c : Call),
    c ∈ (entries.foldl (scanStep root w) acc).calls →
    c ∈ acc.calls ∨ mutatingCall c = false := by
  induction entries with
  | nil => intro acc c hc; exact Or.inl hc
  | cons e rest ih =>
      intro acc c hc
      rw [List.foldl_cons] at hc
      rcases ih _ c hc with h | h
      · replace h : c ∈ acc.calls ++ (scanPackage e.1 e.2 root w).calls := h
        rcases List.mem_append.mp h with h1 | h1
        · exact Or.inl h1
        · exact Or.inr (scanPackage_calls_ro e.1 e.2 root w c h1)
      · exact Or.inr h

theorem libScan_calls_ro (r : Option String) (w : World) :
    ∀ c ∈ (libScan r w).calls, mutatingCall c = false := by
  intro c hc
  simp only [libScan] at hc
  cases hm : w.manifestAt
      (pjoin (pjoin (r.getD (defaultRoot w)) "ecosystem")
        "ecosystem.manifest.json") with
  | none =>
      rw [hm] at hc
      simp at hc
      subst hc
      rfl
  | some m =>
      rw [hm] at hc
      rcases scan_foldl_calls (resolveRoot w m.root) w m.packages _ c hc with h | h
      · simp at h
        subst h
        rfl
      · exact h

end Scan

theorem buildDAGNodes_mem (packages : List (String × Scan.PackageInfo))
    {kv : String × DAGNode} (h : kv ∈ buildDAGNodes packages) :
    ∃ p ∈ packages, kv.1 = p.1 ∧ kv.2.repoPath = p.2.repoPath ∧
      kv.2.requiredBranch = p.2.currentBranch.getD "main" := by
  obtain ⟨p, hp, he⟩ := List.mem_map.mp h
  exact ⟨p, hp, by rw [← he], by rw [← he], by rw [← he]⟩

theorem filterVisit_sub (nodes : List (String × DAGNode)) :
    ∀ (fuel : Nat) (st : List String × List (String × DAGNode)) (name : String),
    (∀ kv ∈ st.2, alookup nodes kv.1 = some kv.2) →
    ∀ kv ∈ (filterVisit nodes fuel st name).2, alookup nodes kv.1 = some kv.2 := by
  intro fuel
  induction fuel with
  | zero => intro st name h kv hkv; exact h kv hkv
  | succ fuel ih =>
      intro st name h kv hkv
      simp only [filterVisit] at hkv
      split at hkv
      · exact h kv hkv
      · cases ha : alookup nodes name with
        | none =>
            rw [ha] at hkv
            exact h kv hkv
        | some node =>
            rw [ha] at hkv
            revert hkv
            have haux : ∀ (deps : List String)
                (st' : List String × List (String × DAGNode)),
                (∀ kv ∈ st'.2, alookup nodes kv.1 = some kv.2) →
                ∀ kv ∈ (deps.foldl (fun st dep => filterVisit nodes fuel st dep)
                  st').2, alookup nodes kv.1 = some kv.2 := by
              intro deps
              induction deps with
              | nil => intro st' h' kv hkv; exact h' kv hkv
              | cons dp rest ihd =>
                  intro st' h' kv hkv
                  rw [List.foldl_cons] at hkv
                  exact ihd _ (fun kv2 hkv2 => ih _ _ h' kv2 hkv2) kv hkv
            intro hkv
            refine haux node.dependencies _ ?_ kv hkv
            intro kv2 hkv2
            rcases List.mem_append.mp hkv2 with h2 | h2
            · exact h kv2 h2
            · rw [List.mem_singleton] at h2
              subst h2
              exact ha

theorem filterDAGFromRoot_sub (nodes : List (String × DAGNode)) (root : String) :
    ∀ kv ∈ filterDAGFromRoot nodes root, alookup nodes kv.1 = some kv.2 :=
  fun kv h =>
    filterVisit_sub nodes (nodes.length + 2) ([], []) root
      (by intro kv2 h2; cases h2) kv h

theorem ensureBranch_static (p rb : String) (w : World)
    (h : ((w.gitStatusOf p).map GitStatusData.branch).getD "main" = rb) :
    ∃ res, ensureBranch p rb w = (res, w, [Call.gitStatus p]) := by
  cases hg : w.gitStatusOf p with
  | none => exact ⟨none, by simp [ensureBranch, hg]⟩
  | some st =>
      have hb : st.branch = rb := by
        rw [hg] at h
        simpa using h
      exact ⟨some false, by simp [ensureBranch, hg, hb]⟩

namespace Install

theorem installProcessor_calls_no_clone (allNodes : List (String × DAGNode)) :
    ∀ n s, ∀ c ∈ (installProcessor allNodes n s).2.1,
    ∀ url path, c ≠ Call.gitClone url path := by
  intro n s c hc
  simp only [installProcessor] at hc
  cases ha : alookup allNodes n
  · rw [ha] at hc
    simp at hc
  · rw [ha] at hc
    rename_i node
    by_cases hi : s.pnpmInstallOk node.repoPath
    · by_cases hb : s.pnpmBuildOk node.repoPath
      · simp [hi, hb] at hc
        rcases hc with rfl | rfl <;> exact fun url path h => Call.noConfusion h
      · simp [hi, hb] at hc
        rcases hc with rfl | rfl <;> exact fun url path h => Call.noConfusion h
    · simp [hi] at hc
      subst hc
      exact fun url path h => Call.noConfusion h

theorem installProcessor_state_const (allNodes : List (String × DAGNode)) :
    ∀ n s, (installProcessor allNodes n s).2.2 = s := by
  intro n s
  simp only [installProcessor]
  cases alookup allNodes n
  · rfl
  · rename_i node
    by_cases hi : s.pnpmInstallOk node.repoPath
    · by_cases hb : s.pnpmBuildOk node.repoPath <;> simp [hi, hb]
    · simp [hi]

theorem phase1Step_errors_prefix (r : String) (d : Bool) (st : Phase1St)
    (e : String × ManifestEntry) :
    ∃ l, (phase1Step r d st e).errors = st.errors ++ l := by
  by_cases hd : st.world.dirExists (pjoin r e.2.path)
  · exact ⟨[], by simp [phase1Step, hd]⟩
  · by_cases hdr : d = true
    · exact ⟨[], by simp [phase1Step, hd, hdr]⟩
    · rw [Bool.not_eq_true] at hdr
      cases hru : repoToGitUrl e.2.repo with
      | none =>
          exact ⟨["Failed to clone " ++ e.1 ++ ": Invalid repo format: " ++ e.2.repo],
            by simp [phase1Step, hd, hdr, hru]⟩
      | some up =>
          obtain ⟨url, br⟩ := up
          by_cases hc : st.world.cloneOk (pjoin r e.2.path)
          · exact ⟨[], by simp [phase1Step, hd, hdr, hru, hc]⟩
          · exact ⟨["Failed to clone " ++ e.1],
              by simp [phase1Step, hd, hdr, hru, hc]⟩

theorem phase1_fold_errors_prefix (r : String) (d : Bool)
    (entries : List (String × ManifestEntry)) :
    ∀ st, ∃ l, (entries.foldl (phase1Step r d) st).errors = st.errors ++ l := by
  induction entries with
  | nil => intro st; exact ⟨[], by simp⟩
  | cons e rest ih =>
      intro st
      obtain ⟨l1, h1⟩ := phase1Step_errors_prefix r d st e
      obtain ⟨l2, h2⟩ := ih (phase1Step r d st e)
      exact ⟨l1 ++ l2, by rw [List.foldl_cons, h2, h1, List.append_assoc]⟩

theorem phase1Step_dir_mono (r : String) (d : Bool) (st : Phase1St)
    (e : String × ManifestEntry) (p : String)
    (h : st.world.dirExists p = true) :
    (phase1Step r d st e).world.dirExists p = true := by
  by_cases hd : st.world.dirExists (pjoin r e.2.path)
  · simpa [phase1Step, hd] using h
  · by_cases hdr : d = true
    · simpa [phase1Step, hd, hdr] using h
    · rw [Bool.not_eq_true] at hdr
      cases hru : repoToGitUrl e.2.repo with
      | none => simpa [phase1Step, hd, hdr, hru] using h
      | some up =>
          obtain ⟨url, br⟩ := up
          by_cases hc : st.world.cloneOk (pjoin r e.2.path)
          · simp [phase1Step, hd, hdr, hru, hc, World.addDir]
            exact Or.inr h
          · simpa [phase1Step, hd, hdr, hru, hc] using h

theorem phase1_fold_dir_mono (r : String) (d : Bool)
    (entries : List (String × ManifestEntry)) :
    ∀ st p, st.world.dirExists p = true →
    (entries.foldl (phase1Step r d) st).world.dirExists p = true := by
  induction entries with
  | nil => intro st p h; exact h
  | cons e rest ih =>
      intro st p h
      rw [List.foldl_cons]
      exact ih _ p (phase1Step_dir_mono r d st e p h)

theorem phase1Step_no_error_dir (r : String) (st : Phase1St)
    (e : String × ManifestEntry)
    (h : (phase1Step r false st e).errors = st.errors) :
    (phase1Step r false st e).world.dirExists (pjoin r e.2.path) = true := by
  by_cases hd : st.world.dirExists (pjoin r e.2.path)
  · simp [phase1Step, hd]
  · cases hru : repoToGitUrl e.2.repo with
    | none =>
        exfalso
        simp [phase1Step, hd, hru] at h
    | some up =>
        obtain ⟨url, br⟩ := up
        by_cases hc : st.world.cloneOk (pjoin r e.2.path)
        · simp [phase1Step, hd, hru, hc, World.addDir]
        · exfalso
          simp [phase1Step, hd, hru, hc] at h

theorem phase1_fold_success_dirs (r : String)
    (entries : List (String × ManifestEntry)) :
    ∀ st, (entries.foldl (phase1Step r false) st).errors = st.errors →
    ∀ e ∈ entries,
    (entries.foldl (phase1Step r false) st).world.dirExists (pjoin r e.2.path)
      = true := by
  induction entries with
  | nil => intro st h e he; cases he
  | cons e0 rest ih =>
      intro st h e he
      rw [List.foldl_cons] at h ⊢
      obtain ⟨l1, hl1⟩ := phase1Step_errors_prefix r false st e0
      obtain ⟨l2, hl2⟩ := phase1_fold_errors_prefix r false rest
        (phase1Step r false st e0)
      rw [hl2, hl1] at h
      have hlen := congrArg List.length h
      rw [List.length_append, List.length_append] at hlen
      have hl1e : l1 = [] := List.eq_nil_of_length_eq_zero (by omega)
      have hl2e : l2 = [] := List.eq_nil_of_length_eq_zero (by omega)
      have hstep : (phase1Step r false st e0).errors = st.errors := by
        rw [hl1, hl1e, List.append_nil]
      have hfold : (rest.foldl (phase1Step r false) (phase1Step r false st e0)).errors
          = (phase1Step r false st e0).errors := by
        rw [hl2, hl2e, List.append_nil]
      rcases List.mem_cons.mp he with rfl | hmem
      · exact phase1_fold_dir_mono r false rest _ _
          (phase1Step_no_error_dir r st e hstep)
      · exact ih _ hfold e hmem

theorem phase1Step_world_eta (r : String) (d : Bool) (st : Phase1St)
    (e : String × ManifestEntry) :
    (phase1Step r d st e).world
      = { st.world with dirExists := (phase1Step r d st e).world.dirExists } := by
  by_cases hd : st.world.dirExists (pjoin r e.2.path)
  · simp [phase1Step, hd]
  · by_cases hdr : d = true
    · simp [phase1Step, hd, hdr]
    · rw [Bool.not_eq_true] at hdr
      cases hru : repoToGitUrl e.2.repo with
      | none => simp [phase1Step, hd, hdr, hru]
      | some up =>
          obtain ⟨url, br⟩ := up
          by_cases hc : st.world.cloneOk (pjoin r e.2.path)
          · simp [phase1Step, hd, hdr, hru, hc, World.addDir]
          · simp [phase1Step, hd, hdr, hru, hc]

theorem phase1_fold_world_eta (r : String) (d : Bool)
    (entries : List (String × ManifestEntry)) :
    ∀ st, (entries.foldl (phase1Step r d) st).world
      = { st.world with
          dirExists := (entries.foldl (phase1Step r d) st).world.dirExists } := by
  induction entries with
  | nil => intro st; rfl
  | cons e rest ih =>
      intro st
      rw [List.foldl_cons]
      conv_lhs => rw [ih (phase1Step r d st e)]
      rw [phase1Step_world_eta]

theorem phase1_all_exist_skip (r : String) (d : Bool)
    (entries : List (String × ManifestEntry)) :
    ∀ (st : Phase1St),
    (∀ e ∈ entries, st.world.dirExists (pjoin r e.2.path) = true) →
    entries.foldl (phase1Step r d) st
      = ⟨st.world, st.cloned, st.skipped ++ entries.map Prod.fst, st.errors,
         st.calls ++ entries.map (fun e => Call.fsExists (pjoin r e.2.path))⟩ := by
  induction entries with
  | nil =>
      intro st h
      obtain ⟨w0, c0, s0, e0, l0⟩ := st
      simp
  | cons e rest ih =>
      intro st h
      rw [List.foldl_cons]
      have hd := h e (List.mem_cons_self _ _)
      have hstep : phase1Step r d st e
          = ⟨st.world, st.cloned, st.skipped ++ [e.1], st.errors,
             st.calls ++ [Call.fsExists (pjoin r e.2.path)]⟩ := by
        simp [phase1Step, hd]
      rw [hstep, ih _ (by intro e' he'; exact h e' (List.mem_cons_of_mem _ he'))]
      simp

theorem phase1Step_dry_calls (r : String) (st : Phase1St)
    (e : String × ManifestEntry) :
    ∀ c ∈ (phase1Step r true st e).calls,
    c ∈ st.calls ∨ mutatingCall c = false := by
  intro c hc
  by_cases hd : st.world.dirExists (pjoin r e.2.path)
  · simp [phase1Step, hd] at hc
    rcases hc with hc | hc
    · exact Or.inl hc
    · subst hc
      exact Or.inr rfl
  · simp [phase1Step, hd] at hc
    rcases hc with hc | hc
    · exact Or.inl hc
    · subst hc
      exact Or.inr rfl

theorem phase1_fold_dry_calls (r : String)
    (entries : List (String × ManifestEntry)) :
    ∀ st, ∀ c ∈ (entries.foldl (phase1Step r true) st).calls,
    c ∈ st.calls ∨ mutatingCall c = false := by
  induction entries with
  | nil => intro st c hc; exact Or.inl hc
  | cons e rest ih =>
      intro st c hc
      rw [List.foldl_cons] at hc
      rcases ih _ c hc with h | h
      · exact phase1Step_dry_calls r st e c h
      · exact Or.inr h

/-- C6 (amended): with `dryRun = false`, a successful `libInstall` is
idempotent with respect to cloning: an immediately following `libInstall`
with the same input on the returned world performs zero `git clone` calls,
records every manifest entry in `skipped` and none in `cloned`, and again
returns `success = true`. -/
theorem libInstall_idempotent_clones (input : InstallInput) (w : World)
    (out1 : InstallOut) (w1 : World) (calls1 : List Call)
    (hdry : input.dryRun = false)
    (h1 : libInstall input w = .ok (out1, w1, calls1))
    (hsuc : out1.success = true) :
    ∃ m out2 calls2,
      w.manifestAt (pjoin (pjoin (input.rootPath.getD (pjoin w.home "git"))
        "ecosystem") "ecosystem.manifest.json") = some m ∧
      libInstall input w1 = .ok (out2, w1, calls2) ∧
      out2.success = true ∧
      out2.cloned = [] ∧
      out2.skipped = m.packages.map Prod.fst ∧
      (∀ url path, Call.gitClone url path ∉ calls2) := by
  cases hm : w.manifestAt (pjoin (pjoin (input.rootPath.getD (pjoin w.home "git"))
      "ecosystem") "ecosystem.manifest.json") with
  | none =>
      exfalso
      simp only [libInstall, hm] at h1
      simp only [Except.ok.injEq, Prod.mk.injEq] at h1
      rw [← h1.1] at hsuc
      simp at hsuc
  | some m =>
      simp only [libInstall, hm, hdry, Bool.false_eq_true, if_false] at h1
      set MP := pjoin (pjoin (input.rootPath.getD (pjoin w.home "git"))
        "ecosystem") "ecosystem.manifest.json" with hMP
      set RR := resolveRoot w m.root with hRR
      set P1 := m.packages.foldl (phase1Step RR false)
        ⟨w, [], [], [], [Call.fsReadJson MP]⟩ with hP1
      set ALLN := buildDAGNodes (Scan.libScan (some RR) P1.world).packages
        with hALLN
      cases hdag : Dag.buildLeveledDAG (toNodeMap ALLN) with
      | error cyc =>
          rw [hdag] at h1
          exact absurd h1 (by simp)
      | ok dag =>
          rw [hdag] at h1
          simp only [Except.ok.injEq, Prod.mk.injEq] at h1
          obtain ⟨hout, hw1, hcalls⟩ := h1
          rw [← hout] at hsuc
          simp only [Bool.and_eq_true] at hsuc
          obtain ⟨hs1, hs2⟩ := hsuc
          have herr : P1.errors = [] := by simpa using hs2
          have hstate : (Exec.executeDAG dag.levels (installProcessor ALLN)
              (!input.continueOnError) P1.world).state = P1.world :=
            Exec.execGo_state_const _ _ (installProcessor_state_const ALLN) _ _
          have hw1' : w1 = P1.world := by rw [← hw1, hstate]
          have hweta : P1.world = { w with dirExists := P1.world.dirExists } :=
            phase1_fold_world_eta RR false m.packages _
          have hman2 : P1.world.manifestAt (pjoin (pjoin
              (input.rootPath.getD (pjoin P1.world.home "git")) "ecosystem")
              "ecosystem.manifest.json") = some m := by
            rw [hweta]
            exact hm
          have hRR2 : resolveRoot P1.world m.root = RR := by
            rw [hweta, hRR]
            rfl
          have hMP2 : pjoin (pjoin (input.rootPath.getD (pjoin P1.world.home
              "git")) "ecosystem") "ecosystem.manifest.json" = MP := by
            rw [hweta, hMP]
          have hdirs : ∀ e ∈ m.packages,
              P1.world.dirExists (pjoin RR e.2.path) = true :=
            phase1_fold_success_dirs RR m.packages _ herr
          have hp2 := phase1_all_exist_skip RR false m.packages
            ⟨P1.world, [], [], [], [Call.fsReadJson MP]⟩ hdirs
          have hrun2 : libInstall input P1.world = .ok
              (⟨(Exec.executeDAG dag.levels (installProcessor ALLN)
                  (!input.continueOnError) P1.world).success &&
                    List.isEmpty ([] : List String),
                [], [] ++ m.packages.map Prod.fst,
                mkResults ALLN (Exec.executeDAG dag.levels (installProcessor ALLN)
                  (!input.continueOnError) P1.world).pairs, []⟩,
               (Exec.executeDAG dag.levels (installProcessor ALLN)
                  (!input.continueOnError) P1.world).state,
               ([Call.fsReadJson MP] ++
                  m.packages.map (fun e => Call.fsExists (pjoin RR e.2.path))) ++
                 (Scan.libScan (some RR) P1.world).calls ++
                 (Exec.executeDAG dag.levels (installProcessor ALLN)
                  (!input.continueOnError) P1.world).calls) := by
            rw [hMP2] at hman2
            simp only [libInstall, hMP2, hman2, hdry, Bool.false_eq_true,
              if_false, hRR2]
            rw [hp2]
            dsimp only
            rw [hdag]
          rw [hw1', hrun2, hstate]
          refine ⟨m, _, _, rfl, rfl, ?_, rfl, by simp, ?_⟩
          · simp [hs1]
          · intro url path hmem
            rcases List.mem_append.mp hmem with hmem | hmem
            · rcases List.mem_append.mp hmem with hmem | hmem
              · rcases List.mem_cons.mp hmem with hmem | hmem
                · exact Call.noConfusion hmem
                · obtain ⟨e, -, he⟩ := List.mem_map.mp hmem
                  exact Call.noConfusion he.symm
              · have := Scan.libScan_calls_ro (some RR) P1.world _ hmem
                simp [mutatingCall] at this
            · exact Exec.execGo_calls_pred (installProcessor ALLN)
                (!input.continueOnError)
                (fun c => ∀ u p, c ≠ Call.gitClone u p)
                (installProcessor_calls_no_clone ALLN) dag.levels P1.world
                _ hmem url path rfl

/-- C6 (counterexample): under `dryRun = true` the claim fails: a first
`libInstall` run over a world with one uncloned manifest entry completes
with `success = true` (and an unchanged world), yet the immediately
following identical run records the entry in `cloned` again (dry-run
"clones" are recorded without creating the directory) and records nothing
in `skipped`. -/
theorem libInstall_dryRun_counterexample :
    (let w : World :=
      { home := "/h", cwd := "/h"
        dirExists := fun _ => false
        pkgJsonAt := fun _ => none
        manifestAt := fun _ =>
          some ⟨"/r", [("a", ⟨"github:mark1russell7/a#main", "a"⟩)]⟩
        gitStatusOf := fun _ => none
        gitRemoteUrl := fun _ => none
        cloneOk := fun _ => false
        pnpmInstallOk := fun _ => false
        pnpmBuildOk := fun _ => false
        rmOk := fun _ => false
        gitAddOk := fun _ => false
        gitCommitOk := fun _ => false
        gitPushOk := fun _ => false
        gitPullOk := fun _ => false
        gitCheckoutOk := fun _ => false
        pullCommits := fun _ => 0 }
    let input : InstallInput := ⟨some "/r", true, false⟩
    ∃ out1 calls1, libInstall input w = .ok (out1, w, calls1) ∧
      out1.success = true ∧
      ∃ out2 calls2, libInstall input w = .ok (out2, w, calls2) ∧
        out2.cloned = ["a"] ∧ out2.skipped = []) := by
  exact ⟨_, _, rfl, rfl, _, _, rfl, rfl, rfl⟩

/-- Witness for `libInstall_idempotent_clones`: a world with one manifest
entry whose clone, install and build succeed; the first run clones it, and
the second run over the returned world skips it. -/
theorem libInstall_idempotent_clones_witness :
    (let w : World :=
      { home := "/h", cwd := "/h"
        dirExists := fun _ => false
        pkgJsonAt := fun p =>
          if p = "/r/a/package.json" then some ⟨some "a", [], []⟩ else none
        manifestAt := fun _ =>
          some ⟨"/r", [("a", ⟨"github:mark1russell7/a#main", "a"⟩)]⟩
        gitStatusOf := fun p =>
          if p = "/r/a" then some ⟨"main", false, false, true⟩ else none
        gitRemoteUrl := fun _ => none
        cloneOk := fun _ => true
        pnpmInstallOk := fun _ => true
        pnpmBuildOk := fun _ => true
        rmOk := fun _ => false
        gitAddOk := fun _ => false
        gitCommitOk := fun _ => false
        gitPushOk := fun _ => false
        gitPullOk := fun _ => false
        gitCheckoutOk := fun _ => false
        pullCommits := fun _ => 0 }
    let w1 : World := w.addDir (pjoin "/r" "a")
    let input : InstallInput := ⟨some "/r", false, false⟩
    ∃ m out2 calls2,
      w.manifestAt (pjoin (pjoin (input.rootPath.getD (pjoin w.home "git"))
        "ecosystem") "ecosystem.manifest.json") = some m ∧
      libInstall input w1 = .ok (out2, w1, calls2) ∧
      out2.success = true ∧
      out2.cloned = [] ∧
      out2.skipped = m.packages.map Prod.fst ∧
      (∀ url path, Call.gitClone url path ∉ calls2)) := by
  exact libInstall_idempotent_clones _ _ _ _ _ rfl rfl rfl

/-- C10: when the ecosystem manifest cannot be read, `libInstall` does not
raise: it returns normally with `success = false`, empty `cloned`,
`skipped` and `results` lists, exactly one descriptive message in `errors`,
an unchanged world, and a call trace consisting of the single (read-only)
manifest read — in particular no clone, install, or build call. -/
theorem libInstall_manifest_missing (input : InstallInput) (w : World)
    (hm : w.manifestAt (pjoin (pjoin (input.rootPath.getD (pjoin w.home "git"))
      "ecosystem") "ecosystem.manifest.json") = none) :
    libInstall input w = .ok
      (⟨false, [], [], [],
        ["Could not load ecosystem manifest from "
          ++ pjoin (pjoin (input.rootPath.getD (pjoin w.home "git")) "ecosystem")
              "ecosystem.manifest.json"
          ++ ". Make sure the ecosystem package is cloned to "
          ++ (input.rootPath.getD (pjoin w.home "git")) ++ "/ecosystem"]⟩,
       w,
       [Call.fsReadJson (pjoin (pjoin (input.rootPath.getD (pjoin w.home "git"))
         "ecosystem") "ecosystem.manifest.json")]) ∧
    ∀ c ∈ [Call.fsReadJson (pjoin (pjoin (input.rootPath.getD (pjoin w.home "git"))
      "ecosystem") "ecosystem.manifest.json")], mutatingCall c = false := by
  constructor
  · simp only [libInstall, hm]
  · intro c hc
    rw [List.mem_singleton] at hc
    subst hc
    rfl

/-- Witness for `libInstall_manifest_missing`: a world with no readable
manifest anywhere. -/
theorem libInstall_manifest_missing_witness :
    (let w : World :=
      { home := "/h", cwd := "/h"
        dirExists := fun _ => false
        pkgJsonAt := fun _ => none
        manifestAt := fun _ => none
        gitStatusOf := fun _ => none
        gitRemoteUrl := fun _ => none
        cloneOk := fun _ => false
        pnpmInstallOk := fun _ => false
        pnpmBuildOk := fun _ => false
        rmOk := fun _ => false
        gitAddOk := fun _ => false
        gitCommitOk := fun _ => false
        gitPushOk := fun _ => false
        gitPullOk := fun _ => false
        gitCheckoutOk := fun _ => false
        pullCommits := fun _ => 0 }
    let input : InstallInput := ⟨none, false, false⟩
    libInstall input w = .ok
      (⟨false, [], [], [],
        ["Could not load ecosystem manifest from "
          ++ pjoin (pjoin (input.rootPath.getD (pjoin w.home "git")) "ecosystem")
              "ecosystem.manifest.json"
          ++ ". Make sure the ecosystem package is cloned to "
          ++ (input.rootPath.getD (pjoin w.home "git")) ++ "/ecosystem"]⟩,
       w,
       [Call.fsReadJson (pjoin (pjoin (input.rootPath.getD (pjoin w.home "git"))
         "ecosystem") "ecosystem.manifest.json")]) ∧
    ∀ c ∈ [Call.fsReadJson (pjoin (pjoin (input.rootPath.getD (pjoin w.home "git"))
      "ecosystem") "ecosystem.manifest.json")], mutatingCall c = false) :=
  libInstall_manifest_missing ⟨none, false, false⟩ _ rfl

end Install

namespace Refresh

theorem refreshSingleDry_calls (p n : String) (opts : RefreshOptions)
    (w : World) : ∀ c ∈ (refreshSingleDry p n opts w).2,
    mutatingCall c = false := by
  intro c hc
  simp only [refreshSingleDry] at hc
  rcases List.mem_append.mp hc with h | h
  · by_cases hf : opts.force = true
    · simp [hf] at h
      rcases h with rfl | rfl | rfl | rfl <;> rfl
    · rw [Bool.not_eq_true] at hf
      simp [hf] at h
  · by_cases hs : opts.skipGit = true
    · simp [hs] at h
    · rw [Bool.not_eq_true] at hs
      simp [hs] at h
      subst h
      rfl

theorem refreshSinglePackage_dry (p n : String) (opts : RefreshOptions)
    (w : World) (hdry : opts.dryRun = true) :
    refreshSinglePackage p n opts w
      = ((refreshSingleDry p n opts w).1, w, (refreshSingleDry p n opts w).2) := by
  simp [refreshSinglePackage, hdry]

theorem refreshProcessor_dry (nodes : List (String × DAGNode))
    (opts : RefreshOptions) (w0 : World) (hdry : opts.dryRun = true)
    (hcons : ∀ name node, alookup nodes name = some node →
      ((w0.gitStatusOf node.repoPath).map GitStatusData.branch).getD "main"
        = node.requiredBranch) :
    ∀ n, (refreshProcessor nodes opts n w0).2.2 = w0 ∧
      ∀ c ∈ (refreshProcessor nodes opts n w0).2.1, mutatingCall c = false := by
  intro n
  simp only [refreshProcessor]
  cases ha : alookup nodes n with
  | none =>
      refine ⟨rfl, ?_⟩
      intro c hc
      simp at hc
  | some node =>
      dsimp only
      obtain ⟨res, hres⟩ := ensureBranch_static node.repoPath
        node.requiredBranch w0 (hcons n node ha)
      rw [hres]
      cases res with
      | none =>
          refine ⟨rfl, ?_⟩
          intro c hc
          simp at hc
          subst hc
          rfl
      | some b =>
          dsimp only
          rw [refreshSinglePackage_dry node.repoPath node.name opts w0 hdry]
          refine ⟨rfl, ?_⟩
          intro c hc
          rcases List.mem_append.mp hc with h | h
          · simp at h
            subst h
            rfl
          · exact refreshSingleDry_calls node.repoPath node.name opts w0 c h

end Refresh

namespace Rename

theorem updatePackageJsonName_dry (p o n : String) (w : RenameWorld) :
    (updatePackageJsonName p o n true w).2.1 = w ∧
    (updatePackageJsonName p o n true w).2.2 = [Call.fsReadJson p] := by
  simp only [updatePackageJsonName]
  cases alookup w.pkgFiles p with
  | none => exact ⟨rfl, rfl⟩
  | some pkg =>
      by_cases hn : pkg.name = some o
      · simp [hn]
      · simp [hn]

theorem updatePackageJsonDependencies_dry (p o n : String) (w : RenameWorld) :
    (updatePackageJsonDependencies p o n true w).2.1 = w ∧
    (updatePackageJsonDependencies p o n true w).2.2 = [Call.fsReadJson p] := by
  simp only [updatePackageJsonDependencies]
  cases alookup w.pkgFiles p with
  | none => exact ⟨rfl, rfl⟩
  | some pkg => simp

theorem updateTsFile_dry (o n : String) (w : RenameWorld) (p : String) :
    (updateTsFile o n true w p).2.1 = w ∧
    (updateTsFile o n true w p).2.2 = [Call.tsRead p] := by
  simp only [updateTsFile]
  cases alookup w.tsFiles p with
  | none => exact ⟨rfl, rfl⟩
  | some imps => simp

theorem foldl_calls_pred {α : Type} (f : PassSt → α → PassSt)
    (P : Call → Prop)
    (hf : ∀ st a, ∃ l, (f st a).calls = st.calls ++ l ∧ ∀ c ∈ l, P c) :
    ∀ (xs : List α) (st : PassSt),
    (∀ c ∈ st.calls, P c) → ∀ c ∈ (xs.foldl f st).calls, P c := by
  intro xs
  induction xs with
  | nil => intro st h c hc; exact h c hc
  | cons x rest ih =>
      intro st h c hc
      rw [List.foldl_cons] at hc
      obtain ⟨l, hl, hP⟩ := hf st x
      refine ih _ ?_ c hc
      intro c2 hc2
      rw [hl] at hc2
      rcases List.mem_append.mp hc2 with h2 | h2
      · exact h c2 h2
      · exact hP c2 h2

end Rename

namespace Pull

/-- C5 (counterexample): the claim's second half — "the result carries a
planned-operations description" — fails for `lib.pull`: under `dryRun`,
`pullSinglePackage` produces a result with
`plannedOperations = ["git pull origin"]`, but `libPull` rebuilds its
returned results from the executor's success flags and that conversion sets
`plannedOperations` to nothing (and `commits` to 0), so the dry-run output
carries no planned-operations description. -/
theorem libPull_dryRun_planned_dropped :
    (let w : World :=
      { home := "/h", cwd := "/h"
        dirExists := fun _ => true
        pkgJsonAt := fun p =>
          if p = "/r/a/package.json" then some ⟨some "a", [], []⟩ else none
        manifestAt := fun _ => some ⟨"/r", [("a", ⟨"github:mark1russell7/a#main", "a"⟩)]⟩
        gitStatusOf := fun _ => some ⟨"main", false, false, true⟩
        gitRemoteUrl := fun _ => none
        cloneOk := fun _ => false
        pnpmInstallOk := fun _ => false
        pnpmBuildOk := fun _ => false
        rmOk := fun _ => false
        gitAddOk := fun _ => false
        gitCommitOk := fun _ => false
        gitPushOk := fun _ => false
        gitPullOk := fun _ => false
        gitCheckoutOk := fun _ => false
        pullCommits := fun _ => 0 }
    let input : PullInput := ⟨none, false, true, false⟩
    ∃ calls, libPull input w
        = (.ok ⟨true, [⟨"a", "/r/a", true, 0, none⟩]⟩, w, calls) ∧
      (pullSinglePackage "/r/a" "a" ⟨none, false, true⟩ w).1.plannedOperations
        = some ["git pull origin"]) :=
  ⟨_, rfl, rfl⟩

end Pull

/-- C5 (amended): dry-run purity. For every workflow invocation with
`dryRun = true` — install, refresh (all modes), pull, and rename — every
external call made during the run is a read-only query: no `fs.write`,
`fs.rm`, ts-morph save, mutating git call, or side-effecting pnpm call is
performed (`libInstall` moreover returns normally). The refresh case covers
`ensureBranch`, which is reached even under `dryRun`: each DAG node's
required branch is the branch the same scan read, so `ensureBranch` only
re-reads the status and never commits or checks out. -/
theorem dryRun_purity :
    (∀ (input : Install.InstallInput) (w : World), input.dryRun = true →
      ∃ out w' calls, Install.libInstall input w = .ok (out, w', calls) ∧
        ∀ c ∈ calls, mutatingCall c = false) ∧
    (∀ (input : Refresh.RefreshInput) (w : World), input.dryRun = true →
      ∀ c ∈ (Refresh.libRefresh input w).2.2, mutatingCall c = false) ∧
    (∀ (input : Pull.PullInput) (w : World), input.dryRun = true →
      ∀ c ∈ (Pull.libPull input w).2.2, mutatingCall c = false) ∧
    (∀ (input : Rename.RenameInput) (w : Rename.RenameWorld),
      input.dryRun = true →
      ∀ c ∈ (Rename.libRename input w).2.2, mutatingCall c = false) := by
  refine ⟨?_, ?_, ?_, ?_⟩
  · intro input w hdry
    cases hm : w.manifestAt (pjoin (pjoin (input.rootPath.getD
        (pjoin w.home "git")) "ecosystem") "ecosystem.manifest.json") with
    | none =>
        refine ⟨_, _, _, by simp only [Install.libInstall, hm]; rfl, ?_⟩
        intro c hc
        simp at hc
        subst hc
        rfl
    | some m =>
        refine ⟨_, _, _,
          by simp only [Install.libInstall, hm, hdry, eq_self_iff_true,
            if_true]; rfl, ?_⟩
        intro c hc
        rcases Install.phase1_fold_dry_calls _ m.packages _ c hc with h | h
        · simp at h
          subst h
          rfl
        · exact h
  · intro input w hdry c hc
    have hcons : ∀ name node,
        alookup (buildDAGNodes (Scan.libScan none w).packages) name
          = some node →
        ((w.gitStatusOf node.repoPath).map GitStatusData.branch).getD "main"
          = node.requiredBranch := by
      intro name node ha
      obtain ⟨p, hp, -, hrp, hrb⟩ := buildDAGNodes_mem _ (alookup_mem ha)
      have hb := Scan.libScan_packages_branch none w p hp
      rw [hrb, hrp, hb]
    simp only [Refresh.libRefresh] at hc
    by_cases hall : input.all = true
    · rw [if_pos hall] at hc
      cases hdag : Dag.buildLeveledDAG (toNodeMap
          (buildDAGNodes (Scan.libScan none w).packages)) with
      | error cyc =>
          rw [hdag] at hc
          exact Scan.libScan_calls_ro none w c hc
      | ok dag =>
          rw [hdag] at hc
          rcases List.mem_append.mp hc with h | h
          · exact Scan.libScan_calls_ro none w c h
          · exact (Exec.execGo_const _ (!input.autoConfirm) w
              (fun c => mutatingCall c = false)
              (fun n => (Refresh.refreshProcessor_dry _
                ⟨input.force, input.skipGit, input.dryRun⟩ w hdry hcons n).1)
              (fun n => (Refresh.refreshProcessor_dry _
                ⟨input.force, input.skipGit, input.dryRun⟩ w hdry hcons n).2)
              dag.levels).2 c h
    · rw [if_neg hall] at hc
      cases hpj : w.pkgJsonAt (pjoin
          (if strStarts input.path "/" || strIncludes input.path ":"
            then input.path else pjoin w.cwd input.path) "package.json") with
      | none =>
          rw [hpj] at hc
          rcases List.mem_append.mp hc with h | h
          · exact Scan.libScan_calls_ro none w c h
          · simp at h
            subst h
            rfl
      | some pkg =>
          rw [hpj] at hc
          by_cases hrec : input.recursive = true
          · simp only [hrec, Bool.not_true, Bool.false_eq_true, if_false] at hc
            by_cases hfe : (filterDAGFromRoot
                (buildDAGNodes (Scan.libScan none w).packages)
                (pkg.name.getD "unknown")).isEmpty = true
            · rw [if_pos hfe] at hc
              rw [Refresh.refreshSinglePackage_dry _ _ _ _ hdry] at hc
              rcases List.mem_append.mp hc with h | h
              · rcases List.mem_append.mp h with h1 | h1
                · exact Scan.libScan_calls_ro none w c h1
                · simp at h1
                  subst h1
                  rfl
              · exact Refresh.refreshSingleDry_calls
                  (if strStarts input.path "/" || strIncludes input.path ":"
                    then input.path else pjoin w.cwd input.path)
                  (pkg.name.getD "unknown")
                  ⟨input.force, input.skipGit, input.dryRun⟩ w c h
            · rw [if_neg hfe] at hc
              have hcons2 : ∀ name node,
                  alookup (filterDAGFromRoot
                    (buildDAGNodes (Scan.libScan none w).packages)
                    (pkg.name.getD "unknown")) name = some node →
                  ((w.gitStatusOf node.repoPath).map
                    GitStatusData.branch).getD "main" = node.requiredBranch :=
                fun name node ha =>
                  hcons name node (filterDAGFromRoot_sub _ _ _ (alookup_mem ha))
              cases hdag : Dag.buildLeveledDAG (toNodeMap
                  (filterDAGFromRoot
                    (buildDAGNodes (Scan.libScan none w).packages)
                    (pkg.name.getD "unknown"))) with
              | error cyc =>
                  rw [hdag] at hc
                  rcases List.mem_append.mp hc with h | h
                  · exact Scan.libScan_calls_ro none w c h
                  · simp at h
                    subst h
                    rfl
              | ok dag =>
                  rw [hdag] at hc
                  rcases List.mem_append.mp hc with h | h
                  · rcases List.mem_append.mp h with h1 | h1
                    · exact Scan.libScan_calls_ro none w c h1
                    · simp at h1
                      subst h1
                      rfl
                  · exact (Exec.execGo_const _ (!input.autoConfirm) w
                      (fun c => mutatingCall c = false)
                      (fun n => (Refresh.refreshProcessor_dry _
                        ⟨input.force, input.skipGit, input.dryRun⟩ w hdry
                        hcons2 n).1)
                      (fun n => (Refresh.refreshProcessor_dry _
                        ⟨input.force, input.skipGit, input.dryRun⟩ w hdry
                        hcons2 n).2)
                      dag.levels).2 c h
          · rw [Bool.not_eq_true] at hrec
            simp only [hrec, Bool.not_false, eq_self_iff_true, if_true] at hc
            rw [Refresh.refreshSinglePackage_dry _ _ _ _ hdry] at hc
            rcases List.mem_append.mp hc with h | h
            · rcases List.mem_append.mp h with h1 | h1
              · exact Scan.libScan_calls_ro none w c h1
              · simp at h1
                subst h1
                rfl
            · exact Refresh.refreshSingleDry_calls
                (if strStarts input.path "/" || strIncludes input.path ":"
                  then input.path else pjoin w.cwd input.path)
                (pkg.name.getD "unknown")
                ⟨input.force, input.skipGit, input.dryRun⟩ w c h
  · intro input w hdry c hc
    simp only [Pull.libPull] at hc
    cases hdag : Dag.buildLeveledDAG (toNodeMap
        (buildDAGNodes (Scan.libScan none w).packages)) with
    | error cyc =>
        rw [hdag] at hc
        exact Scan.libScan_calls_ro none w c hc
    | ok dag =>
        rw [hdag] at hc
        rcases List.mem_append.mp hc with h | h
        · exact Scan.libScan_calls_ro none w c h
        · have hpp : ∀ n s, ∀ c2 ∈ (Pull.pullProcessor
              (buildDAGNodes (Scan.libScan none w).packages)
              ⟨input.remote, input.rebase, input.dryRun⟩ n s).2.1,
              mutatingCall c2 = false := by
            intro n s c2 hc2
            simp only [Pull.pullProcessor] at hc2
            cases ha : alookup (buildDAGNodes (Scan.libScan none w).packages) n with
            | none =>
                rw [ha] at hc2
                simp at hc2
            | some node =>
                rw [ha] at hc2
                dsimp only at hc2
                have hz : (Pull.pullSinglePackage node.repoPath node.name
                    ⟨input.remote, input.rebase, input.dryRun⟩ s).2 = [] := by
                  simp [Pull.pullSinglePackage, hdry]
                rw [hz] at hc2
                simp at hc2
          exact Exec.execGo_calls_pred _ (!input.continueOnError)
            (fun c => mutatingCall c = false) hpp dag.levels w c h
  · intro input w hdry c hc
    simp only [Rename.libRename, hdry] at hc
    by_cases hex : w.dirExists
        (if strStarts (input.rootPath.getD (w.home ++ "/git")) "~"
          then w.home ++ (input.rootPath.getD (w.home ++ "/git")).drop 1
          else input.rootPath.getD (w.home ++ "/git")) = true
    · simp only [hex, Bool.not_true, Bool.false_eq_true, if_false] at hc
      refine Rename.foldl_calls_pred _ (fun c => mutatingCall c = false)
        ?_ _ _ ?_ c hc
      · intro st p
        refine ⟨(Rename.updateTsFile input.oldName input.newName true
          st.world p).2.2, rfl, ?_⟩
        intro c2 hc2
        rw [(Rename.updateTsFile_dry input.oldName input.newName st.world p).2]
          at hc2
        simp at hc2
        subst hc2
        rfl
      · refine Rename.foldl_calls_pred _ (fun c => mutatingCall c = false)
          ?_ _ _ ?_
        · intro st p
          refine ⟨(Rename.updatePackageJsonDependencies p input.oldName
            input.newName true st.world).2.2, rfl, ?_⟩
          intro c2 hc2
          rw [(Rename.updatePackageJsonDependencies_dry p input.oldName
            input.newName st.world).2] at hc2
          simp at hc2
          subst hc2
          rfl
        · refine Rename.foldl_calls_pred _ (fun c => mutatingCall c = false)
            ?_ _ _ ?_
          · intro st p
            refine ⟨(Rename.updatePackageJsonName p input.oldName
              input.newName true st.world).2.2, rfl, ?_⟩
            intro c2 hc2
            rw [(Rename.updatePackageJsonName_dry p input.oldName
              input.newName st.world).2] at hc2
            simp at hc2
            subst hc2
            rfl
          · intro c2 hc2
            simp at hc2
            rcases hc2 with rfl | rfl | rfl <;> rfl
    · rw [Bool.not_eq_true] at hex
      simp only [hex, Bool.not_false, eq_self_iff_true, if_true] at hc
      simp at hc
      subst hc
      rfl

theorem aset_eq_append {β : Type} (l : List (String × β)) (k : String) (v : β)
    (h : alookup l k = none) : aset l k v = l ++ [(k, v)] := by
  induction l with
  | nil => rfl
  | cons p t ih =>
      obtain ⟨a, b⟩ := p
      simp only [alookup] at h
      by_cases hak : a = k
      · rw [if_pos hak] at h
        exact absurd h (by simp)
      · rw [if_neg hak] at h
        simp [aset, hak, ih h]

theorem adelete_append_not_mem {β : Type} (l1 l2 : List (String × β))
    (k : String) (h : alookup l1 k = none) :
    adelete (l1 ++ l2) k = l1 ++ adelete l2 k := by
  induction l1 with
  | nil => rfl
  | cons p t ih =>
      obtain ⟨a, b⟩ := p
      simp only [alookup] at h
      by_cases hak : a = k
      · rw [if_pos hak] at h
        exact absurd h (by simp)
      · rw [if_neg hak] at h
        simp [adelete, hak, ih h]

theorem alookup_adelete_none {β : Type} (l : List (String × β)) (k q : String)
    (h : alookup l q = none) : alookup (adelete l k) q = none := by
  induction l with
  | nil => rfl
  | cons p t ih =>
      obtain ⟨a, b⟩ := p
      simp only [alookup] at h
      by_cases haq : a = q
      · rw [if_pos haq] at h
        exact absurd h (by simp)
      · rw [if_neg haq] at h
        by_cases hak : a = k
        · simp [adelete, hak, h]
        · simp [adelete, hak, alookup, haq, ih h]

theorem alookup_adelete_self {β : Type} (l : List (String × β)) (k : String)
    (hnd : (l.map Prod.fst).Nodup) : alookup (adelete l k) k = none := by
  induction l with
  | nil => rfl
  | cons p t ih =>
      obtain ⟨a, b⟩ := p
      simp only [List.map_cons, List.nodup_cons] at hnd
      by_cases hak : a = k
      · subst hak
        simp only [adelete, if_pos rfl]
        exact (alookup_eq_none t a).mpr hnd.1
      · simp [adelete, hak, alookup, ih hnd.2]

theorem map_cond_id_not_mem {β : Type} (l : List (String × β)) (k : String)
    (f : β → β) (h : k ∉ l.map Prod.fst) :
    l.map (fun kv => if kv.1 = k then (kv.1, f kv.2) else kv) = l := by
  induction l with
  | nil => rfl
  | cons p t ih =>
      obtain ⟨a, b⟩ := p
      simp only [List.map_cons, List.mem_cons, not_or] at h
      have hak : ¬ (a = k) := fun hh => h.1 hh.symm
      simp [hak, ih h.2]

theorem aset_map_lookup {β : Type} (l : List (String × β)) (k : String)
    (f : β → β) (hnd : (l.map Prod.fst).Nodup) :
    ∀ v, alookup l k = some v →
    aset l k (f v) = l.map (fun kv => if kv.1 = k then (kv.1, f kv.2) else kv) := by
  induction l with
  | nil => intro v hv; simp [alookup] at hv
  | cons p t ih =>
      obtain ⟨a, b⟩ := p
      intro v hv
      simp only [List.map_cons, List.nodup_cons] at hnd
      by_cases hak : a = k
      · subst hak
        simp [alookup] at hv
        subst hv
        simp [aset, map_cond_id_not_mem t a f hnd.1]
      · simp only [alookup, if_neg hak] at hv
        simp [aset, hak, ih hnd.2 v hv]

theorem isPrefixOf_append {α : Type} [BEq α] [LawfulBEq α] (p rest : List α) :
    p.isPrefixOf (p ++ rest) = true := by
  induction p with
  | nil => simp [List.isPrefixOf]
  | cons c t ih => simp [List.isPrefixOf, ih]

theorem replaceOnce_position0 (pat rep rest : List Char) (hne : pat ≠ []) :
    replaceOnce pat rep (pat ++ rest) = rep ++ rest := by
  cases pat with
  | nil => exact absurd rfl hne
  | cons c t =>
      have hp : (c :: t).isPrefixOf ((c :: t) ++ rest) = true :=
        isPrefixOf_append _ _
      show replaceOnce (c :: t) rep ((c :: t) ++ rest) = rep ++ rest
      rw [List.cons_append]
      simp only [replaceOnce]
      rw [show (c :: t).isPrefixOf (c :: (t ++ rest)) = true from hp]
      simp [List.drop_left]

theorem isSubList_position0 (p rest : List Char) :
    isSubList p (p ++ rest) = true := by
  cases p with
  | nil =>
      cases rest with
      | nil => rfl
      | cons c t => simp [isSubList, List.isPrefixOf]
  | cons c t =>
      have hp : (c :: t).isPrefixOf ((c :: t) ++ rest) = true :=
        isPrefixOf_append _ _
      show isSubList (c :: t) ((c :: t) ++ rest) = true
      rw [List.cons_append]
      simp only [isSubList]
      rw [show (c :: t).isPrefixOf (c :: (t ++ rest)) = true from hp]
      simp

theorem repoFragment_data_ne_nil (s : String) : (Rename.repoFragment s).data ≠ [] := by
  intro h
  have h2 := congrArg List.length h
  rw [Rename.repoFragment,
    show ("github:mark1russell7/" ++ strReplaceOnce s "@mark1russell7/" "").data
      = ("github:mark1russell7/").data ++ (strReplaceOnce s "@mark1russell7/" "").data
      from String.data_append _ _,
    List.length_append] at h2
  have h3 : ("github:mark1russell7/").data.length = 21 := rfl
  simp [h3] at h2

theorem strStarts_data {s p : String} (h : strStarts s p = true) :
    ∃ rest, s.data = p.data ++ rest := by
  obtain ⟨t, ht⟩ := List.isPrefixOf_iff_prefix.mp h
  exact ⟨t, ht.symm⟩

/-- Witness for `dryRun_purity` at the pull conjunct: the manifest read of
a dry pull over a world without a readable manifest is among its calls and
is not mutating. -/
theorem dryRun_purity_witness :
    mutatingCall (Call.fsReadJson "/h/git/ecosystem/ecosystem.manifest.json")
      = false :=
  dryRun_purity.2.2.1 ⟨none, false, true, false⟩
    { home := "/h", cwd := "/h"
      dirExists := fun _ => false
      pkgJsonAt := fun _ => none
      manifestAt := fun _ => none
      gitStatusOf := fun _ => none
      gitRemoteUrl := fun _ => none
      cloneOk := fun _ => false
      pnpmInstallOk := fun _ => false
      pnpmBuildOk := fun _ => false
      rmOk := fun _ => false
      gitAddOk := fun _ => false
      gitCommitOk := fun _ => false
      gitPushOk := fun _ => false
      gitPullOk := fun _ => false
      gitCheckoutOk := fun _ => false
      pullCommits := fun _ => 0 } rfl
    (Call.fsReadJson "/h/git/ecosystem/ecosystem.manifest.json")
    (by decide)

namespace Rename

theorem depNewValue_roundtrip (o n v : String)
    (hpref : strIncludes v (repoFragment o) = true →
      ∃ rest, v.data = (repoFragment o).data ++ rest)
    (hnew : strIncludes v (repoFragment o) = false →
      strIncludes v (repoFragment n) = false) :
    depNewValue n o (depNewValue o n v) = v := by
  by_cases hin : strIncludes v (repoFragment o) = true
  · obtain ⟨rest, hv⟩ := hpref hin
    have h1 : depNewValue o n v = ⟨(repoFragment n).data ++ rest⟩ := by
      simp only [depNewValue, hin, if_true]
      apply String.ext
      show replaceOnce (repoFragment o).data (repoFragment n).data v.data = _
      rw [hv, replaceOnce_position0 _ _ _ (repoFragment_data_ne_nil o)]
    rw [h1]
    have hin2 : strIncludes (⟨(repoFragment n).data ++ rest⟩ : String)
        (repoFragment n) = true := isSubList_position0 _ _
    simp only [depNewValue, hin2, if_true]
    apply String.ext
    show replaceOnce (repoFragment n).data (repoFragment o).data
        ((repoFragment n).data ++ rest) = v.data
    rw [replaceOnce_position0 _ _ _ (repoFragment_data_ne_nil n), hv]
  · rw [Bool.not_eq_true] at hin
    rw [show depNewValue o n v = v from by simp [depNewValue, hin]]
    simp [depNewValue, hnew hin]

theorem renameDepSection_roundtrip (o n : String) (d : List (String × String))
    (hnd : (d.map Prod.fst).Nodup)
    (hnone : alookup d n = none)
    (hval : ∀ v, alookup d o = some v →
      (strIncludes v (repoFragment o) = true →
        ∃ rest, v.data = (repoFragment o).data ++ rest) ∧
      (strIncludes v (repoFragment o) = false →
        strIncludes v (repoFragment n) = false)) :
    renameDepSection n o (renameDepSection o n d)
      = (match alookup d o with
         | none => d
         | some v => adelete d o ++ [(o, v)]) := by
  cases ho : alookup d o with
  | none =>
      rw [show renameDepSection o n d = d from by simp [renameDepSection, ho]]
      simp [renameDepSection, hnone]
  | some v =>
      have h1 : renameDepSection o n d
          = adelete d o ++ [(n, depNewValue o n v)] := by
        simp only [renameDepSection, ho]
        rw [aset_eq_append _ _ _ (alookup_adelete_none d o n hnone)]
      rw [h1]
      have h2 : alookup (adelete d o ++ [(n, depNewValue o n v)]) n
          = some (depNewValue o n v) := by
        rw [Dag.alookup_append_none (alookup_adelete_none d o n hnone)]
        simp [alookup]
      simp only [renameDepSection, h2]
      rw [adelete_append_not_mem _ _ _ (alookup_adelete_none d o n hnone),
        show adelete [(n, depNewValue o n v)] n = [] from by simp [adelete],
        List.append_nil,
        aset_eq_append _ _ _ (alookup_adelete_self d o hnd),
        depNewValue_roundtrip o n v (hval v ho).1 (hval v ho).2]

theorem map_cond_value_id {β : Type} (l : List (String × β)) (k : String)
    (f : β → β) (hnd : (l.map Prod.fst).Nodup)
    (h : ∀ v, alookup l k = some v → f v = v) :
    l.map (fun kv => if kv.1 = k then (kv.1, f kv.2) else kv) = l := by
  induction l with
  | nil => rfl
  | cons q t ih =>
      obtain ⟨a, b⟩ := q
      simp only [List.map_cons, List.nodup_cons] at hnd
      by_cases hak : a = k
      · subst hak
        have hb : f b = b := h b (by simp [alookup])
        simp [hb, map_cond_id_not_mem t a f hnd.1]
      · simp [hak, ih hnd.2 (fun v hv => h v (by simp [alookup, hak, hv]))]

theorem updName_world (p o n : String) (w : RenameWorld) :
    ((updatePackageJsonName p o n false w).2.1).home = w.home ∧
    ((updatePackageJsonName p o n false w).2.1).dirExists = w.dirExists ∧
    ((updatePackageJsonName p o n false w).2.1).tsFiles = w.tsFiles ∧
    ((w.pkgFiles.map Prod.fst).Nodup →
      ((updatePackageJsonName p o n false w).2.1).pkgFiles
        = w.pkgFiles.map (fun kv => if kv.1 = p then (kv.1,
            if kv.2.name = some o then { kv.2 with name := some n } else kv.2)
          else kv)) := by
  cases hp : alookup w.pkgFiles p with
  | none =>
      simp only [updatePackageJsonName, hp]
      refine ⟨by trivial, by trivial, by trivial, ?_⟩
      intro hnd
      exact (map_cond_id_not_mem w.pkgFiles p
        (fun x : RPkg => if x.name = some o then { x with name := some n }
          else x) ((alookup_eq_none _ _).mp hp)).symm
  | some pkg =>
      by_cases hname : pkg.name = some o
      · simp only [updatePackageJsonName, hp]
        rw [if_pos hname, if_neg (by simp : ¬ ((false : Bool) = true))]
        refine ⟨by trivial, by trivial, by trivial, ?_⟩
        intro hnd
        show aset w.pkgFiles p { pkg with name := some n } = _
        rw [show ({ pkg with name := some n } : RPkg)
            = (fun x : RPkg => if x.name = some o then { x with name := some n }
               else x) pkg from by simp [hname]]
        exact aset_map_lookup w.pkgFiles p
          (fun x : RPkg => if x.name = some o then { x with name := some n }
            else x) hnd pkg hp
      · simp only [updatePackageJsonName, hp]
        rw [if_neg hname]
        refine ⟨by trivial, by trivial, by trivial, ?_⟩
        intro hnd
        show w.pkgFiles = _
        refine (map_cond_value_id w.pkgFiles p
          (fun x : RPkg => if x.name = some o then { x with name := some n }
            else x) hnd ?_).symm
        intro v hv
        rw [hp] at hv
        cases hv
        simp [hname]

theorem updDeps_world (p o n : String) (w : RenameWorld) :
    ((updatePackageJsonDependencies p o n false w).2.1).home = w.home ∧
    ((updatePackageJsonDependencies p o n false w).2.1).dirExists = w.dirExists ∧
    ((updatePackageJsonDependencies p o n false w).2.1).tsFiles = w.tsFiles ∧
    ((w.pkgFiles.map Prod.fst).Nodup →
      ((updatePackageJsonDependencies p o n false w).2.1).pkgFiles
        = w.pkgFiles.map (fun kv => if kv.1 = p then (kv.1,
            { kv.2 with
              dependencies := kv.2.dependencies.map (renameDepSection o n)
              devDependencies := kv.2.devDependencies.map (renameDepSection o n)
              peerDependencies := kv.2.peerDependencies.map (renameDepSection o n)
              optionalDependencies :=
                kv.2.optionalDependencies.map (renameDepSection o n) })
          else kv)) := by
  cases hp : alookup w.pkgFiles p with
  | none =>
      simp only [updatePackageJsonDependencies, hp]
      refine ⟨by trivial, by trivial, by trivial, ?_⟩
      intro hnd
      exact (map_cond_id_not_mem w.pkgFiles p
        (fun x : RPkg => { x with
          dependencies := x.dependencies.map (renameDepSection o n)
          devDependencies := x.devDependencies.map (renameDepSection o n)
          peerDependencies := x.peerDependencies.map (renameDepSection o n)
          optionalDependencies :=
            x.optionalDependencies.map (renameDepSection o n) })
        ((alookup_eq_none _ _).mp hp)).symm
  | some pkg =>
      simp only [updatePackageJsonDependencies, hp, Bool.false_or]
      by_cases hce : ((if sectionHit o pkg.dependencies then
            [Change.mk "dependency" p] else []) ++
          (if sectionHit o pkg.devDependencies then
            [Change.mk "dependency" p] else []) ++
          (if sectionHit o pkg.peerDependencies then
            [Change.mk "dependency" p] else []) ++
          (if sectionHit o pkg.optionalDependencies then
            [Change.mk "dependency" p] else [])).isEmpty = true
      · rw [if_pos hce]
        refine ⟨by trivial, by trivial, by trivial, ?_⟩
        intro hnd
        rw [List.isEmpty_iff] at hce
        simp only [List.append_eq_nil] at hce
        obtain ⟨⟨⟨hc1, hc2⟩, hc3⟩, hc4⟩ := hce
        have hh1 : sectionHit o pkg.dependencies = false := by
          by_contra hx
          rw [Bool.not_eq_false] at hx
          rw [hx] at hc1
          simp at hc1
        have hh2 : sectionHit o pkg.devDependencies = false := by
          by_contra hx
          rw [Bool.not_eq_false] at hx
          rw [hx] at hc2
          simp at hc2
        have hh3 : sectionHit o pkg.peerDependencies = false := by
          by_contra hx
          rw [Bool.not_eq_false] at hx
          rw [hx] at hc3
          simp at hc3
        have hh4 : sectionHit o pkg.optionalDependencies = false := by
          by_contra hx
          rw [Bool.not_eq_false] at hx
          rw [hx] at hc4
          simp at hc4
        have hid : ∀ sec : Option (List (String × String)),
            sectionHit o sec = false → sec.map (renameDepSection o n) = sec := by
          intro sec hsec
          cases hd : sec with
          | none => rfl
          | some d =>
              rw [hd] at hsec
              simp only [sectionHit] at hsec
              have hao : alookup d o = none := by
                cases hao : alookup d o with
                | none => rfl
                | some v =>
                    rw [hao] at hsec
                    simp at hsec
              simp [renameDepSection, hao]
        show w.pkgFiles = _
        refine (map_cond_value_id w.pkgFiles p
          (fun x : RPkg => { x with
            dependencies := x.dependencies.map (renameDepSection o n)
            devDependencies := x.devDependencies.map (renameDepSection o n)
            peerDependencies := x.peerDependencies.map (renameDepSection o n)
            optionalDependencies :=
              x.optionalDependencies.map (renameDepSection o n) })
          hnd ?_).symm
        intro v hv
        rw [hp] at hv
        cases hv
        show ({ pkg with
          dependencies := pkg.dependencies.map (renameDepSection o n)
          devDependencies := pkg.devDependencies.map (renameDepSection o n)
          peerDependencies := pkg.peerDependencies.map (renameDepSection o n)
          optionalDependencies :=
            pkg.optionalDependencies.map (renameDepSection o n) } : RPkg) = pkg
        rw [hid _ hh1, hid _ hh2, hid _ hh3, hid _ hh4]
      · rw [if_neg hce]
        refine ⟨by trivial, by trivial, by trivial, ?_⟩
        intro hnd
        show aset w.pkgFiles p _ = _
        exact aset_map_lookup w.pkgFiles p
          (fun x : RPkg => { x with
            dependencies := x.dependencies.map (renameDepSection o n)
            devDependencies := x.devDependencies.map (renameDepSection o n)
            peerDependencies := x.peerDependencies.map (renameDepSection o n)
            optionalDependencies :=
              x.optionalDependencies.map (renameDepSection o n) })
          hnd pkg hp

theorem updTs_world (o n : String) (w : RenameWorld) (p : String) :
    ((updateTsFile o n false w p).2.1).home = w.home ∧
    ((updateTsFile o n false w p).2.1).dirExists = w.dirExists ∧
    ((updateTsFile o n false w p).2.1).pkgFiles = w.pkgFiles ∧
    ((w.tsFiles.map Prod.fst).Nodup →
      ((updateTsFile o n false w p).2.1).tsFiles
        = w.tsFiles.map (fun kv => if kv.1 = p then (kv.1,
            kv.2.map (fun i => { i with spec := renameSpec o n i.spec }))
          else kv)) := by
  cases hp : alookup w.tsFiles p with
  | none =>
      simp only [updateTsFile, hp]
      refine ⟨by trivial, by trivial, by trivial, ?_⟩
      intro hnd
      exact (map_cond_id_not_mem w.tsFiles p
        (fun v => v.map (fun i => { i with spec := renameSpec o n i.spec }))
        ((alookup_eq_none _ _).mp hp)).symm
  | some imps =>
      simp only [updateTsFile, hp, Bool.false_or]
      split
      · rename_i hce
        refine ⟨by trivial, by trivial, by trivial, ?_⟩
        intro hnd
        rw [List.isEmpty_iff] at hce
        simp only [List.append_eq_nil, List.map_eq_nil_iff,
          List.filter_eq_nil_iff] at hce
        obtain ⟨hstat, hdyn⟩ := hce
        have hmatch : ∀ i ∈ imps, specMatches o i.spec = false := by
          intro i hi
          have h1 := hstat i hi
          have h2 := hdyn i hi
          cases hdy : i.dynamic
          · rw [hdy] at h1
            simpa using h1
          · rw [hdy] at h2
            simpa using h2
        show w.tsFiles = _
        refine (map_cond_value_id w.tsFiles p
          (fun v => v.map (fun i => { i with spec := renameSpec o n i.spec }))
          hnd ?_).symm
        intro v hv
        rw [hp] at hv
        cases hv
        have hpt : ∀ i ∈ imps,
            ({ i with spec := renameSpec o n i.spec } : TsImport) = i := by
          intro i hi
          simp [renameSpec, hmatch i hi]
        show imps.map (fun i => { i with spec := renameSpec o n i.spec }) = imps
        rw [List.map_congr_left hpt]
        simp
      · refine ⟨by trivial, by trivial, by trivial, ?_⟩
        intro hnd
        show aset w.tsFiles p _ = _
        exact aset_map_lookup w.tsFiles p
          (fun v => v.map (fun i => { i with spec := renameSpec o n i.spec }))
          hnd imps hp

theorem renameFold_pkg (upd : String → RenameWorld → RenameWorld)
    (f : RPkg → RPkg)
    (hupd : ∀ p w, (upd p w).home = w.home ∧ (upd p w).dirExists = w.dirExists ∧
      (upd p w).tsFiles = w.tsFiles ∧
      ((w.pkgFiles.map Prod.fst).Nodup →
        (upd p w).pkgFiles = w.pkgFiles.map
          (fun kv => if kv.1 = p then (kv.1, f kv.2) else kv))) :
    ∀ (paths : List String), paths.Nodup →
    ∀ (w : RenameWorld), (w.pkgFiles.map Prod.fst).Nodup →
      (paths.foldl (fun w p => upd p w) w).home = w.home ∧
      (paths.foldl (fun w p => upd p w) w).dirExists = w.dirExists ∧
      (paths.foldl (fun w p => upd p w) w).tsFiles = w.tsFiles ∧
      (paths.foldl (fun w p => upd p w) w).pkgFiles
        = w.pkgFiles.map
            (fun kv => if kv.1 ∈ paths then (kv.1, f kv.2) else kv) := by
  intro paths
  induction paths with
  | nil =>
      intro _ w hnd
      refine ⟨rfl, rfl, rfl, ?_⟩
      symm
      simp
  | cons p rest ih =>
      intro hpaths w hnd
      rw [List.nodup_cons] at hpaths
      rw [List.foldl_cons]
      obtain ⟨e1, e2, e3, e4⟩ := hupd p w
      have hkeys : ((upd p w).pkgFiles).map Prod.fst = w.pkgFiles.map Prod.fst := by
        rw [e4 hnd, List.map_map]
        have hfn : (Prod.fst ∘ fun kv : String × RPkg =>
            if kv.1 = p then (kv.1, f kv.2) else kv) = Prod.fst := by
          funext kv
          by_cases h : kv.1 = p <;> simp [h]
        rw [hfn]
      have hnd' : (((upd p w).pkgFiles).map Prod.fst).Nodup := by
        rw [hkeys]
        exact hnd
      obtain ⟨i1, i2, i3, i4⟩ := ih hpaths.2 (upd p w) hnd'
      refine ⟨by rw [i1, e1], by rw [i2, e2], by rw [i3, e3], ?_⟩
      rw [i4, e4 hnd, List.map_map]
      congr 1
      funext kv
      by_cases h1 : kv.1 = p
      · have h2 : kv.1 ∉ rest := h1 ▸ hpaths.1
        rw [h1] at h2
        simp [h1, h2, Function.comp]
      · by_cases h3 : kv.1 ∈ rest <;> simp [h1, h3, Function.comp]

theorem renameFold_ts (upd : String → RenameWorld → RenameWorld)
    (f : List TsImport → List TsImport)
    (hupd : ∀ p w, (upd p w).home = w.home ∧ (upd p w).dirExists = w.dirExists ∧
      (upd p w).pkgFiles = w.pkgFiles ∧
      ((w.tsFiles.map Prod.fst).Nodup →
        (upd p w).tsFiles = w.tsFiles.map
          (fun kv => if kv.1 = p then (kv.1, f kv.2) else kv))) :
    ∀ (paths : List String), paths.Nodup →
    ∀ (w : RenameWorld), (w.tsFiles.map Prod.fst).Nodup →
      (paths.foldl (fun w p => upd p w) w).home = w.home ∧
      (paths.foldl (fun w p => upd p w) w).dirExists = w.dirExists ∧
      (paths.foldl (fun w p => upd p w) w).pkgFiles = w.pkgFiles ∧
      (paths.foldl (fun w p => upd p w) w).tsFiles
        = w.tsFiles.map
            (fun kv => if kv.1 ∈ paths then (kv.1, f kv.2) else kv) := by
  intro paths
  induction paths with
  | nil =>
      intro _ w hnd
      refine ⟨rfl, rfl, rfl, ?_⟩
      symm
      simp
  | cons p rest ih =>
      intro hpaths w hnd
      rw [List.nodup_cons] at hpaths
      rw [List.foldl_cons]
      obtain ⟨e1, e2, e3, e4⟩ := hupd p w
      have hkeys : ((upd p w).tsFiles).map Prod.fst = w.tsFiles.map Prod.fst := by
        rw [e4 hnd, List.map_map]
        have hfn : (Prod.fst ∘ fun kv : String × List TsImport =>
            if kv.1 = p then (kv.1, f kv.2) else kv) = Prod.fst := by
          funext kv
          by_cases h : kv.1 = p <;> simp [h]
        rw [hfn]
      have hnd' : (((upd p w).tsFiles).map Prod.fst).Nodup := by
        rw [hkeys]
        exact hnd
      obtain ⟨i1, i2, i3, i4⟩ := ih hpaths.2 (upd p w) hnd'
      refine ⟨by rw [i1, e1], by rw [i2, e2], by rw [i3, e3], ?_⟩
      rw [i4, e4 hnd, List.map_map]
      congr 1
      funext kv
      by_cases h1 : kv.1 = p
      · have h2 : kv.1 ∉ rest := h1 ▸ hpaths.1
        rw [h1] at h2
        simp [h1, h2, Function.comp]
      · by_cases h3 : kv.1 ∈ rest <;> simp [h1, h3, Function.comp]

theorem foldl_world_proj (f : String → RenameWorld → RenameWorld)
    (mk : PassSt → String → PassSt)
    (hmk : ∀ st p, (mk st p).world = f p st.world) :
    ∀ (paths : List String) (st : PassSt),
    ((paths.foldl mk st).world) = paths.foldl (fun w p => f p w) st.world := by
  intro paths
  induction paths with
  | nil => intro st; rfl
  | cons p rest ih =>
      intro st
      rw [List.foldl_cons, List.foldl_cons, ih, hmk]

theorem keys_map_value {β : Type} (l : List (String × β)) (g : String × β → β) :
    (l.map (fun kv => (kv.1, g kv))).map Prod.fst = l.map Prod.fst := by
  rw [List.map_map]
  rfl

theorem libRename_run (input : RenameInput) (w : RenameWorld)
    (hdr : input.dryRun = false)
    (hroot : w.dirExists
      (if strStarts (input.rootPath.getD (w.home ++ "/git")) "~"
        then w.home ++ (input.rootPath.getD (w.home ++ "/git")).drop 1
        else input.rootPath.getD (w.home ++ "/git")) = true)
    (hndp : (w.pkgFiles.map Prod.fst).Nodup)
    (hndt : (w.tsFiles.map Prod.fst).Nodup) :
    ((libRename input w).2.1).home = w.home ∧
    ((libRename input w).2.1).dirExists = w.dirExists ∧
    ((libRename input w).2.1).pkgFiles
      = w.pkgFiles.map (fun kv => (kv.1,
          { (if kv.2.name = some input.oldName
              then { kv.2 with name := some input.newName } else kv.2) with
            dependencies := kv.2.dependencies.map
              (renameDepSection input.oldName input.newName)
            devDependencies := kv.2.devDependencies.map
              (renameDepSection input.oldName input.newName)
            peerDependencies := kv.2.peerDependencies.map
              (renameDepSection input.oldName input.newName)
            optionalDependencies := kv.2.optionalDependencies.map
              (renameDepSection input.oldName input.newName) })) ∧
    ((libRename input w).2.1).tsFiles
      = w.tsFiles.map (fun kv => (kv.1,
          kv.2.map (fun i => { i with
            spec := renameSpec input.oldName input.newName i.spec }))) := by
  have e0 : (libRename input w).2.1
      = ((w.tsFiles.map Prod.fst).foldl
          (fun (st : PassSt) p =>
            ⟨(updateTsFile input.oldName input.newName false st.world p).2.1,
             st.changes ++ (updateTsFile input.oldName input.newName false
               st.world p).1,
             st.calls ++ (updateTsFile input.oldName input.newName false
               st.world p).2.2⟩)
          ((w.pkgFiles.map Prod.fst).foldl
            (fun (st : PassSt) p =>
              ⟨(updatePackageJsonDependencies p input.oldName input.newName
                  false st.world).2.1,
               st.changes ++ (updatePackageJsonDependencies p input.oldName
                 input.newName false st.world).1,
               st.calls ++ (updatePackageJsonDependencies p input.oldName
                 input.newName false st.world).2.2⟩)
            ((w.pkgFiles.map Prod.fst).foldl
              (fun (st : PassSt) p =>
                ⟨(updatePackageJsonName p input.oldName input.newName false
                    st.world).2.1,
                 st.changes ++ (match (updatePackageJsonName p input.oldName
                   input.newName false st.world).1 with
                   | some c => [c] | none => []),
                 st.calls ++ (updatePackageJsonName p input.oldName
                   input.newName false st.world).2.2⟩)
              ⟨w, [],
               [Call.fsExists (if strStarts (input.rootPath.getD
                  (w.home ++ "/git")) "~"
                  then w.home ++ (input.rootPath.getD (w.home ++ "/git")).drop 1
                  else input.rootPath.getD (w.home ++ "/git")),
                Call.fsGlob "**/package.json",
                Call.fsGlob "**/*.\x7bts,tsx\x7d"]⟩))).world := by
    simp only [libRename, hdr, hroot, Bool.not_true, Bool.false_eq_true,
      if_false]
  rw [foldl_world_proj
      (fun p w => (updateTsFile input.oldName input.newName false w p).2.1) _
      (fun st p => rfl),
    foldl_world_proj
      (fun p w => (updatePackageJsonDependencies p input.oldName input.newName
        false w).2.1) _
      (fun st p => rfl),
    foldl_world_proj
      (fun p w => (updatePackageJsonName p input.oldName input.newName
        false w).2.1) _
      (fun st p => rfl)] at e0
  have hW1 := renameFold_pkg
    (fun p w => (updatePackageJsonName p input.oldName input.newName false w).2.1)
    (fun x : RPkg => if x.name = some input.oldName
      then { x with name := some input.newName } else x)
    (fun p w => updName_world p input.oldName input.newName w)
    (w.pkgFiles.map Prod.fst) hndp w hndp
  obtain ⟨h1h, h1d, h1t, h1p⟩ := hW1
  have hnd1 : (((w.pkgFiles.map Prod.fst).foldl
      (fun w p => (updatePackageJsonName p input.oldName input.newName false
        w).2.1) w).pkgFiles.map Prod.fst).Nodup := by
    rw [h1p, List.map_map]
    have hfn : (Prod.fst ∘ fun kv : String × RPkg =>
        if kv.1 ∈ w.pkgFiles.map Prod.fst then (kv.1,
          if kv.2.name = some input.oldName
          then { kv.2 with name := some input.newName } else kv.2) else kv)
        = Prod.fst := by
      funext kv
      by_cases h : kv.1 ∈ w.pkgFiles.map Prod.fst <;> simp [h]
    rw [hfn]
    exact hndp
  have hW2 := renameFold_pkg
    (fun p w => (updatePackageJsonDependencies p input.oldName input.newName
      false w).2.1)
    (fun x : RPkg => { x with
      dependencies := x.dependencies.map
        (renameDepSection input.oldName input.newName)
      devDependencies := x.devDependencies.map
        (renameDepSection input.oldName input.newName)
      peerDependencies := x.peerDependencies.map
        (renameDepSection input.oldName input.newName)
      optionalDependencies := x.optionalDependencies.map
        (renameDepSection input.oldName input.newName) })
    (fun p w => updDeps_world p input.oldName input.newName w)
    (w.pkgFiles.map Prod.fst) hndp _ hnd1
  obtain ⟨h2h, h2d, h2t, h2p⟩ := hW2
  have hndt2 : ((((w.pkgFiles.map Prod.fst).foldl
      (fun w p => (updatePackageJsonDependencies p input.oldName input.newName
        false w).2.1)
      ((w.pkgFiles.map Prod.fst).foldl
        (fun w p => (updatePackageJsonName p input.oldName input.newName false
          w).2.1) w)).tsFiles).map Prod.fst).Nodup := by
    rw [h2t, h1t]
    exact hndt
  have hW3 := renameFold_ts
    (fun p w => (updateTsFile input.oldName input.newName false w p).2.1)
    (fun v => v.map (fun i => { i with
      spec := renameSpec input.oldName input.newName i.spec }))
    (fun p w => updTs_world input.oldName input.newName w p)
    (w.tsFiles.map Prod.fst) hndt _ hndt2
  obtain ⟨h3h, h3d, h3p, h3t⟩ := hW3
  rw [e0]
  refine ⟨by rw [h3h, h2h, h1h], by rw [h3d, h2d, h1d], ?_, ?_⟩
  · rw [h3p, h2p, h1p, List.map_map]
    apply List.map_congr_left
    intro kv hkv
    have hk : kv.1 ∈ w.pkgFiles.map Prod.fst := List.mem_map.mpr ⟨kv, hkv, rfl⟩
    simp only [Function.comp]
    rw [if_pos hk]
    dsimp only
    rw [if_pos hk]
    by_cases hc : kv.2.name = some input.oldName <;> simp [hc]
  · rw [h3t, h2t, h1t]
    apply List.map_congr_left
    intro kv hkv
    have hk : kv.1 ∈ w.tsFiles.map Prod.fst := List.mem_map.mpr ⟨kv, hkv, rfl⟩
    rw [if_pos hk]

theorem renameSpec_roundtrip (o n s : String) (ho : o.data ≠ [])
    (hn : n.data ≠ []) (hnos : specMatches n s = false) :
    renameSpec n o (renameSpec o n s) = s := by
  by_cases hm : specMatches o s = true
  · simp only [renameSpec, hm, if_true]
    simp only [specMatches, Bool.or_eq_true] at hm
    rcases hm with h1 | h1
    · have hs : s = o := by simpa using h1
      have h2 : strReplaceOnce s o n = n := by
        apply String.ext
        show replaceOnce o.data n.data s.data = n.data
        rw [hs]
        have h3 := replaceOnce_position0 o.data n.data [] ho
        simpa using h3
      rw [h2]
      have h4 : specMatches n n = true := by simp [specMatches]
      simp only [renameSpec, h4, if_true]
      apply String.ext
      show replaceOnce n.data o.data n.data = s.data
      rw [hs]
      have h5 := replaceOnce_position0 n.data o.data [] hn
      simpa using h5
    · obtain ⟨rest0, hs0⟩ := strStarts_data h1
      rw [show (o ++ "/").data = o.data ++ ['/'] from by
        rw [String.data_append]] at hs0
      rw [List.append_assoc] at hs0
      have hs : s.data = o.data ++ ('/' :: rest0) := hs0
      have h2 : strReplaceOnce s o n = ⟨n.data ++ ('/' :: rest0)⟩ := by
        apply String.ext
        show replaceOnce o.data n.data s.data = _
        rw [hs, replaceOnce_position0 _ _ _ ho]
      rw [h2]
      have h3 : specMatches n (⟨n.data ++ ('/' :: rest0)⟩ : String) = true := by
        simp only [specMatches, strStarts, Bool.or_eq_true]
        refine Or.inr ?_
        rw [show (n ++ "/").data = n.data ++ ['/'] from by
          rw [String.data_append]]
        have h6 : (n.data ++ ['/']) ++ rest0 = n.data ++ '/' :: rest0 := by
          simp
        show (n.data ++ ['/']).isPrefixOf (n.data ++ '/' :: rest0) = true
        rw [← h6]
        exact isPrefixOf_append _ _
      simp only [renameSpec, h3, if_true]
      apply String.ext
      show replaceOnce n.data o.data (n.data ++ ('/' :: rest0)) = s.data
      rw [replaceOnce_position0 _ _ _ hn, hs]
  · rw [Bool.not_eq_true] at hm
    simp [renameSpec, hm, hnos]

/-- C7 (amended): the rename round trip `old → new` then `new → old`
restores the tree up to dependency-key position: the TypeScript files are
restored exactly, and each `package.json` is restored except that in every
dependency section that contained `oldName` as a key, that key is moved to
the end of the section (the engine's `delete deps[old]; deps[new] = v`
appends, so the reverse pass re-appends `oldName` at the end).  Hygiene
hypotheses: `dryRun` off, non-empty names, duplicate-free file and section
keys, no occurrence of `newName` as a package name, section key, import
target, or version-specifier fragment, and `oldName` fragments occurring
only as specifier prefixes. -/
theorem libRename_roundtrip (input : RenameInput) (w : RenameWorld)
    (hdr : input.dryRun = false)
    (ho : input.oldName.data ≠ [])
    (hn : input.newName.data ≠ [])
    (hroot : w.dirExists
      (if strStarts (input.rootPath.getD (w.home ++ "/git")) "~"
        then w.home ++ (input.rootPath.getD (w.home ++ "/git")).drop 1
        else input.rootPath.getD (w.home ++ "/git")) = true)
    (hndp : (w.pkgFiles.map Prod.fst).Nodup)
    (hndt : (w.tsFiles.map Prod.fst).Nodup)
    (hname : ∀ kv ∈ w.pkgFiles, kv.2.name ≠ some input.newName)
    (hsec : ∀ kv ∈ w.pkgFiles, ∀ d : List (String × String),
      (kv.2.dependencies = some d ∨ kv.2.devDependencies = some d ∨
        kv.2.peerDependencies = some d ∨ kv.2.optionalDependencies = some d) →
      (d.map Prod.fst).Nodup ∧ alookup d input.newName = none ∧
      ∀ v, alookup d input.oldName = some v →
        (strIncludes v (repoFragment input.oldName) = true →
          ∃ rest, v.data = (repoFragment input.oldName).data ++ rest) ∧
        (strIncludes v (repoFragment input.oldName) = false →
          strIncludes v (repoFragment input.newName) = false))
    (hts : ∀ kv ∈ w.tsFiles, ∀ i ∈ kv.2,
      specMatches input.newName i.spec = false) :
    ((libRename ⟨input.newName, input.oldName, input.rootPath, input.dryRun⟩
        (libRename input w).2.1).2.1).home = w.home ∧
    ((libRename ⟨input.newName, input.oldName, input.rootPath, input.dryRun⟩
        (libRename input w).2.1).2.1).dirExists = w.dirExists ∧
    ((libRename ⟨input.newName, input.oldName, input.rootPath, input.dryRun⟩
        (libRename input w).2.1).2.1).tsFiles = w.tsFiles ∧
    ((libRename ⟨input.newName, input.oldName, input.rootPath, input.dryRun⟩
        (libRename input w).2.1).2.1).pkgFiles
      = w.pkgFiles.map (fun kv => (kv.1,
          { kv.2 with
            dependencies := kv.2.dependencies.map (fun d =>
              match alookup d input.oldName with
              | none => d
              | some v => adelete d input.oldName ++ [(input.oldName, v)])
            devDependencies := kv.2.devDependencies.map (fun d =>
              match alookup d input.oldName with
              | none => d
              | some v => adelete d input.oldName ++ [(input.oldName, v)])
            peerDependencies := kv.2.peerDependencies.map (fun d =>
              match alookup d input.oldName with
              | none => d
              | some v => adelete d input.oldName ++ [(input.oldName, v)])
            optionalDependencies := kv.2.optionalDependencies.map (fun d =>
              match alookup d input.oldName with
              | none => d
              | some v => adelete d input.oldName ++ [(input.oldName, v)]) })) := by
  obtain ⟨r1h, r1d, r1p, r1t⟩ := libRename_run input w hdr hroot hndp hndt
  have hroot2 : ((libRename input w).2.1).dirExists
      (if strStarts (input.rootPath.getD
          (((libRename input w).2.1).home ++ "/git")) "~"
        then ((libRename input w).2.1).home ++
          (input.rootPath.getD (((libRename input w).2.1).home ++ "/git")).drop 1
        else input.rootPath.getD (((libRename input w).2.1).home ++ "/git"))
      = true := by
    rw [r1h, r1d]
    exact hroot
  have hndp2 : ((((libRename input w).2.1).pkgFiles).map Prod.fst).Nodup := by
    rw [r1p, keys_map_value]
    exact hndp
  have hndt2 : ((((libRename input w).2.1).tsFiles).map Prod.fst).Nodup := by
    rw [r1t, keys_map_value]
    exact hndt
  obtain ⟨r2h, r2d, r2p, r2t⟩ := libRename_run
    ⟨input.newName, input.oldName, input.rootPath, input.dryRun⟩
    (libRename input w).2.1 hdr hroot2 hndp2 hndt2
  have hONE : ∀ (s : Option (List (String × String))),
      (∀ d, s = some d →
        (d.map Prod.fst).Nodup ∧ alookup d input.newName = none ∧
        ∀ v, alookup d input.oldName = some v →
          (strIncludes v (repoFragment input.oldName) = true →
            ∃ rest, v.data = (repoFragment input.oldName).data ++ rest) ∧
          (strIncludes v (repoFragment input.oldName) = false →
            strIncludes v (repoFragment input.newName) = false)) →
      Option.map (renameDepSection input.newName input.oldName)
          (Option.map (renameDepSection input.oldName input.newName) s)
        = Option.map (fun d => match alookup d input.oldName with
            | none => d
            | some v => adelete d input.oldName ++ [(input.oldName, v)]) s := by
    intro s hs
    cases s with
    | none => rfl
    | some d =>
        obtain ⟨hh1, hh2, hh3⟩ := hs d rfl
        show some (renameDepSection input.newName input.oldName
          (renameDepSection input.oldName input.newName d)) = _
        rw [renameDepSection_roundtrip input.oldName input.newName d hh1 hh2 hh3]
        rfl
  refine ⟨by rw [r2h, r1h], by rw [r2d, r1d], ?_, ?_⟩
  · rw [r2t, r1t, List.map_map]
    have hpt : ∀ kv ∈ w.tsFiles,
        ((fun kv : String × List TsImport => (kv.1,
            kv.2.map (fun i => { i with
              spec := renameSpec input.newName input.oldName i.spec }))) ∘
          (fun kv : String × List TsImport => (kv.1,
            kv.2.map (fun i => { i with
              spec := renameSpec input.oldName input.newName i.spec })))) kv
          = kv := by
      intro kv hkv
      simp only [Function.comp]
      rw [List.map_map]
      have hper : ∀ i ∈ kv.2,
          ((fun i : TsImport => { i with
              spec := renameSpec input.newName input.oldName i.spec }) ∘
            (fun i : TsImport => { i with
              spec := renameSpec input.oldName input.newName i.spec })) i = i := by
        intro i hi
        simp only [Function.comp]
        have hv := renameSpec_roundtrip input.oldName input.newName i.spec
          ho hn (hts kv hkv i hi)
        rw [hv]
      rw [List.map_congr_left hper]
      simp
    rw [List.map_congr_left hpt]
    simp
  · rw [r2p, r1p, List.map_map]
    apply List.map_congr_left
    intro kv hkv
    obtain ⟨kv1, pkg⟩ := kv
    obtain ⟨nm, d1, d2, d3, d4⟩ := pkg
    have hs1 := fun d hd => hsec _ hkv d (Or.inl hd)
    have hs2 := fun d hd => hsec _ hkv d (Or.inr (Or.inl hd))
    have hs3 := fun d hd => hsec _ hkv d (Or.inr (Or.inr (Or.inl hd)))
    have hs4 := fun d hd => hsec _ hkv d (Or.inr (Or.inr (Or.inr hd)))
    simp only [Function.comp]
    by_cases hc : nm = some input.oldName
    · rw [if_pos hc]
      dsimp only
      rw [if_pos rfl]
      dsimp only
      rw [hONE d1 hs1, hONE d2 hs2, hONE d3 hs3, hONE d4 hs4, hc]
    · rw [if_neg hc]
      dsimp only
      rw [if_neg (hname _ hkv)]
      dsimp only
      rw [hONE d1 hs1, hONE d2 hs2, hONE d3 hs3, hONE d4 hs4]

/-- C7 (counterexample): the round trip is NOT byte-identity: renaming
`old → new` and back moves the `old` dependency key from the middle of its
section to the end (forward: `delete deps[old]; deps[new] = v` appends
`new`; backward re-appends `old`), so the rewritten `package.json` differs
from the original even modulo JSON pretty-printing. -/
theorem libRename_key_position_counterexample :
    (let w : RenameWorld :=
      { home := "/h", dirExists := fun _ => true
        pkgFiles := [("/r/p/package.json",
          ⟨some "p",
           some [("a", "1"), ("old", "github:mark1russell7/old#main"),
             ("b", "2")], none, none, none⟩)]
        tsFiles := [] }
    ((libRename ⟨"new", "old", some "/r", false⟩
        (libRename ⟨"old", "new", some "/r", false⟩ w).2.1).2.1).pkgFiles
      = [("/r/p/package.json",
          ⟨some "p",
           some [("a", "1"), ("b", "2"),
             ("old", "github:mark1russell7/old#main")], none, none, none⟩)] ∧
    ((libRename ⟨"new", "old", some "/r", false⟩
        (libRename ⟨"old", "new", some "/r", false⟩ w).2.1).2.1).pkgFiles
      ≠ w.pkgFiles) := by
  exact ⟨rfl, by decide⟩

/-- Witness for `libRename_roundtrip`: a two-package tree with a renamed
package, a dependent with an owner/repo specifier, and TypeScript imports
of the renamed package. -/
theorem libRename_roundtrip_witness :
    (let w : RenameWorld :=
      { home := "/h", dirExists := fun _ => true
        pkgFiles := [("/r/p/package.json",
          ⟨some "old", some [("dep", "x")], none, none, none⟩),
          ("/r/q/package.json",
           ⟨some "q", some [("old", "github:mark1russell7/old#main")],
            none, none, none⟩)]
        tsFiles := [("/r/q/src/a.ts",
          [⟨false, "old"⟩, ⟨true, "old/sub"⟩, ⟨false, "x"⟩])] }
    ((libRename ⟨"new", "old", some "/r", false⟩
        (libRename ⟨"old", "new", some "/r", false⟩ w).2.1).2.1).home
      = w.home ∧
    ((libRename ⟨"new", "old", some "/r", false⟩
        (libRename ⟨"old", "new", some "/r", false⟩ w).2.1).2.1).dirExists
      = w.dirExists ∧
    ((libRename ⟨"new", "old", some "/r", false⟩
        (libRename ⟨"old", "new", some "/r", false⟩ w).2.1).2.1).tsFiles
      = w.tsFiles ∧
    ((libRename ⟨"new", "old", some "/r", false⟩
        (libRename ⟨"old", "new", some "/r", false⟩ w).2.1).2.1).pkgFiles
      = w.pkgFiles.map (fun kv => (kv.1,
          { kv.2 with
            dependencies := kv.2.dependencies.map (fun d =>
              match alookup d "old" with
              | none => d
              | some v => adelete d "old" ++ [("old", v)])
            devDependencies := kv.2.devDependencies.map (fun d =>
              match alookup d "old" with
              | none => d
              | some v => adelete d "old" ++ [("old", v)])
            peerDependencies := kv.2.peerDependencies.map (fun d =>
              match alookup d "old" with
              | none => d
              | some v => adelete d "old" ++ [("old", v)])
            optionalDependencies := kv.2.optionalDependencies.map (fun d =>
              match alookup d "old" with
              | none => d
              | some v => adelete d "old" ++ [("old", v)]) }))) := by
  refine libRename_roundtrip ⟨"old", "new", some "/r", false⟩ _ rfl
    (by decide) (by decide) rfl (by decide) (by decide) (by decide) ?_
    (by decide)
  intro kv hkv d hd
  simp only [List.mem_cons, List.not_mem_nil, or_false] at hkv
  rcases hkv with rfl | rfl
  · rcases hd with hd | hd | hd | hd
    · cases hd
      refine ⟨by decide, by decide, ?_⟩
      intro v hv
      simp [alookup] at hv
    · exact Option.noConfusion hd
    · exact Option.noConfusion hd
    · exact Option.noConfusion hd
  · rcases hd with hd | hd | hd | hd
    · cases hd
      refine ⟨by decide, by decide, ?_⟩
      intro v hv
      simp [alookup] at hv
      subst hv
      constructor
      · intro _
        exact ⟨"#main".data, by decide⟩
      · intro hfalse
        exact absurd hfalse (by decide)
    · exact Option.noConfusion hd
    · exact Option.noConfusion hd
    · exact Option.noConfusion hd

end Rename

end ClientLib
